import Mathlib

/-!
KraftedX2 calculator: the input and evaluation state machine of `src/Calculator.jsx`.

The React component keeps its state in `useState` cells and every handler is a
closure over the values of one render.  A handler is embedded as a function from
the state of that render to the state after all queued setter calls have been
applied, in program order.

JavaScript strings are lists of characters and JavaScript Numbers are IEEE-754
binary64 values, represented exactly: a finite Number is a sign and a rational
magnitude, and every arithmetic result is rounded to the nearest binary64 value
(ties to even), as ECMAScript prescribes.
-/

namespace Calculator

/-- JavaScript string values, as the list of their characters; the strings the
handlers build are made of ASCII characters, one UTF-16 code unit each. -/
abbrev Str := List Char

/-! ## Decimal digits -/

/-- Character of a decimal digit. -/
def digitChar : Nat → Char
  | 0 => '0'
  | 1 => '1'
  | 2 => '2'
  | 3 => '3'
  | 4 => '4'
  | 5 => '5'
  | 6 => '6'
  | 7 => '7'
  | 8 => '8'
  | _ => '9'

/-- Test for the characters `0` to `9`. -/
def isDigit (c : Char) : Bool := decide (48 ≤ c.toNat) && decide (c.toNat ≤ 57)

/-- Value of a decimal digit character. -/
def digitVal (c : Char) : Nat := c.toNat - 48

/-- Value of a string of decimal digits (the empty string has value 0). -/
def digitsVal (s : Str) : Nat := s.foldl (fun acc c => acc * 10 + digitVal c) 0

/-- Worker of `natToStr`: prepends the digits of `n` to `acc`. -/
def natToStrAux : Nat → Nat → Str → Str
  | 0, _, acc => acc
  | fuel + 1, n, acc =>
    if n < 10 then digitChar n :: acc
    else natToStrAux fuel (n / 10) (digitChar (n % 10) :: acc)

/-- Decimal representation of a natural number, without leading zeros. -/
def natToStr (n : Nat) : Str := natToStrAux (n + 1) n []

/-! ## Binary64 rounding -/

/-- Number of binary digits of `n` (0 for `n = 0`); the first argument is fuel. -/
def bitLen : Nat → Nat → Nat
  | 0, _ => 0
  | f + 1, n => if n = 0 then 0 else bitLen f (n / 2) + 1

/-- The power `2 ^ e` for an integer exponent. -/
def pow2 (e : Int) : ℚ :=
  if 0 ≤ e then ((2 ^ e.toNat : Nat) : ℚ) else 1 / ((2 ^ (-e).toNat : Nat) : ℚ)

/-- The power `10 ^ e` for an integer exponent. -/
def pow10 (e : Int) : ℚ :=
  if 0 ≤ e then ((10 ^ e.toNat : Nat) : ℚ) else 1 / ((10 ^ (-e).toNat : Nat) : ℚ)

/-- For `x > 0`, the integer `l` with `2 ^ l ≤ x < 2 ^ (l + 1)`. -/
def ilog2Q (x : ℚ) : Int :=
  let p := x.num.natAbs
  let q := x.den
  let d : Int := (bitLen p p : Int) - (bitLen q q : Int)
  if 0 ≤ d then (if q * 2 ^ d.toNat ≤ p then d else d - 1)
  else (if q ≤ p * 2 ^ (-d).toNat then d else d - 1)

/-- Rounding to the nearest integer, ties to the even one. -/
def roundHalfEven (x : ℚ) : Int :=
  let f := ⌊x⌋
  let r := x - f
  if r < 1 / 2 then f else if 1 / 2 < r then f + 1 else if f % 2 = 0 then f else f + 1

/-- The binary64 value nearest to the magnitude `x ≥ 0` (ties to even), with an
unbounded exponent range above: a result of `2 ^ 1024` or more stands for overflow. -/
def roundQ (x : ℚ) : ℚ :=
  let ex := max (ilog2Q x - 52) (-1074)
  (roundHalfEven (x / pow2 ex) : ℚ) * pow2 ex

/-! ## Number values -/

/-- ECMAScript Number values: NaN, the two infinities, and the finite values as a
sign and a magnitude (so that `fin true 0` is the negative zero). -/
inductive Num where
  | nan
  | inf (neg : Bool)
  | fin (neg : Bool) (mag : ℚ)
  deriving DecidableEq

namespace Num

/-- The Number nearest to the real number of sign `neg` and magnitude `mag`. -/
def roundMag (neg : Bool) (mag : ℚ) : Num :=
  let r := roundQ mag
  if pow2 1024 ≤ r then inf neg else fin neg r

/-- The signed rational value of a finite Number (0 for the others). -/
def toRat : Num → ℚ
  | fin neg mag => if neg then -mag else mag
  | _ => 0

/-- The Number nearest to a signed rational; an exact zero is the positive zero. -/
def ofRat (q : ℚ) : Num := roundMag (decide (q < 0)) |q|

/-- The Number of a natural number literal. -/
def ofNat (n : Nat) : Num := roundMag false n

/-- `Number.isFinite`. -/
def isFinite : Num → Bool
  | fin _ _ => true
  | _ => false

/-- The comparison `x === 0` (true of both zeros). -/
def isZero : Num → Bool
  | fin _ mag => decide (mag = 0)
  | _ => false

/-- The comparison `x < 0`. -/
def ltZero : Num → Bool
  | fin neg mag => neg && decide (mag ≠ 0)
  | inf neg => neg
  | nan => false

/-- The comparison `x <= 0`. -/
def leZero (x : Num) : Bool := x.ltZero || x.isZero

/-- Unary minus. -/
def negate : Num → Num
  | nan => nan
  | inf neg => inf (!neg)
  | fin neg mag => fin (!neg) mag

/-- The Number operator `+`. -/
def add : Num → Num → Num
  | nan, _ => nan
  | _, nan => nan
  | inf a, inf b => if a = b then inf a else nan
  | inf a, fin _ _ => inf a
  | fin _ _, inf b => inf b
  | fin a x, fin b y =>
    if x = 0 ∧ y = 0 then fin (a && b) 0
    else
      let s := (fin a x).toRat + (fin b y).toRat
      if s = 0 then fin false 0 else ofRat s

/-- The Number operator `-`. -/
def sub (x y : Num) : Num := add x (negate y)

/-- The Number operator `*`. -/
def mul : Num → Num → Num
  | nan, _ => nan
  | _, nan => nan
  | inf a, inf b => inf (xor a b)
  | inf a, fin b y => if y = 0 then nan else inf (xor a b)
  | fin a x, inf b => if x = 0 then nan else inf (xor a b)
  | fin a x, fin b y => roundMag (xor a b) (x * y)

/-- The Number operator `/`. -/
def div : Num → Num → Num
  | nan, _ => nan
  | _, nan => nan
  | inf _, inf _ => nan
  | inf a, fin b _ => inf (xor a b)
  | fin a _, inf b => fin (xor a b) 0
  | fin a x, fin b y =>
    if y = 0 then (if x = 0 then nan else inf (xor a b))
    else roundMag (xor a b) (x / y)

end Num

/-! ## Numbers from strings -/

/-- The white space and line terminator code points that `parseFloat` and
`Number` strip. -/
def isWhiteSpace (c : Char) : Bool :=
  let n := c.toNat
  n = 9 || n = 10 || n = 11 || n = 12 || n = 13 || n = 32 || n = 160 || n = 5760 ||
  (decide (8192 ≤ n) && decide (n ≤ 8202)) || n = 8232 || n = 8233 || n = 8239 ||
  n = 8287 || n = 12288 || n = 65279

/-- A scanned `StrUnsignedDecimalLiteral`: `Infinity`, or the digits of the
mantissa read as a natural number together with the decimal exponent. -/
inductive Lit where
  | infinity
  | dec (mant : Nat) (exp : Int)
  deriving DecidableEq

/-- Optional exponent part (`e`, an optional sign, digits): its value and the rest
of the input; when no digits follow, nothing is consumed. -/
def scanExponent (s : Str) : Int × Str :=
  match s with
  | [] => (0, s)
  | c :: t =>
    if c = 'e' ∨ c = 'E' then
      let signed : Bool × Str :=
        match t with
        | [] => (false, t)
        | d :: u => if d = '-' then (true, u) else if d = '+' then (false, u) else (false, t)
      let ds := signed.2.takeWhile isDigit
      let rest := signed.2.dropWhile isDigit
      if ds = [] then (0, s)
      else ((if signed.1 then -(digitsVal ds : Int) else (digitsVal ds : Int)), rest)
    else (0, s)

/-- Longest prefix of `s` that is a `StrUnsignedDecimalLiteral`, with the rest of
the input; `none` when no prefix is one. -/
def scanUnsigned (s : Str) : Option (Lit × Str) :=
  if "Infinity".toList.isPrefixOf s then some (Lit.infinity, s.drop 8)
  else
    let ip := s.takeWhile isDigit
    let r1 := s.dropWhile isDigit
    match r1 with
    | [] => if ip = [] then none else some (Lit.dec (digitsVal ip) 0, [])
    | c :: r2 =>
      if c = '.' then
        let fp := r2.takeWhile isDigit
        let r3 := r2.dropWhile isDigit
        if ip = [] ∧ fp = [] then none
        else
          let e := scanExponent r3
          some (Lit.dec (digitsVal (ip ++ fp)) (e.1 - fp.length), e.2)
      else if ip = [] then none
      else
        let e := scanExponent r1
        some (Lit.dec (digitsVal ip) e.1, e.2)

/-- An optional sign in front of a literal: whether it is `-`, and the rest. -/
def scanSign (s : Str) : Bool × Str :=
  match s with
  | [] => (false, s)
  | c :: r => if c = '-' then (true, r) else if c = '+' then (false, r) else (false, s)

/-- The Number denoted by a sign and a scanned literal. -/
def litValue (neg : Bool) : Lit → Num
  | Lit.infinity => Num.inf neg
  | Lit.dec m e => Num.roundMag neg ((m : ℚ) * pow10 e)

/-- The global function `parseFloat`: the value of the longest prefix of the
trimmed input that is a decimal literal, NaN when there is none. -/
def parseFloat (s : Str) : Num :=
  let t := s.dropWhile isWhiteSpace
  let sg := scanSign t
  match scanUnsigned sg.2 with
  | none => Num.nan
  | some (l, _) => litValue sg.1 l

/-- Value of a digit in a radix up to 16. -/
def radixDigit (c : Char) : Option Nat :=
  let n := c.toNat
  if 48 ≤ n ∧ n ≤ 57 then some (n - 48)
  else if 97 ≤ n ∧ n ≤ 102 then some (n - 87)
  else if 65 ≤ n ∧ n ≤ 70 then some (n - 55)
  else none

/-- Value of a non-empty string of digits of the given radix. -/
def radixVal (base : Nat) (s : Str) : Option Nat :=
  if s = [] then none
  else s.foldl (fun acc c =>
    match acc, radixDigit c with
    | some a, some d => if d < base then some (a * base + d) else none
    | _, _ => none) (some 0)

/-- A `NonDecimalIntegerLiteral` (`0x`, `0o`, `0b` and digits). -/
def radixLiteral (s : Str) : Option Nat :=
  match s with
  | z :: p :: ds =>
    if z = '0' then
      if p = 'x' ∨ p = 'X' then radixVal 16 ds
      else if p = 'o' ∨ p = 'O' then radixVal 8 ds
      else if p = 'b' ∨ p = 'B' then radixVal 2 ds
      else none
    else none
  | _ => none

/-- `Number(s)` on a string (`StringToNumber`): the whole trimmed string has to be
a numeric literal; the empty string is 0. -/
def stringToNumber (s : Str) : Num :=
  let t := ((s.dropWhile isWhiteSpace).reverse.dropWhile isWhiteSpace).reverse
  if t = [] then Num.fin false 0
  else
    match radixLiteral t with
    | some v => Num.roundMag false v
    | none =>
      let sg := scanSign t
      match scanUnsigned sg.2 with
      | some (l, []) => litValue sg.1 l
      | _ => Num.nan

/-! ## Numbers to strings -/

/-- Search upwards for the least `n` with `x < 10 ^ n`. -/
def decExpUp : Nat → ℚ → Int → Int
  | 0, _, n => n
  | fuel + 1, x, n => if x < pow10 n then n else decExpUp fuel x (n + 1)

/-- Search downwards for the greatest `n` with `10 ^ (n - 1) ≤ x`. -/
def decExpDown : Nat → ℚ → Int → Int
  | 0, _, n => n
  | fuel + 1, x, n => if pow10 (n - 1) ≤ x then n else decExpDown fuel x (n - 1)

/-- For a finite `x > 0`, the `n` with `10 ^ (n - 1) ≤ x < 10 ^ n`. -/
def decExp (x : ℚ) : Int :=
  if 1 ≤ x then decExpUp 400 x 1 else decExpDown 400 x 0

/-- The `k`-digit integer `s`, if any, for which `s * 10 ^ (n - k)` rounds to `x`;
of two, the one nearer to `x`, and the even one when equally near. -/
def candidate (x : ℚ) (n : Int) (k : Nat) : Option Nat :=
  let scale := pow10 (n - k)
  let lo := ⌊x / scale⌋.toNat
  let hi := lo + 1
  if roundQ (lo * scale) = x then
    if roundQ (hi * scale) = x then
      (if x - lo * scale < hi * scale - x then some lo
       else if hi * scale - x < x - lo * scale then some hi
       else if lo % 2 = 0 then some lo else some hi)
    else some lo
  else if roundQ (hi * scale) = x then some hi
  else none

/-- Least number of digits `k`, from the given one on, with a `candidate`. -/
def shortestAux : Nat → ℚ → Int → Nat → Nat × Nat
  | 0, x, n, k => (⌊x / pow10 (n - k)⌋.toNat, k)
  | fuel + 1, x, n, k =>
    match candidate x n k with
    | some s => (s, k)
    | none => shortestAux fuel x n (k + 1)

/-- The triple `(s, k, n)` of `Number::toString`: `s` has `k` digits, `k` is as
small as possible and `s * 10 ^ (n - k)` is the binary64 value `x > 0`. -/
def shortest (x : ℚ) : Nat × Nat × Int :=
  let n := decExp x
  let sk := shortestAux 20 x n 1
  if sk.1 = 10 ^ sk.2 then (10 ^ (sk.2 - 1), sk.2, n + 1) else (sk.1, sk.2, n)

/-- Layout of the digits `ds` (`k` of them) with decimal exponent `n`. -/
def formatDigits (ds : Str) (k : Nat) (n : Int) : Str :=
  if (k : Int) ≤ n ∧ n ≤ 21 then ds ++ List.replicate (n - k).toNat '0'
  else if 0 < n ∧ n ≤ 21 then ds.take n.toNat ++ '.' :: ds.drop n.toNat
  else if -6 < n ∧ n ≤ 0 then '0' :: '.' :: (List.replicate (-n).toNat '0' ++ ds)
  else
    let e := n - 1
    let es := (if e < 0 then '-' else '+') :: natToStr e.natAbs
    if k = 1 then ds ++ 'e' :: es
    else ds.take 1 ++ '.' :: (ds.drop 1 ++ 'e' :: es)

/-- `Number::toString` of a positive finite value. -/
def posToString (x : ℚ) : Str :=
  let t := shortest x
  formatDigits (natToStr t.1) t.2.1 t.2.2

/-- `Number::toString` in radix 10, which is `x.toString()`. -/
def numToString : Num → Str
  | Num.nan => "NaN".toList
  | Num.inf neg => if neg then "-Infinity".toList else "Infinity".toList
  | Num.fin neg mag =>
    if mag = 0 then "0".toList
    else if neg then '-' :: posToString mag else posToString mag

/-- `Number.prototype.toFixed`: `x.toFixed(f)`. -/
def toFixed (x : Num) (f : Nat) : Str :=
  match x with
  | Num.fin neg mag =>
    if pow10 21 ≤ mag then numToString x
    else
      let n := ⌊mag * (10 ^ f : Nat) + 1 / 2⌋.toNat
      let m := natToStr n
      let z := if m.length ≤ f then List.replicate (f + 1 - m.length) '0' ++ m else m
      let body := if f = 0 then m else z.take (z.length - f) ++ '.' :: z.drop (z.length - f)
      if neg ∧ mag ≠ 0 then '-' :: body else body
  | _ => numToString x

/-! ## The Math object -/

/-- Worker of the integer square root: decides the bits from `2 ^ i` downwards. -/
def isqrtAux : Nat → ℚ → Nat → Nat
  | 0, t, r => if (((r + 1) ^ 2 : Nat) : ℚ) ≤ t then r + 1 else r
  | i + 1, t, r =>
    isqrtAux i t (if (((r + 2 ^ (i + 1)) ^ 2 : Nat) : ℚ) ≤ t then r + 2 ^ (i + 1) else r)

/-- The binary64 value nearest to the square root of a binary64 magnitude `x > 0`. -/
def sqrtQ (x : ℚ) : ℚ :=
  let ex := ilog2Q x / 2 - 52
  let t := x / pow2 (2 * ex)
  let r := isqrtAux 53 t 0
  let m := if t < ((r * r + r : Nat) : ℚ) + 1 / 4 then r else r + 1
  (m : ℚ) * pow2 ex

/-- `Math.sqrt`, which ECMAScript defines exactly. -/
def mathSqrt : Num → Num
  | Num.nan => Num.nan
  | Num.inf neg => if neg then Num.nan else Num.inf false
  | Num.fin neg mag =>
    if mag = 0 then Num.fin neg 0
    else if neg then Num.nan
    else Num.fin false (sqrtQ mag)

/-- `Math.PI`. -/
def mathPI : Num := Num.fin false (884279719003555 / 2 ^ 48)

/-- `Math.E`. -/
def mathE : Num := Num.fin false (6121026514868073 / 2 ^ 51)

/-- The functions of the Math object whose results ECMAScript leaves to the
implementation ("implementation-approximated"); the handlers take them as a
parameter and every statement below holds for all of them. -/
structure MathImpl where
  /-- `Math.sin` -/
  sin : Num → Num
  /-- `Math.cos` -/
  cos : Num → Num
  /-- `Math.tan` -/
  tan : Num → Num
  /-- `Math.pow` -/
  pow : Num → Num → Num
  /-- `Math.log10` -/
  log10 : Num → Num
  /-- `Math.log` -/
  log : Num → Num

/-! ## The component state -/

/-- An entry of the history (`calculationEntry`). -/
structure Entry where
  /-- `Date.now()` at creation -/
  id : Nat
  /-- the expression text -/
  calculation : Str
  /-- the result text -/
  result : Str
  /-- `new Date().toLocaleString()` at creation -/
  timestamp : Str
  deriving DecidableEq

/-- The `useState` cells of `Calculator` that the handlers read or write.  The
empty string is the unset value of `previousNumber`, `operation` and `error`. -/
structure State where
  currentNumber : Str
  previousNumber : Str
  operation : Str
  error : Str
  history : List Entry
  showHistory : Bool
  isScientific : Bool
  showShortcuts : Bool
  deriving DecidableEq

/-- The initial values given to `useState`. -/
def init : State where
  currentNumber := "0".toList
  previousNumber := []
  operation := []
  error := []
  history := []
  showHistory := false
  isScientific := false
  showShortcuts := false

/-- What a handler reads from the clock: `Date.now()` and
`new Date().toLocaleString()`. -/
structure Clock where
  now : Nat
  stamp : Str

/-- How the `switch` inside a `try` block ends: with a value for `result`, with a
thrown `Error` of the given message, or by returning from the handler. -/
inductive Outcome where
  | value (result : Num)
  | thrown (message : Str)
  | returned
  deriving DecidableEq

/-! ## The handlers -/

/-- `handleNumber(number)`. -/
def handleNumber (number : Str) (s : State) : State :=
  let q := { s with error := [] }
  if number = ".".toList then
    if s.currentNumber.contains '.' then q
    else { q with currentNumber := s.currentNumber ++ ".".toList }
  else if s.currentNumber = "0".toList then { q with currentNumber := number }
  else { q with currentNumber := s.currentNumber ++ number }

/-- The `switch (operation)` of `calculate`. -/
def binaryResult (operation : Str) (prev current : Num) : Outcome :=
  if operation = "+".toList then Outcome.value (Num.add prev current)
  else if operation = "-".toList then Outcome.value (Num.sub prev current)
  else if operation = "*".toList then Outcome.value (Num.mul prev current)
  else if operation = "/".toList then
    if current.isZero then Outcome.thrown "Cannot divide by zero".toList
    else Outcome.value (Num.div prev current)
  else Outcome.returned

/-- `calculate()`, called in the render whose state is `s`; `q` is the state with
the setter calls queued so far applied, and the result is `q` with the setter
calls of `calculate` applied as well. -/
def calculate (clk : Clock) (s q : State) : State :=
  if s.previousNumber = [] ∨ s.currentNumber = [] ∨ s.operation = [] then q
  else
    let prev := parseFloat s.previousNumber
    let current := parseFloat s.currentNumber
    match binaryResult s.operation prev current with
    | Outcome.returned => q
    | Outcome.thrown message =>
      { q with error := message, currentNumber := "0".toList, previousNumber := [],
               operation := [] }
    | Outcome.value result =>
      if result.isFinite then
        -- `Number(parseFloat(result.toFixed(8)))`: `Number` of a Number is that Number
        let result := parseFloat (toFixed result 8)
        let calculationEntry : Entry :=
          { id := clk.now
            calculation := s.previousNumber ++ " ".toList ++ s.operation ++ " ".toList ++
              s.currentNumber
            result := numToString result
            timestamp := clk.stamp }
        { q with history := calculationEntry :: q.history,
                 currentNumber := numToString result, previousNumber := [],
                 operation := [] }
      else
        { q with error := "Result is too large".toList, currentNumber := "0".toList,
                 previousNumber := [], operation := [] }

/-- `handleOperator(operator)`. -/
def handleOperator (clk : Clock) (operator : Str) (s : State) : State :=
  let q := { s with error := [] }
  if s.previousNumber ≠ [] ∧ s.currentNumber ≠ [] ∧ s.operation ≠ [] then
    let q := calculate clk s q
    { q with previousNumber := s.currentNumber, currentNumber := "0".toList,
             operation := operator }
  else
    { q with previousNumber := s.currentNumber, currentNumber := "0".toList,
             operation := operator }

/-- The `switch (operation)` of `handleScientificOperation`. -/
def unaryResult (M : MathImpl) (operation : Str) (current : Num) : Outcome :=
  if operation = "sin".toList then
    Outcome.value (M.sin (Num.mul current (Num.div mathPI (Num.ofNat 180))))
  else if operation = "cos".toList then
    Outcome.value (M.cos (Num.mul current (Num.div mathPI (Num.ofNat 180))))
  else if operation = "tan".toList then
    Outcome.value (M.tan (Num.mul current (Num.div mathPI (Num.ofNat 180))))
  else if operation = "sqrt".toList then
    if current.ltZero then Outcome.thrown "Invalid input for square root".toList
    else Outcome.value (mathSqrt current)
  else if operation = "square".toList then Outcome.value (M.pow current (Num.ofNat 2))
  else if operation = "cube".toList then Outcome.value (M.pow current (Num.ofNat 3))
  else if operation = "log".toList then
    if current.leZero then Outcome.thrown "Invalid input for logarithm".toList
    else Outcome.value (M.log10 current)
  else if operation = "ln".toList then
    if current.leZero then Outcome.thrown "Invalid input for natural logarithm".toList
    else Outcome.value (M.log current)
  else if operation = "1/x".toList then
    if current.isZero then Outcome.thrown "Cannot divide by zero".toList
    else Outcome.value (Num.div (Num.ofNat 1) current)
  else if operation = "+/-".toList then
    Outcome.value (Num.mul current (Num.negate (Num.ofNat 1)))
  else Outcome.returned

/-- `handleScientificOperation(operation)`. -/
def handleScientificOperation (M : MathImpl) (clk : Clock) (operation : Str)
    (s : State) : State :=
  let current := parseFloat s.currentNumber
  match unaryResult M operation current with
  | Outcome.returned => s
  | Outcome.thrown message => { s with error := message, currentNumber := "0".toList }
  | Outcome.value result =>
    if result.isFinite then
      let result := stringToNumber (toFixed result 8)
      let calculationEntry : Entry :=
        { id := clk.now
          calculation := operation ++ "(".toList ++ s.currentNumber ++ ")".toList
          result := numToString result
          timestamp := clk.stamp }
      { s with history := calculationEntry :: s.history,
               currentNumber := numToString result }
    else { s with error := "Result is undefined".toList, currentNumber := "0".toList }

/-- `handleEqual()`. -/
def handleEqual (clk : Clock) (s : State) : State :=
  if s.operation = [] ∨ s.previousNumber = [] then s else calculate clk s s

/-- `handleClear()`. -/
def handleClear (s : State) : State :=
  { s with currentNumber := "0".toList, previousNumber := [], operation := [], error := [] }

/-- `handleBackspace()`. -/
def handleBackspace (s : State) : State :=
  if s.error ≠ [] then { s with error := [], currentNumber := "0".toList }
  else if s.currentNumber.length = 1 then { s with currentNumber := "0".toList }
  else { s with currentNumber := s.currentNumber.dropLast }

/-- `clearHistory()`; the removal of the stored copy is outside the state. -/
def clearHistory (s : State) : State := { s with history := [] }

/-- `deleteHistoryItem(id)`. -/
def deleteHistoryItem (id : Nat) (s : State) : State :=
  { s with history := s.history.filter (fun item => item.id ≠ id) }

/-- `useCalculation(result)`. -/
def useCalculation (result : Str) (s : State) : State :=
  { s with currentNumber := result, previousNumber := [], operation := [],
           showHistory := false }

/-- The `onClick` of a button of the scientific grid, `op` being `btn.op`. -/
def scientificButton (M : MathImpl) (clk : Clock) (op : Str) (s : State) : State :=
  if op = "pi".toList then { s with currentNumber := numToString mathPI }
  else if op = "e".toList then { s with currentNumber := numToString mathE }
  else handleScientificOperation M clk op s

/-! ## Keyboard dispatch -/

/-- The table `scientificKeyMap`. -/
def scientificKeyMap (key : Str) : Option Str :=
  if key = "s".toList then some "sin".toList
  else if key = "c".toList then some "cos".toList
  else if key = "t".toList then some "tan".toList
  else if key = "r".toList then some "sqrt".toList
  else if key = "l".toList then some "log".toList
  else if key = "n".toList then some "ln".toList
  else if key = "p".toList then some "pi".toList
  else if key = "e".toList then some "e".toList
  else none

/-- `key.toLowerCase()`, on the letters `A` to `Z`. -/
def toLowerCase (key : Str) : Str := key.map Char.toLower

/-- The test `/^[0-9.]$/.test(key)`. -/
def isNumberKey (key : Str) : Bool :=
  match key with
  | [c] => isDigit c || c = '.'
  | _ => false

/-- The test `['+', '-', '*', '/'].includes(key)`. -/
def isOperatorKey (key : Str) : Bool :=
  key = "+".toList || key = "-".toList || key = "*".toList || key = "/".toList

/-- `handleKeyPress(event)` for `event.key = key`; the transient `activeKey`
marker is not part of the state. -/
def handleKeyPress (M : MathImpl) (clk : Clock) (key : Str) (s : State) : State :=
  if toLowerCase key = "h".toList then { s with showShortcuts := !s.showShortcuts }
  else if isNumberKey key then handleNumber key s
  else if isOperatorKey key then handleOperator clk key s
  else if key = "Enter".toList ∨ key = "=".toList then handleEqual clk s
  else if key = "Backspace".toList then handleBackspace s
  else if key = "Escape".toList then handleClear s
  else if s.isScientific then
    match scientificKeyMap (toLowerCase key) with
    | some op => handleScientificOperation M clk op s
    | none => s
  else s

/-! ## Events -/

/-- The four operator buttons. -/
inductive Op where
  | divide
  | times
  | minus
  | plus
  deriving DecidableEq

/-- The argument an operator button passes to `handleOperator`. -/
def Op.toStr : Op → Str
  | Op.divide => "/".toList
  | Op.times => "*".toList
  | Op.minus => "-".toList
  | Op.plus => "+".toList

/-- The twelve buttons of the scientific grid. -/
inductive SciOp where
  | sin
  | cos
  | tan
  | sqrt
  | square
  | cube
  | log
  | ln
  | reciprocal
  | negate
  | pi
  | e
  deriving DecidableEq

/-- The `op` field of a button of the scientific grid. -/
def SciOp.toStr : SciOp → Str
  | SciOp.sin => "sin".toList
  | SciOp.cos => "cos".toList
  | SciOp.tan => "tan".toList
  | SciOp.sqrt => "sqrt".toList
  | SciOp.square => "square".toList
  | SciOp.cube => "cube".toList
  | SciOp.log => "log".toList
  | SciOp.ln => "ln".toList
  | SciOp.reciprocal => "1/x".toList
  | SciOp.negate => "+/-".toList
  | SciOp.pi => "pi".toList
  | SciOp.e => "e".toList

/-- What the user can do: press a button of the main screen, use the history
screen, or press a key. -/
inductive Event where
  /-- a digit button, `handleNumber(num.toString())` -/
  | digit (d : Fin 10)
  /-- the `.` button -/
  | point
  /-- an operator button -/
  | operator (op : Op)
  /-- the `=` button -/
  | equal
  /-- the `AC` button -/
  | clear
  /-- the backspace button -/
  | backspace
  /-- a button of the scientific grid -/
  | scientific (op : SciOp)
  /-- the mode switch between basic and scientific -/
  | toggleScientific
  /-- the button that opens the history screen -/
  | openHistory
  /-- the back button of the history screen -/
  | back
  /-- "Use" on the entry at position `i` of the history screen -/
  | useEntry (i : Nat)
  /-- "Delete" on the entry at position `i` of the history screen -/
  | deleteEntry (i : Nat)
  /-- "Clear All" on the history screen -/
  | clearHistory
  /-- a key press with `event.key = key` -/
  | key (key : Str)

/-- The state after the handler of an event has run. -/
def step (M : MathImpl) (clk : Clock) (ev : Event) (s : State) : State :=
  match ev with
  | Event.digit d => handleNumber (natToStr d.val) s
  | Event.point => handleNumber ".".toList s
  | Event.operator op => handleOperator clk op.toStr s
  | Event.equal => handleEqual clk s
  | Event.clear => handleClear s
  | Event.backspace => handleBackspace s
  | Event.scientific op => scientificButton M clk op.toStr s
  | Event.toggleScientific => { s with isScientific := !s.isScientific }
  | Event.openHistory => { s with showHistory := true }
  | Event.back => { s with showHistory := false }
  | Event.useEntry i =>
    match s.history.get? i with
    | some entry => useCalculation entry.result s
    | none => s
  | Event.deleteEntry i =>
    match s.history.get? i with
    | some entry => deleteHistoryItem entry.id s
    | none => s
  | Event.clearHistory => clearHistory s
  | Event.key key => handleKeyPress M clk key s

/-- The state after a sequence of events, each with the clock reading at its time. -/
def run (M : MathImpl) : List (Clock × Event) → State → State
  | [], s => s
  | (clk, ev) :: rest, s => run M rest (step M clk ev s)

/-- The state after mounting: the initial values, and the history read from
storage (`saved`, empty when nothing is stored). -/
def start (saved : List Entry) : State := { init with history := saved }

/-- The states a session can be in. -/
def Reachable (M : MathImpl) (saved : List Entry) (s : State) : Prop :=
  ∃ script : List (Clock × Event), s = run M script (start saved)

/-- One `MathImpl`, for closed examples: exact where ECMAScript fixes the result
(zero and one arguments, exponent zero), squares and cubes by multiplication, and
NaN elsewhere. -/
def sampleMath : MathImpl where
  sin := fun x => if x.isZero then x else Num.nan
  cos := fun x => if x.isZero then Num.ofNat 1 else Num.nan
  tan := fun x => if x.isZero then x else Num.nan
  pow := fun x y =>
    if y = Num.nan then Num.nan
    else if y.isZero then Num.ofNat 1
    else if y = Num.ofNat 2 then Num.mul x x
    else if y = Num.ofNat 3 then Num.mul (Num.mul x x) x
    else Num.nan
  log10 := fun x => if x = Num.ofNat 1 then Num.fin false 0 else Num.nan
  log := fun x => if x = Num.ofNat 1 then Num.fin false 0 else Num.nan

/-- A clock reading for closed examples. -/
def clock0 : Clock := { now := 1700000000000, stamp := "1/1/2024, 12:00:00 PM".toList }

/-- The state of the component in which `previousNumber`, `operation` and
`currentNumber` have the given values and everything else is initial. -/
def pending (previousNumber operation currentNumber : Str) : State :=
  { init with currentNumber := currentNumber, previousNumber := previousNumber,
              operation := operation }

/-- What every state of a session satisfies: `currentNumber` and the result text of
every history entry are non-empty, and `operation` is set exactly when
`previousNumber` is. -/
def WellFormed (s : State) : Prop :=
  s.currentNumber ≠ [] ∧ (∀ entry ∈ s.history, entry.result ≠ []) ∧
    (s.operation ≠ [] ↔ s.previousNumber ≠ [])

/-- Decimal string of an integer: a minus sign for the negative ones, then the
digits of the magnitude without leading zeros. -/
def intToStr (z : Int) : Str :=
  if z < 0 then '-' :: natToStr z.natAbs else natToStr z.natAbs

/-- The Number whose value is the integer `z`. -/
def Num.ofInt (z : Int) : Num := Num.fin (decide (z < 0)) (z.natAbs : ℚ)

/-- The Number `r` has the integer value `z`, the sign of a zero being free. -/
def Num.IsInt (r : Num) (z : Int) : Prop :=
  ∃ sg : Bool, r = Num.fin sg (z.natAbs : ℚ) ∧ (z ≠ 0 → sg = decide (z < 0))

/-! ## The spec's rounding and minimal decimal text -/

/-- The `j` low-order decimal digits of `b`, zeros included. -/
def lowDigits : Nat → Nat → Str
  | 0, _ => []
  | j + 1, b => lowDigits j (b / 10) ++ [digitChar (b % 10)]

/-- The string without its trailing occurrences of `c`. -/
def dropTrailing (c : Char) (s : Str) : Str :=
  (s.reverse.dropWhile fun d => d == c).reverse

/-- Following the spec's words "rounded to 8 decimal places": the number of units
of `10 ^ (-8)` nearest to the magnitude `mag`, a half counting upwards. -/
def specRound8 (mag : ℚ) : Nat := ⌊mag * 10 ^ 8 + 1 / 2⌋.toNat

/-- Following the spec's words: `n` units of `10 ^ (-8)` written with 8 decimals. -/
def specFixed8 (n : Nat) : Str := natToStr (n / 10 ^ 8) ++ '.' :: lowDigits 8 n

/-- Following the spec's words "minimal decimal string (no trailing zeros, no
trailing point)": the value of sign `neg` and `n` units of `10 ^ (-8)`, written with 8
decimals, then without the trailing zeros, then without a trailing point. -/
def specMinimalDecimal (neg : Bool) (n : Nat) : Str :=
  if neg = true ∧ n ≠ 0 then '-' :: dropTrailing '.' (dropTrailing '0' (specFixed8 n))
  else dropTrailing '.' (dropTrailing '0' (specFixed8 n))

/-! ## The text of the current operand -/

/-- Following the spec's words "at least one digit, at most one point", for the text
after the optional sign: digits and points only, a digit among them, and no more
than one point. -/
def specUnsignedDecimal (t : Str) : Bool :=
  t.all (fun c => isDigit c || c == '.') && t.any isDigit && decide (t.count '.' ≤ 1)

/-- Following the spec's words "decimal string: non-empty and parseable as a number
(optional minus sign, at least one digit, at most one point)". -/
def specDecimalString (t : Str) : Bool :=
  if t.head? = some '-' then specUnsignedDecimal t.tail else specUnsignedDecimal t

/-- History reuse: "Use" on an entry of the history screen. -/
def Event.isHistoryReuse : Event → Bool
  | Event.useEntry _ => true
  | _ => false

/-- Backspace, by its button or by its key. -/
def Event.isBackspace : Event → Bool
  | Event.backspace => true
  | Event.key k => decide (k = "Backspace".toList)
  | _ => false

/-- The buttons that type an operand or clear it: digits, the point, the operators,
`AC` and backspace. -/
def Event.isTyping : Event → Bool
  | Event.digit _ => true
  | Event.point => true
  | Event.operator _ => true
  | Event.clear => true
  | Event.backspace => true
  | _ => false

/-- The texts `new` that a handler can leave in `currentNumber` without typing or
removing a character: the text `old` it found, "0", or the text of a Number. -/
def ResultText (old new : Str) : Prop :=
  new = old ∨ new = "0".toList ∨ ∃ x : Num, new = numToString x

/-- A typed operand: digits and points only, no more than one point, and a digit in
front. -/
def TypedText (t : Str) : Prop :=
  (∀ c ∈ t, isDigit c = true ∨ c = '.') ∧ t.count '.' ≤ 1 ∧
    ∃ d rest, t = d :: rest ∧ isDigit d = true

/-! # Properties of the handlers -/

theorem parseFloat_nil : parseFloat [] = Num.nan := by decide

/-- C8: when `operation` or `previousNumber` is empty, `calculate` (resolve) and
`handleEqual` (equals) leave the whole state unchanged: current operand, pending
operand, pending operator, error message and history. -/
theorem resolve_noop_without_pending (clk : Clock) (s : State)
    (h : s.operation = [] ∨ s.previousNumber = []) :
    calculate clk s s = s ∧ handleEqual clk s = s := by
  constructor
  · unfold calculate
    rcases h with h | h <;> simp [h]
  · unfold handleEqual
    simp [h]

theorem resolve_noop_without_pending_witness :
    (init.operation = [] ∨ init.previousNumber = []) ∧
      (calculate clock0 init init = init ∧ handleEqual clock0 init = init) :=
  ⟨Or.inl rfl, resolve_noop_without_pending clock0 init (Or.inl rfl)⟩

/-- C7: `handleBackspace` with an empty error removes the last character of
`currentNumber`, a `currentNumber` of length one becoming "0"; with a non-empty
error it clears the error and sets `currentNumber` to "0"; in every case
`previousNumber`, `operation` and the history are unchanged. -/
theorem backspace_spec (s : State) :
    (s.error = [] →
      (handleBackspace s).currentNumber =
        if s.currentNumber.length = 1 then "0".toList else s.currentNumber.dropLast) ∧
    (s.error ≠ [] →
      (handleBackspace s).error = [] ∧ (handleBackspace s).currentNumber = "0".toList) ∧
    (handleBackspace s).previousNumber = s.previousNumber ∧
    (handleBackspace s).operation = s.operation ∧
    (handleBackspace s).history = s.history := by
  unfold handleBackspace
  refine ⟨fun h => ?_, fun h => ?_, ?_, ?_, ?_⟩
  · simp only [h, ne_eq, not_true_eq_false, if_false]
    split <;> rfl
  · simp [h]
  all_goals (split <;> [rfl; (split <;> rfl)])

theorem backspace_spec_witness :
    (handleBackspace (pending [] [] "12".toList)).currentNumber = "1".toList ∧
    (handleBackspace (pending [] [] "1".toList)).currentNumber = "0".toList ∧
    (handleBackspace { pending "8".toList "/".toList "0".toList with
        error := "Cannot divide by zero".toList }).error = [] ∧
    (handleBackspace { pending "8".toList "/".toList "0".toList with
        error := "Cannot divide by zero".toList }).currentNumber = "0".toList :=
  ⟨(backspace_spec (pending [] [] "12".toList)).1 rfl,
   (backspace_spec (pending [] [] "1".toList)).1 rfl,
   ((backspace_spec { pending "8".toList "/".toList "0".toList with
        error := "Cannot divide by zero".toList }).2.1 (by decide)).1,
   ((backspace_spec { pending "8".toList "/".toList "0".toList with
        error := "Cannot divide by zero".toList }).2.1 (by decide)).2⟩

theorem handleNumber_point_count (number : Str) (s : State)
    (hkey : isNumberKey number = true) (h : s.currentNumber.count '.' ≤ 1) :
    (handleNumber number s).currentNumber.count '.' ≤ 1 := by
  match number, hkey with
  | [c], hkey =>
    unfold handleNumber
    by_cases hc : c = '.'
    · subst hc
      by_cases hin : '.' ∈ s.currentNumber
      · simpa [hin] using h
      · have h0 : s.currentNumber.count '.' = 0 := List.count_eq_zero.mpr hin
        simp [hin, h0]
    · have hne : [c] ≠ ".".toList := by simpa using hc
      have hcount : [c].count '.' = 0 := by
        rw [List.count_eq_zero]
        simpa using fun h => hc h.symm
      simp only [hne, if_false]
      split
      · simp [hcount]
      · simp only [List.count_append, hcount]
        omega

/-- C6: `handleNumber` with a digit or the point keeps `currentNumber` at no more
than one decimal point; hence no sequence of such calls from the initial state
produces more than one point; and a point entered when one is present leaves
`currentNumber` unchanged. -/
theorem enterDigit_at_most_one_point :
    (∀ (number : Str) (s : State), isNumberKey number = true →
      s.currentNumber.count '.' ≤ 1 →
      (handleNumber number s).currentNumber.count '.' ≤ 1) ∧
    (∀ keys : List Str, (∀ k ∈ keys, isNumberKey k = true) →
      ((keys.foldl (fun s k => handleNumber k s) init).currentNumber.count '.' ≤ 1)) ∧
    (∀ s : State, s.currentNumber.contains '.' = true →
      (handleNumber ".".toList s).currentNumber = s.currentNumber) := by
  refine ⟨handleNumber_point_count, ?_, ?_⟩
  · intro keys
    have gen : ∀ (keys : List Str) (s : State), (∀ k ∈ keys, isNumberKey k = true) →
        s.currentNumber.count '.' ≤ 1 →
        (keys.foldl (fun s k => handleNumber k s) s).currentNumber.count '.' ≤ 1 := by
      intro keys
      induction keys with
      | nil => intro s _ h; simpa using h
      | cons k ks ih =>
        intro s hk h
        rw [List.foldl_cons]
        exact ih _ (fun k' hk' => hk k' (List.mem_cons_of_mem _ hk'))
          (handleNumber_point_count k s (hk k (List.mem_cons_self _ _)) h)
    intro hk
    exact gen keys init hk (by decide)
  · intro s h
    have hin : '.' ∈ s.currentNumber := by simpa using h
    simp [handleNumber, hin]

theorem enterDigit_at_most_one_point_witness :
    ((handleNumber ".".toList (pending [] [] "1.5".toList)).currentNumber.count '.' ≤ 1) ∧
    ((["1", ".", "5", ".", "2"].map String.toList).foldl
        (fun s k => handleNumber k s) init).currentNumber.count '.' ≤ 1 ∧
    (handleNumber ".".toList (pending [] [] "1.5".toList)).currentNumber = "1.5".toList :=
  ⟨enterDigit_at_most_one_point.1 ".".toList (pending [] [] "1.5".toList) (by decide)
      (by decide),
   enterDigit_at_most_one_point.2.1 (["1", ".", "5", ".", "2"].map String.toList)
      (by decide),
   enterDigit_at_most_one_point.2.2 (pending [] [] "1.5".toList) (by decide)⟩

/-- C3: with a pending operand, the operator `/` and a `currentNumber` that parses
to zero, `calculate` (resolve) and `handleEqual` fail with the division-by-zero
error: `error` becomes the non-empty message, `currentNumber` becomes "0",
`previousNumber` and `operation` are cleared and the history is unchanged. -/
theorem divide_by_zero_fails (clk : Clock) (s : State)
    (hprev : s.previousNumber ≠ []) (hop : s.operation = "/".toList)
    (hzero : (parseFloat s.currentNumber).isZero = true) :
    handleEqual clk s = calculate clk s s ∧
    (calculate clk s s).error = "Cannot divide by zero".toList ∧
    (calculate clk s s).error ≠ [] ∧
    (calculate clk s s).currentNumber = "0".toList ∧
    (calculate clk s s).previousNumber = [] ∧
    (calculate clk s s).operation = [] ∧
    (calculate clk s s).history = s.history := by
  have hcur : s.currentNumber ≠ [] := by
    intro h
    rw [h, parseFloat_nil] at hzero
    exact absurd hzero (by decide)
  have hopne : s.operation ≠ [] := by rw [hop]; decide
  have hcalc : calculate clk s s =
      { s with error := "Cannot divide by zero".toList, currentNumber := "0".toList,
               previousNumber := [], operation := [] } := by
    unfold calculate
    simp only [hprev, hcur, hopne, or_self, if_false]
    have hb : binaryResult s.operation (parseFloat s.previousNumber)
        (parseFloat s.currentNumber) = Outcome.thrown "Cannot divide by zero".toList := by
      rw [hop]
      simp [binaryResult, hzero]
    rw [hb]
  refine ⟨?_, ?_⟩
  · simp [handleEqual, hprev, hopne]
  · rw [hcalc]
    simp

theorem divide_by_zero_fails_witness :
    (calculate clock0 (pending "8".toList "/".toList "0".toList)
        (pending "8".toList "/".toList "0".toList)).error ≠ [] ∧
    (calculate clock0 (pending "8".toList "/".toList "0".toList)
        (pending "8".toList "/".toList "0".toList)).currentNumber = "0".toList ∧
    (calculate clock0 (pending "8".toList "/".toList "0.00".toList)
        (pending "8".toList "/".toList "0.00".toList)).history = [] :=
  ⟨(divide_by_zero_fails clock0 (pending "8".toList "/".toList "0".toList)
      (by decide) rfl (by decide!)).2.2.1,
   (divide_by_zero_fails clock0 (pending "8".toList "/".toList "0".toList)
      (by decide) rfl (by decide!)).2.2.2.1,
   (divide_by_zero_fails clock0 (pending "8".toList "/".toList "0.00".toList)
      (by decide) rfl (by decide!)).2.2.2.2.2.2⟩

theorem handleScientificOperation_thrown (M : MathImpl) (clk : Clock) (operation : Str)
    (s : State) (message : Str)
    (h : unaryResult M operation (parseFloat s.currentNumber) = Outcome.thrown message) :
    handleScientificOperation M clk operation s =
      { s with error := message, currentNumber := "0".toList } := by
  simp only [handleScientificOperation, h]

theorem handleScientificOperation_returned (M : MathImpl) (clk : Clock) (operation : Str)
    (s : State)
    (h : unaryResult M operation (parseFloat s.currentNumber) = Outcome.returned) :
    handleScientificOperation M clk operation s = s := by
  simp only [handleScientificOperation, h]

theorem handleScientificOperation_value (M : MathImpl) (clk : Clock) (operation : Str)
    (s : State) (r : Num)
    (h : unaryResult M operation (parseFloat s.currentNumber) = Outcome.value r) :
    handleScientificOperation M clk operation s =
      if r.isFinite = true then
        { s with
          history :=
            { id := clk.now
              calculation := operation ++ "(".toList ++ s.currentNumber ++ ")".toList
              result := numToString (stringToNumber (toFixed r 8))
              timestamp := clk.stamp } :: s.history
          currentNumber := numToString (stringToNumber (toFixed r 8)) }
      else { s with error := "Result is undefined".toList, currentNumber := "0".toList } := by
  simp only [handleScientificOperation, h]

/-- C4: `handleScientificOperation` fails when the operation is `sqrt` and
`currentNumber` parses to a negative number, `log` or `ln` and it parses to a number
at most 0, or `1/x` and it parses to 0: `currentNumber` becomes "0", `error` becomes
non-empty and the history is unchanged, as are the pending operand and operator. -/
theorem unary_domain_failure (M : MathImpl) (clk : Clock) (operation : Str) (s : State)
    (h : (operation = "sqrt".toList ∧ (parseFloat s.currentNumber).ltZero = true) ∨
         ((operation = "log".toList ∨ operation = "ln".toList) ∧
            (parseFloat s.currentNumber).leZero = true) ∨
         (operation = "1/x".toList ∧ (parseFloat s.currentNumber).isZero = true)) :
    (handleScientificOperation M clk operation s).currentNumber = "0".toList ∧
    (handleScientificOperation M clk operation s).error ≠ [] ∧
    (handleScientificOperation M clk operation s).history = s.history ∧
    (handleScientificOperation M clk operation s).previousNumber = s.previousNumber ∧
    (handleScientificOperation M clk operation s).operation = s.operation := by
  have key : ∃ message : Str, message ≠ [] ∧
      unaryResult M operation (parseFloat s.currentNumber) = Outcome.thrown message := by
    rcases h with ⟨hop, hc⟩ | ⟨hop | hop, hc⟩ | ⟨hop, hc⟩
    · exact ⟨"Invalid input for square root".toList, by decide, by
        rw [hop]; simp [unaryResult, hc]⟩
    · exact ⟨"Invalid input for logarithm".toList, by decide, by
        rw [hop]; simp [unaryResult, hc]⟩
    · exact ⟨"Invalid input for natural logarithm".toList, by decide, by
        rw [hop]; simp [unaryResult, hc]⟩
    · exact ⟨"Cannot divide by zero".toList, by decide, by
        rw [hop]; simp [unaryResult, hc]⟩
  obtain ⟨message, hne, hres⟩ := key
  rw [handleScientificOperation_thrown M clk operation s message hres]
  exact ⟨rfl, hne, rfl, rfl, rfl⟩

theorem unary_domain_failure_witness :
    (handleScientificOperation sampleMath clock0 "sqrt".toList
        (pending [] [] "-4".toList)).currentNumber = "0".toList ∧
    (handleScientificOperation sampleMath clock0 "sqrt".toList
        (pending [] [] "-4".toList)).error ≠ [] ∧
    (handleScientificOperation sampleMath clock0 "sqrt".toList
        (pending [] [] "-4".toList)).history = [] :=
  ⟨(unary_domain_failure sampleMath clock0 "sqrt".toList (pending [] [] "-4".toList)
      (Or.inl ⟨rfl, by decide!⟩)).1,
   (unary_domain_failure sampleMath clock0 "sqrt".toList (pending [] [] "-4".toList)
      (Or.inl ⟨rfl, by decide!⟩)).2.1,
   (unary_domain_failure sampleMath clock0 "sqrt".toList (pending [] [] "-4".toList)
      (Or.inl ⟨rfl, by decide!⟩)).2.2.1⟩

/-- C5: when the `switch` of `handleScientificOperation` yields a finite value `r`
(the operation succeeds), the new `currentNumber` is the result string (`r` rounded
to 8 decimals and printed), exactly one entry is put at the head of the history,
with expression text `operation(x)` for the previous `currentNumber` `x` and with the
new `currentNumber` as result text, and `previousNumber` and `operation` are
unchanged. -/
theorem unary_success (M : MathImpl) (clk : Clock) (operation : Str) (s : State) (r : Num)
    (hres : unaryResult M operation (parseFloat s.currentNumber) = Outcome.value r)
    (hfin : r.isFinite = true) :
    (handleScientificOperation M clk operation s).currentNumber =
      numToString (stringToNumber (toFixed r 8)) ∧
    (handleScientificOperation M clk operation s).history =
      { id := clk.now
        calculation := operation ++ "(".toList ++ s.currentNumber ++ ")".toList
        result := (handleScientificOperation M clk operation s).currentNumber
        timestamp := clk.stamp } :: s.history ∧
    (handleScientificOperation M clk operation s).previousNumber = s.previousNumber ∧
    (handleScientificOperation M clk operation s).operation = s.operation := by
  rw [handleScientificOperation_value M clk operation s r hres, if_pos hfin]
  exact ⟨rfl, rfl, rfl, rfl⟩

theorem unary_success_witness :
    (handleScientificOperation sampleMath clock0 "sqrt".toList
        (pending [] [] "4".toList)).currentNumber = "2".toList ∧
    (handleScientificOperation sampleMath clock0 "sqrt".toList
        (pending [] [] "4".toList)).history =
      [{ id := clock0.now, calculation := "sqrt(4)".toList, result := "2".toList,
         timestamp := clock0.stamp }] := by
  have h := unary_success sampleMath clock0 "sqrt".toList (pending [] [] "4".toList)
    (Num.fin false 2) (by decide!) rfl
  have e : numToString (stringToNumber (toFixed (Num.fin false 2) 8)) = "2".toList := by
    decide!
  refine ⟨h.1.trans e, ?_⟩
  rw [h.2.1, h.1, e]
  rfl

theorem calculate_skip (clk : Clock) (s q : State)
    (h : s.previousNumber = [] ∨ s.currentNumber = [] ∨ s.operation = []) :
    calculate clk s q = q := by
  simp only [calculate, h, if_true]

theorem calculate_returned (clk : Clock) (s q : State)
    (h : ¬(s.previousNumber = [] ∨ s.currentNumber = [] ∨ s.operation = []))
    (hres : binaryResult s.operation (parseFloat s.previousNumber)
      (parseFloat s.currentNumber) = Outcome.returned) :
    calculate clk s q = q := by
  simp only [calculate, h, if_false, hres]

theorem calculate_thrown (clk : Clock) (s q : State) (message : Str)
    (h : ¬(s.previousNumber = [] ∨ s.currentNumber = [] ∨ s.operation = []))
    (hres : binaryResult s.operation (parseFloat s.previousNumber)
      (parseFloat s.currentNumber) = Outcome.thrown message) :
    calculate clk s q =
      { q with error := message, currentNumber := "0".toList, previousNumber := [],
               operation := [] } := by
  simp only [calculate, h, if_false, hres]

theorem calculate_value (clk : Clock) (s q : State) (r : Num)
    (h : ¬(s.previousNumber = [] ∨ s.currentNumber = [] ∨ s.operation = []))
    (hres : binaryResult s.operation (parseFloat s.previousNumber)
      (parseFloat s.currentNumber) = Outcome.value r) :
    calculate clk s q =
      if r.isFinite = true then
        { q with
          history :=
            { id := clk.now
              calculation := s.previousNumber ++ " ".toList ++ s.operation ++ " ".toList ++
                s.currentNumber
              result := numToString (parseFloat (toFixed r 8))
              timestamp := clk.stamp } :: q.history
          currentNumber := numToString (parseFloat (toFixed r 8))
          previousNumber := []
          operation := [] }
      else
        { q with error := "Result is too large".toList, currentNumber := "0".toList,
                 previousNumber := [], operation := [] } := by
  simp only [calculate, h, if_false, hres]

/-- What `handleOperator` leaves in the pending operand: in both of its branches
the `currentNumber` of the render in which it was called. -/
theorem handleOperator_fields (clk : Clock) (operator : Str) (s : State) :
    (handleOperator clk operator s).previousNumber = s.currentNumber ∧
    (handleOperator clk operator s).currentNumber = "0".toList ∧
    (handleOperator clk operator s).operation = operator := by
  unfold handleOperator
  split <;> exact ⟨rfl, rfl, rfl⟩

/-- C2, the code at the failing input: after 5, +, 3 the pending addition resolves
to "8" (and `handleOperator` records the entry "5 + 3" with result "8"), yet
pressing `*` leaves `previousNumber` at "3", the operand that was typed. -/
theorem operator_chain_keeps_typed_operand :
    (calculate clock0 (pending "5".toList "+".toList "3".toList)
      (pending "5".toList "+".toList "3".toList)).currentNumber = "8".toList ∧
    handleNumber "3".toList (handleOperator clock0 "+".toList
      (handleNumber "5".toList init)) = pending "5".toList "+".toList "3".toList ∧
    handleOperator clock0 "*".toList (pending "5".toList "+".toList "3".toList) =
      { pending "3".toList "*".toList "0".toList with
        history := [{ id := clock0.now, calculation := "5 + 3".toList,
                      result := "8".toList, timestamp := clock0.stamp }] } := by
  decide!

/-! ## The pending operator and operand are set together -/

theorem zeroStr_ne_nil : "0".toList ≠ ([] : Str) := by decide

theorem natToStrAux_ne_nil (fuel n : Nat) (acc : Str) (h : acc ≠ [] ∨ fuel ≠ 0) :
    natToStrAux fuel n acc ≠ [] := by
  induction fuel generalizing n acc with
  | zero =>
    rcases h with h | h
    · simpa [natToStrAux] using h
    · exact absurd rfl h
  | succ fuel ih =>
    unfold natToStrAux
    split
    · exact List.cons_ne_nil _ _
    · exact ih _ _ (Or.inl (List.cons_ne_nil _ _))

theorem natToStr_ne_nil (n : Nat) : natToStr n ≠ [] :=
  natToStrAux_ne_nil (n + 1) n [] (Or.inr (Nat.succ_ne_zero n))

theorem formatDigits_ne_nil (ds : Str) (k : Nat) (n : Int) (h : ds ≠ []) :
    formatDigits ds k n ≠ [] := by
  unfold formatDigits
  split_ifs <;> simp [h]

theorem numToString_ne_nil (x : Num) : numToString x ≠ [] := by
  cases x with
  | nan => decide
  | inf neg => cases neg <;> decide
  | fin neg mag =>
    simp only [numToString]
    split_ifs
    · decide
    · exact List.cons_ne_nil _ _
    · exact formatDigits_ne_nil _ _ _ (natToStr_ne_nil _)

theorem wellFormed_start (saved : List Entry) (h : ∀ entry ∈ saved, entry.result ≠ []) :
    WellFormed (start saved) :=
  ⟨zeroStr_ne_nil, h, by simp [start, init]⟩

theorem wellFormed_handleNumber (number : Str) (s : State) (hn : number ≠ [])
    (h : WellFormed s) : WellFormed (handleNumber number s) := by
  obtain ⟨h1, h2, h3⟩ := h
  unfold handleNumber
  split_ifs <;> refine ⟨?_, h2, h3⟩ <;> simp [h1, hn]

theorem wellFormed_calculate (clk : Clock) (s q : State) (h : WellFormed q) :
    WellFormed (calculate clk s q) := by
  obtain ⟨h1, h2, h3⟩ := h
  by_cases hskip : s.previousNumber = [] ∨ s.currentNumber = [] ∨ s.operation = []
  · rw [calculate_skip clk s q hskip]
    exact ⟨h1, h2, h3⟩
  · cases hres : binaryResult s.operation (parseFloat s.previousNumber)
        (parseFloat s.currentNumber) with
    | returned =>
      rw [calculate_returned clk s q hskip hres]
      exact ⟨h1, h2, h3⟩
    | thrown message =>
      rw [calculate_thrown clk s q message hskip hres]
      exact ⟨zeroStr_ne_nil, h2, by simp⟩
    | value r =>
      rw [calculate_value clk s q r hskip hres]
      split_ifs
      · refine ⟨numToString_ne_nil _, ?_, by simp⟩
        intro entry he
        rcases List.mem_cons.mp he with he | he
        · rw [he]
          exact numToString_ne_nil _
        · exact h2 entry he
      · exact ⟨zeroStr_ne_nil, h2, by simp⟩

theorem wellFormed_handleOperator (clk : Clock) (operator : Str) (s : State)
    (hop : operator ≠ []) (h : WellFormed s) : WellFormed (handleOperator clk operator s) := by
  have hq : WellFormed { s with error := [] } := h
  have hc := wellFormed_calculate clk s _ hq
  unfold handleOperator
  split_ifs
  · exact ⟨zeroStr_ne_nil, hc.2.1, by simp [hop, h.1]⟩
  · exact ⟨zeroStr_ne_nil, h.2.1, by simp [hop, h.1]⟩

theorem wellFormed_handleEqual (clk : Clock) (s : State) (h : WellFormed s) :
    WellFormed (handleEqual clk s) := by
  unfold handleEqual
  split_ifs
  · exact h
  · exact wellFormed_calculate clk s s h

theorem wellFormed_handleClear (s : State) (h : WellFormed s) :
    WellFormed (handleClear s) :=
  ⟨zeroStr_ne_nil, h.2.1, by simp [handleClear]⟩

theorem wellFormed_handleBackspace (s : State) (h : WellFormed s) :
    WellFormed (handleBackspace s) := by
  obtain ⟨h1, h2, h3⟩ := h
  unfold handleBackspace
  split_ifs with he hl
  · exact ⟨zeroStr_ne_nil, h2, h3⟩
  · exact ⟨zeroStr_ne_nil, h2, h3⟩
  · refine ⟨?_, h2, h3⟩
    show s.currentNumber.dropLast ≠ []
    intro hd
    have hlen := congrArg List.length hd
    rw [List.length_dropLast] at hlen
    have hpos : s.currentNumber.length ≠ 0 := fun h0 => h1 (List.length_eq_zero.mp h0)
    simp only [List.length_nil] at hlen
    omega

theorem wellFormed_handleScientificOperation (M : MathImpl) (clk : Clock) (operation : Str)
    (s : State) (h : WellFormed s) :
    WellFormed (handleScientificOperation M clk operation s) := by
  obtain ⟨h1, h2, h3⟩ := h
  cases hres : unaryResult M operation (parseFloat s.currentNumber) with
  | returned =>
    rw [handleScientificOperation_returned M clk operation s hres]
    exact ⟨h1, h2, h3⟩
  | thrown message =>
    rw [handleScientificOperation_thrown M clk operation s message hres]
    exact ⟨zeroStr_ne_nil, h2, h3⟩
  | value r =>
    rw [handleScientificOperation_value M clk operation s r hres]
    split_ifs
    · refine ⟨numToString_ne_nil _, ?_, h3⟩
      intro entry he
      rcases List.mem_cons.mp he with he | he
      · rw [he]
        exact numToString_ne_nil _
      · exact h2 entry he
    · exact ⟨zeroStr_ne_nil, h2, h3⟩

theorem wellFormed_scientificButton (M : MathImpl) (clk : Clock) (op : Str)
    (s : State) (h : WellFormed s) : WellFormed (scientificButton M clk op s) := by
  unfold scientificButton
  split_ifs
  · exact ⟨numToString_ne_nil mathPI, h.2.1, h.2.2⟩
  · exact ⟨numToString_ne_nil mathE, h.2.1, h.2.2⟩
  · exact wellFormed_handleScientificOperation M clk op s h

theorem isNumberKey_ne_nil (key : Str) (h : isNumberKey key = true) : key ≠ [] := by
  intro hk
  rw [hk] at h
  exact absurd h (by decide)

theorem isOperatorKey_ne_nil (key : Str) (h : isOperatorKey key = true) : key ≠ [] := by
  intro hk
  rw [hk] at h
  exact absurd h (by decide)

theorem wellFormed_handleKeyPress (M : MathImpl) (clk : Clock) (key : Str)
    (s : State) (h : WellFormed s) : WellFormed (handleKeyPress M clk key s) := by
  unfold handleKeyPress
  split_ifs with h1 h2 h3 h4 h5 h6 h7
  · exact h
  · exact wellFormed_handleNumber key s (isNumberKey_ne_nil key h2) h
  · exact wellFormed_handleOperator clk key s (isOperatorKey_ne_nil key h3) h
  · exact wellFormed_handleEqual clk s h
  · exact wellFormed_handleBackspace s h
  · exact wellFormed_handleClear s h
  · split
    · exact wellFormed_handleScientificOperation M clk _ s h
    · exact h
  · exact h

theorem wellFormed_step (M : MathImpl) (clk : Clock) (ev : Event) (s : State)
    (h : WellFormed s) : WellFormed (step M clk ev s) := by
  cases ev with
  | digit d => exact wellFormed_handleNumber _ s (natToStr_ne_nil _) h
  | point => exact wellFormed_handleNumber _ s (by decide) h
  | operator op =>
    exact wellFormed_handleOperator clk _ s (by cases op <;> decide) h
  | equal => exact wellFormed_handleEqual clk s h
  | clear => exact wellFormed_handleClear s h
  | backspace => exact wellFormed_handleBackspace s h
  | scientific op => exact wellFormed_scientificButton M clk _ s h
  | toggleScientific => exact h
  | openHistory => exact h
  | back => exact h
  | useEntry i =>
    cases hg : s.history.get? i with
    | none =>
      simp only [step, hg]
      exact h
    | some entry =>
      simp only [step, hg]
      have hm : entry ∈ s.history := List.get?_mem hg
      exact ⟨h.2.1 entry hm, h.2.1, by simp [useCalculation]⟩
  | deleteEntry i =>
    cases hg : s.history.get? i with
    | none =>
      simp only [step, hg]
      exact h
    | some entry =>
      simp only [step, hg]
      exact ⟨h.1, fun e he => h.2.1 e (List.mem_filter.mp he).1, h.2.2⟩
  | clearHistory => exact ⟨h.1, fun e he => absurd he (List.not_mem_nil e), h.2.2⟩
  | key key => exact wellFormed_handleKeyPress M clk key s h

theorem wellFormed_run (M : MathImpl) (script : List (Clock × Event)) (s : State)
    (h : WellFormed s) : WellFormed (run M script s) := by
  induction script generalizing s with
  | nil => exact h
  | cons head rest ih => exact ih _ (wellFormed_step M head.1 head.2 s h)

/-- C9: in every state reachable from the initial state (with a stored history
whose entries have a result text) by digit, operator, equals, clear, backspace,
scientific, constant, history and key events, `operation` is set if and only if
`previousNumber` is non-empty. -/
theorem pending_operator_iff_operand (M : MathImpl) (saved : List Entry)
    (hsaved : ∀ entry ∈ saved, entry.result ≠ []) (s : State)
    (h : Reachable M saved s) : s.operation ≠ [] ↔ s.previousNumber ≠ [] := by
  obtain ⟨script, rfl⟩ := h
  exact (wellFormed_run M script _ (wellFormed_start saved hsaved)).2.2

theorem pending_operator_iff_operand_witness :
    (pending "5".toList "+".toList "0".toList).operation ≠ [] ↔
      (pending "5".toList "+".toList "0".toList).previousNumber ≠ [] :=
  pending_operator_iff_operand sampleMath [] (fun _ h => absurd h (List.not_mem_nil _))
    (pending "5".toList "+".toList "0".toList)
    ⟨[(clock0, Event.digit 5), (clock0, Event.operator Op.plus)], by decide⟩

/-! ## Decimal strings of natural numbers -/

theorem natToStrAux_eq (n : Nat) : ∀ (fuel : Nat) (acc : Str), n < fuel →
    natToStrAux fuel n acc = natToStr n ++ acc := by
  induction n using Nat.strong_induction_on with
  | _ n ih =>
    intro fuel acc hf
    obtain ⟨f, rfl⟩ : ∃ f, fuel = f + 1 := ⟨fuel - 1, by omega⟩
    unfold natToStr
    by_cases h10 : n < 10
    · simp [natToStrAux, h10]
    · have hdiv : n / 10 < n := Nat.div_lt_self (by omega) (by omega)
      simp only [natToStrAux, h10, if_false]
      rw [ih (n / 10) hdiv f _ (by omega), ih (n / 10) hdiv n _ hdiv]
      simp

theorem natToStr_eq (n : Nat) :
    natToStr n = if n < 10 then [digitChar n] else natToStr (n / 10) ++ [digitChar (n % 10)] := by
  by_cases h10 : n < 10
  · simp [natToStr, natToStrAux, h10]
  · have hdiv : n / 10 < n := Nat.div_lt_self (by omega) (by omega)
    rw [if_neg h10]
    conv_lhs => unfold natToStr
    simp only [natToStrAux, h10, if_false]
    exact natToStrAux_eq (n / 10) n _ hdiv

theorem isDigit_digitChar (d : Nat) : isDigit (digitChar d) = true := by
  unfold digitChar
  split <;> decide

theorem digitVal_digitChar (d : Nat) (h : d < 10) : digitVal (digitChar d) = d := by
  interval_cases d <;> decide

theorem natToStr_all_isDigit (n : Nat) : ∀ c ∈ natToStr n, isDigit c = true := by
  induction n using Nat.strong_induction_on with
  | _ n ih =>
    rw [natToStr_eq]
    split_ifs with h10
    · intro c hc
      rw [List.mem_singleton.mp hc]
      exact isDigit_digitChar n
    · intro c hc
      rcases List.mem_append.mp hc with hc | hc
      · exact ih (n / 10) (Nat.div_lt_self (by omega) (by omega)) c hc
      · rw [List.mem_singleton.mp hc]
        exact isDigit_digitChar _

theorem digitsVal_append_singleton (s : Str) (c : Char) :
    digitsVal (s ++ [c]) = digitsVal s * 10 + digitVal c := by
  simp [digitsVal, List.foldl_append]

theorem digitsVal_natToStr (n : Nat) : digitsVal (natToStr n) = n := by
  induction n using Nat.strong_induction_on with
  | _ n ih =>
    rw [natToStr_eq]
    split_ifs with h10
    · simp [digitsVal, digitVal_digitChar n h10]
    · rw [digitsVal_append_singleton, ih (n / 10) (Nat.div_lt_self (by omega) (by omega)),
        digitVal_digitChar _ (Nat.mod_lt _ (by omega))]
      omega

theorem natToStr_mul_ten (s : Nat) (h : 0 < s) : natToStr (s * 10) = natToStr s ++ ['0'] := by
  rw [natToStr_eq (s * 10), if_neg (by omega)]
  have h1 : s * 10 / 10 = s := by omega
  have h2 : s * 10 % 10 = 0 := by omega
  rw [h1, h2]
  rfl

theorem natToStr_mul_pow_ten (s : Nat) (h : 0 < s) (j : Nat) :
    natToStr (s * 10 ^ j) = natToStr s ++ List.replicate j '0' := by
  induction j with
  | zero => simp
  | succ j ih =>
    have hpos : 0 < s * 10 ^ j := Nat.mul_pos h (Nat.pow_pos (by omega))
    rw [pow_succ, ← Nat.mul_assoc, natToStr_mul_ten _ hpos, ih, List.append_assoc]
    congr 1
    exact (List.replicate_succ' j '0').symm ▸ rfl

theorem digitsVal_append_zeros (s : Str) (j : Nat) :
    digitsVal (s ++ List.replicate j '0') = digitsVal s * 10 ^ j := by
  induction j with
  | zero => simp
  | succ j ih =>
    rw [List.replicate_succ', ← List.append_assoc, digitsVal_append_singleton, ih, pow_succ]
    have : digitVal '0' = 0 := by decide
    rw [this]
    ring

theorem takeWhile_append_of_all {p : Char → Bool} (s t : Str) (h : ∀ c ∈ s, p c = true) :
    (s ++ t).takeWhile p = s ++ t.takeWhile p := by
  induction s with
  | nil => rfl
  | cons a s ih =>
    have ha := h a (List.mem_cons_self _ _)
    simp only [List.cons_append, List.takeWhile_cons, ha, if_true]
    rw [ih (fun c hc => h c (List.mem_cons_of_mem _ hc))]

theorem dropWhile_append_of_all {p : Char → Bool} (s t : Str) (h : ∀ c ∈ s, p c = true) :
    (s ++ t).dropWhile p = t.dropWhile p := by
  induction s with
  | nil => rfl
  | cons a s ih =>
    have ha := h a (List.mem_cons_self _ _)
    simp only [List.cons_append, List.dropWhile_cons, ha, if_true]
    exact ih (fun c hc => h c (List.mem_cons_of_mem _ hc))

/-! ## Rounding of natural numbers -/

theorem bitLen_zero (f : Nat) : bitLen f 0 = 0 := by
  cases f <;> simp [bitLen]

theorem lt_two_pow_bitLen (f : Nat) : ∀ n, n ≤ f → n < 2 ^ bitLen f n := by
  induction f with
  | zero =>
    intro n hn
    have : n = 0 := by omega
    subst this
    simp [bitLen]
  | succ f ih =>
    intro n hn
    unfold bitLen
    split_ifs with h0
    · subst h0
      simp
    · have h := ih (n / 2) (by omega)
      rw [pow_succ]
      omega

theorem two_pow_bitLen_le (f : Nat) : ∀ n, n ≠ 0 → n ≤ f → 2 ^ (bitLen f n - 1) ≤ n := by
  induction f with
  | zero => intro n h0 hn; omega
  | succ f ih =>
    intro n h0 hn
    unfold bitLen
    rw [if_neg h0, Nat.add_sub_cancel]
    by_cases h2 : n / 2 = 0
    · rw [h2, bitLen_zero]
      simp only [pow_zero]
      omega
    · have h := ih (n / 2) h2 (by omega)
      have hlt := lt_two_pow_bitLen f (n / 2) (by omega)
      have hb : bitLen f (n / 2) ≠ 0 := by
        intro hb
        rw [hb] at hlt
        simp only [pow_zero] at hlt
        omega
      obtain ⟨b, hb'⟩ : ∃ b, bitLen f (n / 2) = b + 1 := ⟨_, (Nat.succ_pred_eq_of_ne_zero hb).symm⟩
      rw [hb'] at h ⊢
      rw [Nat.add_sub_cancel] at h
      rw [pow_succ]
      omega

theorem ilog2Q_natCast (n : Nat) (h : n ≠ 0) : ilog2Q (n : ℚ) = (bitLen n n : Int) - 1 := by
  have hb : bitLen n n ≠ 0 := by
    intro hb
    have := lt_two_pow_bitLen n n (le_refl n)
    rw [hb] at this
    simp only [pow_zero] at this
    omega
  have h1 : bitLen 1 1 = 1 := by decide
  have hle := two_pow_bitLen_le n n h (le_refl n)
  unfold ilog2Q
  simp only [Rat.num_natCast, Rat.den_natCast, Int.natAbs_ofNat, h1, Nat.cast_one]
  have hd : (0 : Int) ≤ (bitLen n n : Int) - 1 := by omega
  have ht : ((bitLen n n : Int) - 1).toNat = bitLen n n - 1 := by omega
  rw [if_pos hd, ht, if_pos (by simpa using hle)]

theorem pow2_of_nonneg (k : Nat) : pow2 (k : Int) = (2 : ℚ) ^ k := by
  unfold pow2
  rw [if_pos (Int.natCast_nonneg k)]
  simp

theorem pow2_of_nonpos (k : Nat) : pow2 (-(k : Int)) = 1 / (2 : ℚ) ^ k := by
  unfold pow2
  by_cases hk : k = 0
  · subst hk
    simp
  · rw [if_neg (by omega)]
    simp

theorem roundHalfEven_intCast (m : Int) : roundHalfEven (m : ℚ) = m := by
  unfold roundHalfEven
  simp

theorem floor_le_roundHalfEven (x : ℚ) : ⌊x⌋ ≤ roundHalfEven x := by
  unfold roundHalfEven
  simp only
  split_ifs <;> omega

theorem roundQ_zero : roundQ 0 = 0 := by decide!

/-- Natural numbers below `2 ^ 53` are binary64 values. -/
theorem roundQ_natCast (n : Nat) (h : n < 2 ^ 53) : roundQ (n : ℚ) = n := by
  by_cases h0 : n = 0
  · subst h0
    simpa using roundQ_zero
  · have hl := ilog2Q_natCast n h0
    have hlt := lt_two_pow_bitLen n n (le_refl n)
    have hle := two_pow_bitLen_le n n h0 (le_refl n)
    have hb : bitLen n n ≤ 53 := by
      by_contra hc
      have : 2 ^ 53 ≤ 2 ^ (bitLen n n - 1) := Nat.pow_le_pow_right (by omega) (by omega)
      omega
    obtain ⟨k, hk⟩ : ∃ k : Nat, max (ilog2Q (n : ℚ) - 52) (-1074) = -(k : Int) := by
      refine ⟨(-(max (ilog2Q (n : ℚ) - 52) (-1074))).toNat, ?_⟩
      rw [hl]
      omega
    unfold roundQ
    simp only [hk, pow2_of_nonpos]
    have hx : (n : ℚ) / (1 / 2 ^ k) = ((n * 2 ^ k : Nat) : Int) := by
      push_cast
      field_simp
    rw [hx, roundHalfEven_intCast]
    push_cast
    field_simp

/-- Natural numbers from `2 ^ 53` on round to at least `2 ^ 53`. -/
theorem le_roundQ_natCast (c : Nat) (h : 2 ^ 53 ≤ c) : (2 : ℚ) ^ 53 ≤ roundQ (c : ℚ) := by
  have h0 : c ≠ 0 := by
    intro h0
    rw [h0] at h
    exact absurd h (by norm_num)
  have hl := ilog2Q_natCast c h0
  have hlt := lt_two_pow_bitLen c c (le_refl c)
  have hle := two_pow_bitLen_le c c h0 (le_refl c)
  have hb : 54 ≤ bitLen c c := by
    by_contra hc
    have : 2 ^ bitLen c c ≤ 2 ^ 53 := Nat.pow_le_pow_right (by omega) (by omega)
    omega
  obtain ⟨j, hj⟩ : ∃ j : Nat, bitLen c c = j + 54 := ⟨bitLen c c - 54, by omega⟩
  have hex : max (ilog2Q (c : ℚ) - 52) (-1074) = ((j + 1 : Nat) : Int) := by
    rw [hl, hj]
    push_cast
    omega
  unfold roundQ
  simp only [hex, pow2_of_nonneg]
  have hpos : (0 : ℚ) < 2 ^ (j + 1) := by positivity
  have hc : (2 : ℚ) ^ (j + 53) ≤ (c : ℚ) := by
    have : 2 ^ (j + 53) ≤ c := by
      rw [hj] at hle
      simpa using hle
    exact_mod_cast this
  have hy : ((2 ^ 52 : Int) : ℚ) ≤ (c : ℚ) / 2 ^ (j + 1) := by
    rw [le_div_iff₀ hpos]
    calc ((2 ^ 52 : Int) : ℚ) * 2 ^ (j + 1) = 2 ^ (j + 53) := by
          push_cast
          ring
      _ ≤ c := hc
  have hfloor : (2 ^ 52 : Int) ≤ ⌊(c : ℚ) / 2 ^ (j + 1)⌋ := Int.le_floor.mpr hy
  have hr : (2 ^ 52 : Int) ≤ roundHalfEven ((c : ℚ) / 2 ^ (j + 1)) :=
    le_trans hfloor (floor_le_roundHalfEven _)
  have hrq : ((2 ^ 52 : Int) : ℚ) ≤ (roundHalfEven ((c : ℚ) / 2 ^ (j + 1)) : ℚ) := by
    exact_mod_cast hr
  calc (2 : ℚ) ^ 53 ≤ 2 ^ 52 * 2 ^ (j + 1) := by
        rw [← pow_add]
        exact pow_le_pow_right₀ (by norm_num) (by omega)
    _ ≤ (roundHalfEven ((c : ℚ) / 2 ^ (j + 1)) : ℚ) * 2 ^ (j + 1) := by
        apply mul_le_mul_of_nonneg_right _ hpos.le
        simpa using hrq

/-- No other natural number rounds to a natural number below `2 ^ 53`. -/
theorem roundQ_natCast_eq_iff (c n : Nat) (h : n < 2 ^ 53) :
    roundQ (c : ℚ) = n ↔ c = n := by
  constructor
  · intro hc
    by_cases hlt : c < 2 ^ 53
    · rw [roundQ_natCast c hlt] at hc
      exact_mod_cast hc
    · have := le_roundQ_natCast c (by omega)
      rw [hc] at this
      have : (2 : ℚ) ^ 53 ≤ ((2 ^ 53 - 1 : Nat) : ℚ) := le_trans this (by exact_mod_cast (by omega : n ≤ 2 ^ 53 - 1))
      norm_num at this
  · intro hc
    rw [hc]
    exact roundQ_natCast n h

/-! ## Integer strings and Numbers -/

theorem isDigit_facts (c : Char) (h : isDigit c = true) :
    c ≠ 'I' ∧ c ≠ '-' ∧ c ≠ '+' ∧ c ≠ '.' ∧ isWhiteSpace c = false := by
  refine ⟨?_, ?_, ?_, ?_, ?_⟩
  · rintro rfl; exact absurd h (by decide)
  · rintro rfl; exact absurd h (by decide)
  · rintro rfl; exact absurd h (by decide)
  · rintro rfl; exact absurd h (by decide)
  · simp only [isDigit, Bool.and_eq_true, decide_eq_true_eq] at h
    simp only [isWhiteSpace, Bool.or_eq_false_iff, Bool.and_eq_false_iff, decide_eq_false_iff_not]
    refine ⟨⟨⟨⟨⟨⟨⟨⟨⟨⟨⟨⟨⟨⟨?_, ?_⟩, ?_⟩, ?_⟩, ?_⟩, ?_⟩, ?_⟩, ?_⟩, ?_⟩, ?_⟩, ?_⟩, ?_⟩, ?_⟩, ?_⟩, ?_⟩ <;>
      omega

theorem natToStr_cons (n : Nat) : ∃ c t, natToStr n = c :: t ∧ isDigit c = true := by
  cases hs : natToStr n with
  | nil => exact absurd hs (natToStr_ne_nil n)
  | cons c t =>
    refine ⟨c, t, rfl, natToStr_all_isDigit n c ?_⟩
    rw [hs]
    exact List.mem_cons_self _ _

theorem scanUnsigned_digits (ds : Str) (hne : ds ≠ []) (hall : ∀ c ∈ ds, isDigit c = true) :
    scanUnsigned ds = some (Lit.dec (digitsVal ds) 0, []) := by
  obtain ⟨c, t, rfl⟩ : ∃ c t, ds = c :: t := List.exists_cons_of_ne_nil hne
  have hc := isDigit_facts c (hall c (List.mem_cons_self _ _))
  have hI : ("Infinity".toList.isPrefixOf (c :: t)) = false := by
    have : ('I' == c) = false := by simpa using fun h => hc.1 h.symm
    simp [List.isPrefixOf, this]
  have ht : (c :: t).takeWhile isDigit = c :: t := by
    have := takeWhile_append_of_all (p := isDigit) (c :: t) [] hall
    simpa using this
  have hd : (c :: t).dropWhile isDigit = [] := by
    have := dropWhile_append_of_all (p := isDigit) (c :: t) [] hall
    simpa using this
  unfold scanUnsigned
  simp only [hI, ht, hd]
  simp

theorem scanUnsigned_digits_point_digits (ds fs : Str) (hne : ds ≠ [])
    (hall : ∀ c ∈ ds, isDigit c = true) (hfs : ∀ c ∈ fs, isDigit c = true) :
    scanUnsigned (ds ++ '.' :: fs) =
      some (Lit.dec (digitsVal (ds ++ fs)) (0 - (fs.length : Int)), []) := by
  obtain ⟨c, t, rfl⟩ : ∃ c t, ds = c :: t := List.exists_cons_of_ne_nil hne
  have hc := isDigit_facts c (hall c (List.mem_cons_self _ _))
  have hI : ("Infinity".toList.isPrefixOf (c :: t ++ '.' :: fs)) = false := by
    have : ('I' == c) = false := by simpa using fun h => hc.1 h.symm
    simp [List.isPrefixOf, this]
  have hp : isDigit '.' = false := by decide
  have ht : (c :: t ++ '.' :: fs).takeWhile isDigit = c :: t := by
    rw [takeWhile_append_of_all _ _ hall, List.takeWhile_cons, hp]
    simp
  have hd : (c :: t ++ '.' :: fs).dropWhile isDigit = '.' :: fs := by
    rw [dropWhile_append_of_all _ _ hall, List.dropWhile_cons, hp]
    simp
  have ht2 : fs.takeWhile isDigit = fs := by
    have := takeWhile_append_of_all (p := isDigit) fs [] hfs
    simpa using this
  have hd2 : fs.dropWhile isDigit = [] := by
    have := dropWhile_append_of_all (p := isDigit) fs [] hfs
    simpa using this
  unfold scanUnsigned
  simp only [hI, ht, hd, ht2, hd2]
  simp [scanExponent]

theorem scanSign_minus (r : Str) : scanSign ('-' :: r) = (true, r) := by
  simp [scanSign]

theorem scanSign_other (c : Char) (t : Str) (h1 : c ≠ '-') (h2 : c ≠ '+') :
    scanSign (c :: t) = (false, c :: t) := by
  simp [scanSign, h1, h2]

theorem parseFloat_of_scan (s : Str) (c : Char) (t : Str) (hs : s = c :: t)
    (hw : isWhiteSpace c = false) (neg : Bool) (u : Str) (hsign : scanSign s = (neg, u))
    (l : Lit) (rest : Str) (hscan : scanUnsigned u = some (l, rest)) :
    parseFloat s = litValue neg l := by
  have hd : s.dropWhile isWhiteSpace = s := by
    rw [hs, List.dropWhile_cons, hw]
    simp
  unfold parseFloat
  simp only [hd, hsign, hscan]

theorem parseFloat_signed_digits (neg : Bool) (ds rest : Str) (l : Lit) (hne : ds ≠ [])
    (hall : ∀ c ∈ ds, isDigit c = true)
    (hscan : scanUnsigned (ds ++ rest) = some (l, [])) :
    parseFloat ((if neg = true then '-' :: ds else ds) ++ rest) = litValue neg l := by
  obtain ⟨c, t, rfl⟩ : ∃ c t, ds = c :: t := List.exists_cons_of_ne_nil hne
  have hc := isDigit_facts c (hall c (List.mem_cons_self _ _))
  cases neg with
  | true =>
    rw [if_pos rfl]
    exact parseFloat_of_scan _ '-' (c :: t ++ rest) rfl (by decide) true _
      (scanSign_minus _) l [] hscan
  | false =>
    rw [if_neg (by decide)]
    exact parseFloat_of_scan _ c (t ++ rest) rfl hc.2.2.2.2 false _
      (scanSign_other c _ hc.2.1 hc.2.2.1) l [] hscan

theorem pow10_neg_natCast (k : Nat) : pow10 (0 - (k : Int)) = 1 / (10 : ℚ) ^ k := by
  unfold pow10
  by_cases hk : k = 0
  · subst hk
    simp
  · rw [if_neg (by omega)]
    simp

theorem pow10_natCast (k : Nat) : pow10 (k : Int) = (10 : ℚ) ^ k := by
  unfold pow10
  rw [if_pos (Int.natCast_nonneg k)]
  simp

theorem roundMag_natCast (neg : Bool) (n : Nat) (h : n < 2 ^ 53) :
    Num.roundMag neg (n : ℚ) = Num.fin neg n := by
  unfold Num.roundMag
  simp only [roundQ_natCast n h]
  rw [if_neg]
  rw [show (1024 : Int) = ((1024 : Nat) : Int) from rfl, pow2_of_nonneg, not_le]
  calc (n : ℚ) < ((2 ^ 53 : Nat) : ℚ) := by exact_mod_cast h
    _ ≤ 2 ^ 1024 := by norm_num

theorem intToStr_eq (z : Int) :
    intToStr z = (if decide (z < 0) = true then '-' :: natToStr z.natAbs else natToStr z.natAbs) := by
  unfold intToStr
  simp

/-- `parseFloat` reads the decimal string of an integer below `2 ^ 53` in
magnitude as that integer. -/
theorem parseFloat_intToStr (z : Int) (h : z.natAbs < 2 ^ 53) :
    parseFloat (intToStr z) = Num.ofInt z := by
  have hs := scanUnsigned_digits (natToStr z.natAbs) (natToStr_ne_nil _)
    (natToStr_all_isDigit _)
  have := parseFloat_signed_digits (decide (z < 0)) (natToStr z.natAbs) [] _
    (natToStr_ne_nil _) (natToStr_all_isDigit _) (by simpa using hs)
  rw [List.append_nil] at this
  rw [intToStr_eq, this, digitsVal_natToStr]
  simp only [litValue, show (0 : Int) = ((0 : Nat) : Int) from rfl, pow10_natCast, pow_zero,
    mul_one]
  exact roundMag_natCast _ _ h

/-- `parseFloat` reads the `toFixed(8)` text of an integer below `2 ^ 53` in
magnitude as that integer. -/
theorem parseFloat_intToStr_fixed (z : Int) (h : z.natAbs < 2 ^ 53) :
    parseFloat (intToStr z ++ '.' :: List.replicate 8 '0') = Num.ofInt z := by
  have hz : ∀ c ∈ List.replicate 8 '0', isDigit c = true := by
    intro c hc
    rw [(List.mem_replicate.mp hc).2]
    decide
  have hs := scanUnsigned_digits_point_digits (natToStr z.natAbs) (List.replicate 8 '0')
    (natToStr_ne_nil _) (natToStr_all_isDigit _) hz
  have := parseFloat_signed_digits (decide (z < 0)) (natToStr z.natAbs)
    ('.' :: List.replicate 8 '0') _ (natToStr_ne_nil _) (natToStr_all_isDigit _) hs
  rw [intToStr_eq, this, digitsVal_append_zeros, digitsVal_natToStr, List.length_replicate]
  simp only [litValue, pow10_neg_natCast]
  have hv : ((z.natAbs * 10 ^ 8 : Nat) : ℚ) * (1 / 10 ^ 8) = (z.natAbs : ℚ) := by
    rw [Nat.cast_mul, Nat.cast_pow, Nat.cast_ofNat, mul_assoc,
      mul_one_div_cancel (by positivity), mul_one]
  rw [hv]
  exact roundMag_natCast _ _ h

/-! ## Arithmetic on integer Numbers -/

theorem toRat_ofInt (z : Int) : (Num.ofInt z).toRat = (z : ℚ) := by
  unfold Num.ofInt Num.toRat
  by_cases hz : z < 0
  · simp only [hz, decide_True, if_true]
    rw [Nat.cast_natAbs, abs_of_neg hz]
    push_cast
    ring
  · simp only [hz, decide_False]
    rw [Nat.cast_natAbs, abs_of_nonneg (not_lt.mp hz)]
    simp

theorem toRat_negate_ofInt (z : Int) : (Num.negate (Num.ofInt z)).toRat = -(z : ℚ) := by
  unfold Num.ofInt Num.negate Num.toRat
  by_cases hz : z < 0
  · simp only [hz, decide_True, Bool.not_true]
    rw [Nat.cast_natAbs, abs_of_neg hz]
    simp
  · simp only [hz, decide_False, Bool.not_false, if_true]
    rw [Nat.cast_natAbs, abs_of_nonneg (not_lt.mp hz)]

theorem ofRat_intCast (z : Int) (h : z.natAbs < 2 ^ 53) : Num.ofRat (z : ℚ) = Num.ofInt z := by
  unfold Num.ofRat Num.ofInt
  have h1 : |(z : ℚ)| = ((z.natAbs : Nat) : ℚ) := by
    rw [Nat.cast_natAbs, Int.cast_abs]
  have h2 : decide ((z : ℚ) < 0) = decide (z < 0) := by
    simp
  rw [h1, h2]
  exact roundMag_natCast _ _ h

/-- Sum of two finite Numbers with integer values, when the sum is below `2 ^ 53`
in magnitude. -/
theorem add_of_toRat (sa sb : Bool) (ma mb : ℚ) (a b : Int)
    (ha : (Num.fin sa ma).toRat = a) (hb : (Num.fin sb mb).toRat = b)
    (hzero : ma = 0 ∧ mb = 0 → (sa && sb) = false)
    (h : (a + b).natAbs < 2 ^ 53) :
    Num.add (Num.fin sa ma) (Num.fin sb mb) = Num.ofInt (a + b) := by
  simp only [Num.add]
  split_ifs with h0 hs
  · have hab : a + b = 0 := by
      have : ((a + b : Int) : ℚ) = 0 := by
        push_cast
        rw [← ha, ← hb]
        simp [Num.toRat, h0.1, h0.2]
      exact_mod_cast this
    rw [hab, hzero h0]
    simp [Num.ofInt]
  · have hab : a + b = 0 := by
      have : ((a + b : Int) : ℚ) = 0 := by
        push_cast
        rw [← ha, ← hb]
        exact hs
      exact_mod_cast this
    rw [hab]
    simp [Num.ofInt]
  · rw [ha, hb, ← Int.cast_add]
    exact ofRat_intCast _ h

theorem add_ofInt (a b : Int) (h : (a + b).natAbs < 2 ^ 53) :
    Num.add (Num.ofInt a) (Num.ofInt b) = Num.ofInt (a + b) := by
  have ha := toRat_ofInt a
  have hb := toRat_ofInt b
  unfold Num.ofInt at ha hb ⊢
  refine add_of_toRat _ _ _ _ a b ha hb ?_ h
  intro h0
  have : a = 0 := by
    have := h0.1
    exact Int.natAbs_eq_zero.mp (by exact_mod_cast this)
  simp [this]

theorem sub_ofInt (a b : Int) (h : (a - b).natAbs < 2 ^ 53) :
    Num.sub (Num.ofInt a) (Num.ofInt b) = Num.ofInt (a - b) := by
  have ha := toRat_ofInt a
  have hb : (Num.negate (Num.ofInt b)).toRat = ((-b : Int) : ℚ) := by
    rw [toRat_negate_ofInt]
    simp
  unfold Num.sub
  unfold Num.ofInt at ha
  simp only [Num.ofInt, Num.negate] at hb
  rw [Int.sub_eq_add_neg] at h ⊢
  simp only [Num.ofInt, Num.negate]
  refine add_of_toRat _ _ _ _ a (-b) ha hb ?_ h
  intro h0
  have : a = 0 := by
    have := h0.1
    exact Int.natAbs_eq_zero.mp (by exact_mod_cast this)
  simp [this]

theorem isInt_ofInt (z : Int) : (Num.ofInt z).IsInt z :=
  ⟨decide (z < 0), rfl, fun _ => rfl⟩

theorem mul_ofInt (a b : Int) (h : (a * b).natAbs < 2 ^ 53) :
    (Num.mul (Num.ofInt a) (Num.ofInt b)).IsInt (a * b) := by
  simp only [Num.ofInt, Num.mul]
  have hm : ((a.natAbs : ℚ)) * (b.natAbs : ℚ) = (((a * b).natAbs : Nat) : ℚ) := by
    rw [Int.natAbs_mul]
    push_cast
    rfl
  rw [hm, roundMag_natCast _ _ h]
  refine ⟨_, rfl, ?_⟩
  intro hne
  have ha : a ≠ 0 := fun h0 => hne (by rw [h0, zero_mul])
  have hb : b ≠ 0 := fun h0 => hne (by rw [h0, mul_zero])
  rcases lt_or_gt_of_ne ha with ha | ha <;> rcases lt_or_gt_of_ne hb with hb | hb
  · have := mul_pos_of_neg_of_neg ha hb
    simp [ha, hb, not_lt.mpr this.le]
  · have := mul_neg_of_neg_of_pos ha hb
    simp [ha, not_lt.mpr hb.le, this]
  · have := mul_neg_of_pos_of_neg ha hb
    simp [hb, not_lt.mpr ha.le, this]
  · have := mul_pos ha hb
    simp [not_lt.mpr ha.le, not_lt.mpr hb.le, not_lt.mpr this.le]

theorem isFinite_of_isInt (r : Num) (z : Int) (h : r.IsInt z) : r.isFinite = true := by
  obtain ⟨sg, rfl, _⟩ := h
  rfl

/-! ## `toFixed(8)` of an integer Number -/

theorem fixedBody_natCast (n : Nat) :
    (let m := natToStr (n * 10 ^ 8)
     let z := if m.length ≤ 8 then List.replicate (8 + 1 - m.length) '0' ++ m else m
     z.take (z.length - 8) ++ '.' :: z.drop (z.length - 8)) =
      natToStr n ++ '.' :: List.replicate 8 '0' := by
  by_cases h0 : n = 0
  · subst h0
    decide
  · have hm : natToStr (n * 10 ^ 8) = natToStr n ++ List.replicate 8 '0' :=
      natToStr_mul_pow_ten n (by omega) 8
    have hlen : 0 < (natToStr n).length := List.length_pos.mpr (natToStr_ne_nil n)
    simp only [hm, List.length_append, List.length_replicate]
    rw [if_neg (by omega)]
    have hl : (natToStr n ++ List.replicate 8 '0').length - 8 = (natToStr n).length := by
      simp
    rw [hl, List.take_left' rfl, List.drop_left' rfl]

theorem floor_natCast_add_half (n : Nat) : ⌊(n : ℚ) + 1 / 2⌋.toNat = n := by
  have : ⌊(n : ℚ) + 1 / 2⌋ = (n : Int) := by
    rw [Int.floor_eq_iff]
    constructor
    · push_cast
      linarith
    · push_cast
      linarith
  rw [this]
  simp

theorem toFixed_isInt (r : Num) (z : Int) (hr : r.IsInt z) (h : z.natAbs < 2 ^ 53) :
    toFixed r 8 = intToStr z ++ '.' :: List.replicate 8 '0' := by
  obtain ⟨sg, rfl, hsg⟩ := hr
  have hbig : ¬ pow10 21 ≤ (z.natAbs : ℚ) := by
    rw [show (21 : Int) = ((21 : Nat) : Int) from rfl, pow10_natCast, not_le]
    calc (z.natAbs : ℚ) < ((2 ^ 53 : Nat) : ℚ) := by exact_mod_cast h
      _ ≤ 10 ^ 21 := by norm_num
  have hfloor : ⌊(z.natAbs : ℚ) * ((10 ^ 8 : Nat) : ℚ) + 1 / 2⌋.toNat = z.natAbs * 10 ^ 8 := by
    rw [← Nat.cast_mul]
    exact floor_natCast_add_half _
  have hbody := fixedBody_natCast z.natAbs
  simp only at hbody
  simp only [toFixed, hbig, if_false, hfloor, show ¬ (8 = 0) by decide, hbody]
  by_cases hz : z = 0
  · subst hz
    simp [intToStr]
  · have hs := hsg hz
    subst hs
    have hn : (z.natAbs : ℚ) ≠ 0 := by
      exact_mod_cast Int.natAbs_ne_zero.mpr hz
    rw [intToStr_eq]
    by_cases hneg : z < 0
    · simp [hneg, hn]
    · simp [hneg]

/-! ## `toString` of an integer Number -/

theorem decExpUp_natCast (n B : Nat) (hB : n < 10 ^ B) :
    ∀ (fuel m : Nat), m ≤ B → B - m < fuel →
      ∃ L : Nat, decExpUp fuel (n : ℚ) (m : Int) = (L : Int) ∧ m ≤ L ∧ L ≤ B ∧ n < 10 ^ L := by
  intro fuel
  induction fuel with
  | zero => intro m _ hf; omega
  | succ fuel ih =>
    intro m hm hf
    unfold decExpUp
    rw [pow10_natCast]
    by_cases hlt : (n : ℚ) < 10 ^ m
    · rw [if_pos hlt]
      exact ⟨m, rfl, le_refl m, hm, by exact_mod_cast hlt⟩
    · rw [if_neg hlt]
      have hmB : m ≠ B := by
        rintro rfl
        exact hlt (by exact_mod_cast hB)
      obtain ⟨L, h1, h2, h3, h4⟩ := ih (m + 1) (by omega) (by omega)
      refine ⟨L, ?_, by omega, h3, h4⟩
      rw [← h1]
      rfl

theorem decExp_natCast (n : Nat) (h0 : 0 < n) (h : n < 2 ^ 53) :
    ∃ L : Nat, decExp (n : ℚ) = (L : Int) ∧ 1 ≤ L ∧ L ≤ 16 ∧ n < 10 ^ L := by
  have h1 : (1 : ℚ) ≤ (n : ℚ) := by exact_mod_cast h0
  have hB : n < 10 ^ 16 := lt_trans h (by norm_num)
  unfold decExp
  rw [if_pos h1]
  exact decExpUp_natCast n 16 hB 400 1 (by omega) (by omega)

theorem candidate_natCast (n L k : Nat) (h : n < 2 ^ 53) (hk : k ≤ L) :
    candidate (n : ℚ) (L : Int) k =
      if n / 10 ^ (L - k) * 10 ^ (L - k) = n then some (n / 10 ^ (L - k)) else none := by
  have hj : ((L : Int) - (k : Int)) = ((L - k : Nat) : Int) := by omega
  have hscale : pow10 ((L : Int) - (k : Int)) = ((10 ^ (L - k) : Nat) : ℚ) := by
    rw [hj, pow10_natCast]
    push_cast
    rfl
  have hlo : ⌊(n : ℚ) / ((10 ^ (L - k) : Nat) : ℚ)⌋.toNat = n / 10 ^ (L - k) := by
    rw [Rat.floor_natCast_div_natCast]
    exact Int.toNat_natCast _
  have hpos : 0 < 10 ^ (L - k) := Nat.pow_pos (by omega)
  have hhi : ¬ ((n / 10 ^ (L - k) + 1) * 10 ^ (L - k) = n) := by
    have := Nat.lt_mul_div_succ n hpos
    rw [Nat.mul_comm] at this
    omega
  have e1 : (roundQ (((n / 10 ^ (L - k) : Nat) : ℚ) * ((10 ^ (L - k) : Nat) : ℚ)) = (n : ℚ)) ↔
      n / 10 ^ (L - k) * 10 ^ (L - k) = n := by
    rw [← Nat.cast_mul]
    exact roundQ_natCast_eq_iff _ n h
  have e2 : ¬ (roundQ (((n / 10 ^ (L - k) + 1 : Nat) : ℚ) * ((10 ^ (L - k) : Nat) : ℚ)) =
      (n : ℚ)) := by
    rw [← Nat.cast_mul, roundQ_natCast_eq_iff _ n h]
    exact hhi
  unfold candidate
  simp only [hscale, hlo]
  by_cases hd : n / 10 ^ (L - k) * 10 ^ (L - k) = n
  · rw [if_pos (e1.mpr hd), if_neg e2, if_pos hd]
  · rw [if_neg (fun hc => hd (e1.mp hc)), if_neg e2, if_neg hd]

theorem shortestAux_natCast (n L : Nat) (h : n < 2 ^ 53) :
    ∀ (fuel k : Nat), k ≤ L → L - k < fuel →
      ∃ s k2 : Nat, shortestAux fuel (n : ℚ) (L : Int) k = (s, k2) ∧ k2 ≤ L ∧
        s * 10 ^ (L - k2) = n := by
  intro fuel
  induction fuel with
  | zero => intro k _ hf; omega
  | succ fuel ih =>
    intro k hk hf
    unfold shortestAux
    rw [candidate_natCast n L k h hk]
    by_cases hd : n / 10 ^ (L - k) * 10 ^ (L - k) = n
    · rw [if_pos hd]
      exact ⟨_, k, rfl, hk, hd⟩
    · rw [if_neg hd]
      have hkL : k ≠ L := by
        rintro rfl
        apply hd
        simp
      exact ih (k + 1) (by omega) (by omega)

/-- `toString` of a positive integer below `2 ^ 53` is its decimal string. -/
theorem posToString_natCast (n : Nat) (h0 : 0 < n) (h : n < 2 ^ 53) :
    posToString (n : ℚ) = natToStr n := by
  obtain ⟨L, hL, hL1, hL16, hnL⟩ := decExp_natCast n h0 h
  obtain ⟨s, k, hsk, hkL, hs⟩ := shortestAux_natCast n L h 20 1 hL1 (by omega)
  have hspos : 0 < s := by
    rcases Nat.eq_zero_or_pos s with hs0 | hs0
    · rw [hs0, zero_mul] at hs
      omega
    · exact hs0
  have hne : s ≠ 10 ^ k := by
    intro hc
    have : 10 ^ k * 10 ^ (L - k) = 10 ^ L := by
      rw [← pow_add]
      congr 1
      omega
    rw [hc, this] at hs
    omega
  unfold posToString shortest
  simp only [hL, hsk, if_neg hne]
  unfold formatDigits
  rw [if_pos ⟨by exact_mod_cast hkL, by omega⟩]
  have hj : ((L : Int) - (k : Int)).toNat = L - k := by omega
  rw [hj, ← natToStr_mul_pow_ten s hspos, hs]

theorem numToString_ofInt (z : Int) (h : z.natAbs < 2 ^ 53) :
    numToString (Num.ofInt z) = intToStr z := by
  by_cases hz : z = 0
  · subst hz
    decide
  · have hn : (z.natAbs : ℚ) ≠ 0 := by
      exact_mod_cast Int.natAbs_ne_zero.mpr hz
    have hp := posToString_natCast z.natAbs (Int.natAbs_pos.mpr hz) h
    simp only [Num.ofInt, numToString, if_neg hn, hp]
    rw [intToStr_eq]

/-! ## Resolving a pending operation on integers -/

theorem intToStr_ne_nil (z : Int) : intToStr z ≠ [] := by
  unfold intToStr
  split_ifs
  · exact List.cons_ne_nil _ _
  · exact natToStr_ne_nil _

theorem binaryResult_integers (operation : Str) (a b c : Int)
    (hop : (operation = "+".toList ∧ c = a + b) ∨ (operation = "-".toList ∧ c = a - b) ∨
           (operation = "*".toList ∧ c = a * b))
    (hc : c.natAbs < 2 ^ 53) :
    ∃ r : Num, binaryResult operation (Num.ofInt a) (Num.ofInt b) = Outcome.value r ∧
      r.IsInt c := by
  rcases hop with ⟨ho, rfl⟩ | ⟨ho, rfl⟩ | ⟨ho, rfl⟩
  · refine ⟨Num.ofInt (a + b), ?_, isInt_ofInt _⟩
    rw [ho, ← add_ofInt a b hc]
    rfl
  · refine ⟨Num.ofInt (a - b), ?_, isInt_ofInt _⟩
    rw [ho, ← sub_ofInt a b hc]
    rfl
  · exact ⟨_, by rw [ho]; rfl, mul_ofInt a b hc⟩

/-- C1 (amended): when `previousNumber` and `currentNumber` are the decimal strings
of integers `a` and `b` below `2 ^ 53` in magnitude, `operation` is `+`, `-` or `*`
and the exact result `c` is below `2 ^ 53` in magnitude too, `calculate` (resolve) and
`handleEqual` (equals) set `currentNumber` to the decimal string of `c`, clear
`previousNumber` and `operation`, and put exactly one new entry at the head of the
history, with expression text "a op b" and result text the new `currentNumber`. -/
theorem resolve_safe_integers (clk : Clock) (s : State) (a b c : Int)
    (hprev : s.previousNumber = intToStr a) (hcur : s.currentNumber = intToStr b)
    (hop : (s.operation = "+".toList ∧ c = a + b) ∨ (s.operation = "-".toList ∧ c = a - b) ∨
           (s.operation = "*".toList ∧ c = a * b))
    (ha : a.natAbs < 2 ^ 53) (hb : b.natAbs < 2 ^ 53) (hc : c.natAbs < 2 ^ 53) :
    handleEqual clk s = calculate clk s s ∧
    calculate clk s s =
      { s with
        currentNumber := intToStr c
        previousNumber := []
        operation := []
        history :=
          { id := clk.now
            calculation := intToStr a ++ " ".toList ++ s.operation ++ " ".toList ++ intToStr b
            result := intToStr c
            timestamp := clk.stamp } :: s.history } := by
  have hopne : s.operation ≠ [] := by
    rcases hop with ⟨ho, _⟩ | ⟨ho, _⟩ | ⟨ho, _⟩ <;> rw [ho] <;> decide
  have hpne : s.previousNumber ≠ [] := by rw [hprev]; exact intToStr_ne_nil a
  have hcne : s.currentNumber ≠ [] := by rw [hcur]; exact intToStr_ne_nil b
  have hskip : ¬(s.previousNumber = [] ∨ s.currentNumber = [] ∨ s.operation = []) := by
    simp [hopne, hpne, hcne]
  obtain ⟨r, hres, hint⟩ := binaryResult_integers s.operation a b c hop hc
  have hres2 : binaryResult s.operation (parseFloat s.previousNumber)
      (parseFloat s.currentNumber) = Outcome.value r := by
    rw [hprev, hcur, parseFloat_intToStr a ha, parseFloat_intToStr b hb]
    exact hres
  have hstr : numToString (parseFloat (toFixed r 8)) = intToStr c := by
    rw [toFixed_isInt r c hint hc, parseFloat_intToStr_fixed c hc, numToString_ofInt c hc]
  constructor
  · unfold handleEqual
    rw [if_neg (by simp [hopne, hpne])]
  · rw [calculate_value clk s s r hskip hres2, if_pos (isFinite_of_isInt r c hint), hstr,
      hprev, hcur]

theorem resolve_safe_integers_witness :
    handleNumber "3".toList (handleOperator clock0 "+".toList
      (handleNumber "5".toList init)) = pending "5".toList "+".toList "3".toList ∧
    handleEqual clock0 (pending "5".toList "+".toList "3".toList) =
      { pending [] [] "8".toList with
        history := [{ id := clock0.now, calculation := "5 + 3".toList, result := "8".toList,
                      timestamp := clock0.stamp }] } := by
  refine ⟨by decide, ?_⟩
  have h := resolve_safe_integers clock0 (pending "5".toList "+".toList "3".toList) 5 3 8
    (by decide) (by decide) (Or.inl ⟨rfl, by decide⟩) (by decide) (by decide) (by decide)
  rw [h.1, h.2]
  decide

/-- C1 as stated fails beyond `2 ^ 53`: after the digits of 9007199254740993 and
the operator `+`, with "0" as second operand, resolving gives "9007199254740992",
which is not the decimal string of the sum. -/
theorem resolve_large_integer_inexact :
    handleOperator clock0 "+".toList
      (("9007199254740993".toList.map fun d => [d]).foldl (fun s k => handleNumber k s) init) =
        pending "9007199254740993".toList "+".toList "0".toList ∧
    "9007199254740993".toList = intToStr 9007199254740993 ∧ "0".toList = intToStr 0 ∧
    (calculate clock0 (pending "9007199254740993".toList "+".toList "0".toList)
      (pending "9007199254740993".toList "+".toList "0".toList)).currentNumber =
        "9007199254740992".toList ∧
    (calculate clock0 (pending "9007199254740993".toList "+".toList "0".toList)
      (pending "9007199254740993".toList "+".toList "0".toList)).currentNumber ≠
        intToStr (9007199254740993 + 0) := by
  decide!

/-! ## The text of the current operand -/

theorem count_point_of_digits (ds : Str) (h : ∀ c ∈ ds, isDigit c = true) :
    ds.count '.' = 0 := by
  rw [List.count_eq_zero]
  intro hm
  exact absurd (h _ hm) (by decide)

theorem formatDigits_point_count (ds : Str) (k : Nat) (n : Int)
    (h : ∀ c ∈ ds, isDigit c = true) : (formatDigits ds k n).count '.' ≤ 1 := by
  have h0 := count_point_of_digits ds h
  have ht : ∀ m, (ds.take m).count '.' = 0 := fun m =>
    count_point_of_digits _ fun c hc => h c (List.mem_of_mem_take hc)
  have hd : ∀ m, (ds.drop m).count '.' = 0 := fun m =>
    count_point_of_digits _ fun c hc => h c (List.mem_of_mem_drop hc)
  have he : ∀ m, (natToStr m).count '.' = 0 := fun m =>
    count_point_of_digits _ (natToStr_all_isDigit m)
  have hz : ∀ m, (List.replicate m '0').count '.' = 0 := by
    intro m
    rw [List.count_eq_zero]
    intro hm
    exact absurd (List.eq_of_mem_replicate hm) (by decide)
  have htl : ds.tail.count '.' = 0 := by
    rw [← List.drop_one]
    exact hd 1
  have hsg : ∀ (b : Prop) [Decidable b], ¬ (if b then '-' else '+') = '.' := by
    intro b _
    split <;> decide
  unfold formatDigits
  split_ifs <;>
    simp [List.count_append, List.count_cons, h0, ht, hd, he, hz, htl, hsg]

theorem numToString_point_count (x : Num) : (numToString x).count '.' ≤ 1 := by
  cases x with
  | nan => decide
  | inf neg => cases neg <;> decide
  | fin neg mag =>
    simp only [numToString]
    split_ifs
    · decide
    · rw [List.count_cons]
      simpa [posToString] using formatDigits_point_count _ _ _ (natToStr_all_isDigit _)
    · exact formatDigits_point_count _ _ _ (natToStr_all_isDigit _)

theorem formatDigits_head (d : Char) (ds : Str) (k : Nat) (n : Int) :
    ∃ c rest, formatDigits (d :: ds) k n = c :: rest ∧ (c = d ∨ c = '0') := by
  unfold formatDigits
  split_ifs with h1 h2 h3 h4
  · exact ⟨d, _, rfl, Or.inl rfl⟩
  · obtain ⟨m, hm⟩ : ∃ m, n.toNat = m + 1 := ⟨n.toNat - 1, by omega⟩
    rw [hm]
    exact ⟨d, _, rfl, Or.inl rfl⟩
  · exact ⟨'0', _, rfl, Or.inr rfl⟩
  · exact ⟨d, _, rfl, Or.inl rfl⟩
  · exact ⟨d, _, rfl, Or.inl rfl⟩

theorem posToString_head (x : ℚ) :
    ∃ c rest, posToString x = c :: rest ∧ isDigit c = true := by
  unfold posToString
  obtain ⟨d, ds, hds⟩ : ∃ d ds, natToStr (shortest x).1 = d :: ds :=
    List.exists_cons_of_ne_nil (natToStr_ne_nil _)
  have hd : isDigit d = true :=
    natToStr_all_isDigit (shortest x).1 d (by rw [hds]; exact List.mem_cons_self _ _)
  simp only [hds]
  obtain ⟨c, rest, h, hc⟩ := formatDigits_head d ds (shortest x).2.1 (shortest x).2.2
  refine ⟨c, rest, h, ?_⟩
  rcases hc with hc | hc
  · rw [hc]
    exact hd
  · rw [hc]
    decide

theorem numToString_ne_minus (x : Num) : numToString x ≠ "-".toList := by
  cases x with
  | nan => decide
  | inf neg => cases neg <;> decide
  | fin neg mag =>
    simp only [numToString]
    obtain ⟨c, rest, h, hc⟩ := posToString_head mag
    split_ifs
    · decide
    · rw [h]
      intro he
      exact absurd (List.cons.inj he).2 (List.cons_ne_nil _ _)
    · rw [h]
      intro he
      have := (List.cons.inj he).1
      rw [this] at hc
      exact absurd hc (by decide)

theorem handleNumber_currentNumber (c : Char) (s : State) :
    (handleNumber [c] s).currentNumber =
      if c = '.' then
        (if '.' ∈ s.currentNumber then s.currentNumber else s.currentNumber ++ ['.'])
      else if s.currentNumber = "0".toList then [c] else s.currentNumber ++ [c] := by
  unfold handleNumber
  by_cases hc : c = '.'
  · subst hc
    by_cases hin : '.' ∈ s.currentNumber <;> simp [hin]
  · have hne : [c] ≠ ".".toList := by simpa using hc
    simp only [hne, if_false, hc]
    split <;> rfl

theorem handleBackspace_currentNumber (s : State) :
    (handleBackspace s).currentNumber = "0".toList ∨
      (s.currentNumber.length ≠ 1 ∧
        (handleBackspace s).currentNumber = s.currentNumber.dropLast) := by
  unfold handleBackspace
  split_ifs with h1 h2
  · exact Or.inl rfl
  · exact Or.inl rfl
  · exact Or.inr ⟨h2, rfl⟩

theorem isNumberKey_cases (key : Str) (h : isNumberKey key = true) :
    ∃ c, key = [c] ∧ (isDigit c = true ∨ c = '.') := by
  match key, h with
  | [c], h =>
    refine ⟨c, rfl, ?_⟩
    simpa [isNumberKey] using h

theorem resultText_refl (t : Str) : ResultText t t := Or.inl rfl

theorem resultText_calculate (clk : Clock) (s q : State) :
    ResultText q.currentNumber (calculate clk s q).currentNumber := by
  by_cases hskip : s.previousNumber = [] ∨ s.currentNumber = [] ∨ s.operation = []
  · rw [calculate_skip clk s q hskip]
    exact Or.inl rfl
  · cases hres : binaryResult s.operation (parseFloat s.previousNumber)
        (parseFloat s.currentNumber) with
    | returned =>
      rw [calculate_returned clk s q hskip hres]
      exact Or.inl rfl
    | thrown message =>
      rw [calculate_thrown clk s q message hskip hres]
      exact Or.inr (Or.inl rfl)
    | value r =>
      rw [calculate_value clk s q r hskip hres]
      split_ifs
      · exact Or.inr (Or.inr ⟨_, rfl⟩)
      · exact Or.inr (Or.inl rfl)

theorem resultText_handleEqual (clk : Clock) (s : State) :
    ResultText s.currentNumber (handleEqual clk s).currentNumber := by
  unfold handleEqual
  split_ifs
  · exact Or.inl rfl
  · exact resultText_calculate clk s s

theorem resultText_handleScientificOperation (M : MathImpl) (clk : Clock) (operation : Str)
    (s : State) :
    ResultText s.currentNumber (handleScientificOperation M clk operation s).currentNumber := by
  cases hres : unaryResult M operation (parseFloat s.currentNumber) with
  | returned =>
    rw [handleScientificOperation_returned M clk operation s hres]
    exact Or.inl rfl
  | thrown message =>
    rw [handleScientificOperation_thrown M clk operation s message hres]
    exact Or.inr (Or.inl rfl)
  | value r =>
    rw [handleScientificOperation_value M clk operation s r hres]
    split_ifs
    · exact Or.inr (Or.inr ⟨_, rfl⟩)
    · exact Or.inr (Or.inl rfl)

theorem resultText_scientificButton (M : MathImpl) (clk : Clock) (op : Str) (s : State) :
    ResultText s.currentNumber (scientificButton M clk op s).currentNumber := by
  unfold scientificButton
  split_ifs
  · exact Or.inr (Or.inr ⟨mathPI, rfl⟩)
  · exact Or.inr (Or.inr ⟨mathE, rfl⟩)
  · exact resultText_handleScientificOperation M clk op s

/-- What an event other than history reuse leaves in `currentNumber`: a result
text, the text after a digit or the point has been typed, or, for backspace, the
text after backspace. -/
theorem step_currentNumber (M : MathImpl) (clk : Clock) (ev : Event) (s : State)
    (hev : ev.isHistoryReuse = false) :
    ResultText s.currentNumber (step M clk ev s).currentNumber ∨
    (∃ c, (isDigit c = true ∨ c = '.') ∧
      (step M clk ev s).currentNumber = (handleNumber [c] s).currentNumber) ∨
    (ev.isBackspace = true ∧
      (step M clk ev s).currentNumber = (handleBackspace s).currentNumber) := by
  cases ev with
  | digit d =>
    refine Or.inr (Or.inl ⟨digitChar d.val, Or.inl (isDigit_digitChar _), ?_⟩)
    show (handleNumber (natToStr d.val) s).currentNumber = _
    rw [natToStr_eq, if_pos d.isLt]
  | point => exact Or.inr (Or.inl ⟨'.', Or.inr rfl, rfl⟩)
  | operator op =>
    exact Or.inl (Or.inr (Or.inl (handleOperator_fields clk _ s).2.1))
  | equal => exact Or.inl (resultText_handleEqual clk s)
  | clear => exact Or.inl (Or.inr (Or.inl rfl))
  | backspace => exact Or.inr (Or.inr ⟨rfl, rfl⟩)
  | scientific op => exact Or.inl (resultText_scientificButton M clk _ s)
  | toggleScientific => exact Or.inl (Or.inl rfl)
  | openHistory => exact Or.inl (Or.inl rfl)
  | back => exact Or.inl (Or.inl rfl)
  | useEntry i => exact absurd hev (by simp [Event.isHistoryReuse])
  | deleteEntry i =>
    refine Or.inl (Or.inl ?_)
    cases hg : s.history.get? i <;> simp only [step, hg, deleteHistoryItem]
  | clearHistory => exact Or.inl (Or.inl rfl)
  | key key =>
    show _ ∨ _ ∨ (_ ∧ (handleKeyPress M clk key s).currentNumber = _)
    show ResultText s.currentNumber (handleKeyPress M clk key s).currentNumber ∨
      (∃ c, (isDigit c = true ∨ c = '.') ∧
        (handleKeyPress M clk key s).currentNumber = (handleNumber [c] s).currentNumber) ∨
      ((Event.key key).isBackspace = true ∧
        (handleKeyPress M clk key s).currentNumber = (handleBackspace s).currentNumber)
    unfold handleKeyPress
    split_ifs with h1 h2 h3 h4 h5 h6 h7
    · exact Or.inl (Or.inl rfl)
    · obtain ⟨c, hk, hc⟩ := isNumberKey_cases key h2
      exact Or.inr (Or.inl ⟨c, hc, by rw [hk]⟩)
    · exact Or.inl (Or.inr (Or.inl (handleOperator_fields clk _ s).2.1))
    · exact Or.inl (resultText_handleEqual clk s)
    · exact Or.inr (Or.inr ⟨by simp [Event.isBackspace, h5], rfl⟩)
    · exact Or.inl (Or.inr (Or.inl rfl))
    · split
      · exact Or.inl (resultText_handleScientificOperation M clk _ s)
      · exact Or.inl (Or.inl rfl)
    · exact Or.inl (Or.inl rfl)

theorem onePoint_step (M : MathImpl) (clk : Clock) (ev : Event) (s : State)
    (hev : ev.isHistoryReuse = false)
    (h : s.currentNumber ≠ [] ∧ s.currentNumber.count '.' ≤ 1) :
    (step M clk ev s).currentNumber ≠ [] ∧ (step M clk ev s).currentNumber.count '.' ≤ 1 := by
  rcases step_currentNumber M clk ev s hev with hr | ⟨c, hc, hr⟩ | ⟨_, hr⟩
  · rcases hr with hr | hr | ⟨x, hr⟩
    · rw [hr]
      exact h
    · rw [hr]
      exact ⟨by decide, by decide⟩
    · rw [hr]
      exact ⟨numToString_ne_nil x, numToString_point_count x⟩
  · rw [hr]
    refine ⟨?_, handleNumber_point_count [c] s (by simpa [isNumberKey] using hc) h.2⟩
    rw [handleNumber_currentNumber]
    split_ifs <;> simp [h.1]
  · rw [hr]
    rcases handleBackspace_currentNumber s with hb | ⟨hl, hb⟩
    · rw [hb]
      exact ⟨by decide, by decide⟩
    · rw [hb]
      constructor
      · intro hd
        have hlen := congrArg List.length hd
        rw [List.length_dropLast] at hlen
        have hpos : s.currentNumber.length ≠ 0 := fun h0 => h.1 (List.length_eq_zero.mp h0)
        simp only [List.length_nil] at hlen
        omega
      · exact le_trans ((List.dropLast_sublist _).count_le _) h.2

theorem noSign_step (M : MathImpl) (clk : Clock) (ev : Event) (s : State)
    (hev : ev.isHistoryReuse = false) (hb : ev.isBackspace = false)
    (h : s.currentNumber ≠ [] ∧ s.currentNumber ≠ "-".toList) :
    (step M clk ev s).currentNumber ≠ "-".toList := by
  have hlong : ∀ c : Char, s.currentNumber ++ [c] ≠ "-".toList := by
    intro c he
    have hlen := congrArg List.length he
    simp at hlen
    exact h.1 hlen
  rcases step_currentNumber M clk ev s hev with hr | ⟨c, hc, hr⟩ | ⟨hbs, _⟩
  · rcases hr with hr | hr | ⟨x, hr⟩
    · rw [hr]
      exact h.2
    · rw [hr]
      decide
    · rw [hr]
      exact numToString_ne_minus x
  · rw [hr, handleNumber_currentNumber]
    split_ifs with h1 h2 h3
    · exact h.2
    · exact hlong '.'
    · rcases hc with hc | hc
      · intro he
        have := (List.cons.inj he).1
        rw [this] at hc
        exact absurd hc (by decide)
      · exact absurd hc h1
    · exact hlong c
  · rw [hb] at hbs
    exact absurd hbs (by decide)

theorem typedText_zero : TypedText "0".toList :=
  ⟨by simp [isDigit], by decide, '0', [], rfl, by decide⟩

theorem typedText_handleNumber (c : Char) (s : State) (hc : isDigit c = true ∨ c = '.')
    (h : TypedText s.currentNumber) : TypedText (handleNumber [c] s).currentNumber := by
  obtain ⟨hall, hcount, d, rest, ht, hd⟩ := h
  rw [handleNumber_currentNumber]
  split_ifs with h1 h2 h3
  · exact ⟨hall, hcount, d, rest, ht, hd⟩
  · refine ⟨?_, ?_, d, rest ++ ['.'], by rw [ht]; rfl, hd⟩
    · intro x hx
      rcases List.mem_append.mp hx with hx | hx
      · exact hall x hx
      · exact Or.inr (List.mem_singleton.mp hx)
    · rw [List.count_append, List.count_eq_zero.mpr h2]
      decide
  · have hdig : isDigit c = true := hc.resolve_right h1
    refine ⟨?_, ?_, c, [], rfl, hdig⟩
    · intro x hx
      rw [List.mem_singleton.mp hx]
      exact Or.inl hdig
    · rw [List.count_singleton]
      split <;> omega
  · have hdig : isDigit c = true := hc.resolve_right h1
    refine ⟨?_, ?_, d, rest ++ [c], by rw [ht]; rfl, hd⟩
    · intro x hx
      rcases List.mem_append.mp hx with hx | hx
      · exact hall x hx
      · rw [List.mem_singleton.mp hx]
        exact Or.inl hdig
    · have h0 : [c].count '.' = 0 := by
        rw [List.count_eq_zero]
        simpa using fun h => h1 h.symm
      rw [List.count_append, h0]
      exact hcount

theorem typedText_handleBackspace (s : State) (h : TypedText s.currentNumber) :
    TypedText (handleBackspace s).currentNumber := by
  rcases handleBackspace_currentNumber s with hb | ⟨hl, hb⟩
  · rw [hb]
    exact typedText_zero
  · obtain ⟨hall, hcount, d, rest, ht, hd⟩ := h
    rw [hb]
    refine ⟨fun x hx => hall x ((List.dropLast_sublist _).subset hx),
      le_trans ((List.dropLast_sublist _).count_le _) hcount, d, rest.dropLast, ?_, hd⟩
    rw [ht]
    cases rest with
    | nil =>
      rw [ht] at hl
      exact absurd rfl hl
    | cons r rs => rfl

theorem typedText_step (M : MathImpl) (clk : Clock) (ev : Event) (s : State)
    (hev : ev.isTyping = true) (h : TypedText s.currentNumber) :
    TypedText (step M clk ev s).currentNumber := by
  cases ev with
  | digit d =>
    show TypedText (handleNumber (natToStr d.val) s).currentNumber
    rw [natToStr_eq, if_pos d.isLt]
    exact typedText_handleNumber _ s (Or.inl (isDigit_digitChar _)) h
  | point => exact typedText_handleNumber '.' s (Or.inr rfl) h
  | operator op =>
    show TypedText (handleOperator clk op.toStr s).currentNumber
    rw [(handleOperator_fields clk _ s).2.1]
    exact typedText_zero
  | clear => exact typedText_zero
  | backspace => exact typedText_handleBackspace s h
  | equal => exact absurd hev (by simp [Event.isTyping])
  | scientific op => exact absurd hev (by simp [Event.isTyping])
  | toggleScientific => exact absurd hev (by simp [Event.isTyping])
  | openHistory => exact absurd hev (by simp [Event.isTyping])
  | back => exact absurd hev (by simp [Event.isTyping])
  | useEntry i => exact absurd hev (by simp [Event.isTyping])
  | deleteEntry i => exact absurd hev (by simp [Event.isTyping])
  | clearHistory => exact absurd hev (by simp [Event.isTyping])
  | key key => exact absurd hev (by simp [Event.isTyping])

theorem specDecimalString_of_typedText (t : Str) (h : TypedText t) :
    specDecimalString t = true := by
  obtain ⟨hall, hcount, d, rest, ht, hd⟩ := h
  have hne : ¬ t.head? = some '-' := by
    rw [ht]
    intro he
    have hd2 : d = '-' := by simpa using he
    rw [hd2] at hd
    exact absurd hd (by decide)
  unfold specDecimalString
  rw [if_neg hne]
  unfold specUnsignedDecimal
  simp only [Bool.and_eq_true, List.all_eq_true, List.any_eq_true, Bool.or_eq_true,
    decide_eq_true_eq, beq_iff_eq]
  refine ⟨⟨hall, d, ?_, hd⟩, hcount⟩
  rw [ht]
  exact List.mem_cons_self _ _

theorem run_onePoint (M : MathImpl) (script : List (Clock × Event)) (s : State)
    (hev : ∀ p ∈ script, p.2.isHistoryReuse = false)
    (h : s.currentNumber ≠ [] ∧ s.currentNumber.count '.' ≤ 1) :
    (run M script s).currentNumber ≠ [] ∧ (run M script s).currentNumber.count '.' ≤ 1 := by
  induction script generalizing s with
  | nil => exact h
  | cons head rest ih =>
    exact ih _ (fun p hp => hev p (List.mem_cons_of_mem _ hp))
      (onePoint_step M head.1 head.2 s (hev head (List.mem_cons_self _ _)) h)

theorem run_noSign (M : MathImpl) (script : List (Clock × Event)) (s : State)
    (hev : ∀ p ∈ script, p.2.isHistoryReuse = false)
    (hb : ∀ p ∈ script, p.2.isBackspace = false)
    (h : s.currentNumber ≠ [] ∧ s.currentNumber.count '.' ≤ 1)
    (hs : s.currentNumber ≠ "-".toList) :
    (run M script s).currentNumber ≠ "-".toList := by
  induction script generalizing s with
  | nil => exact hs
  | cons head rest ih =>
    exact ih _ (fun p hp => hev p (List.mem_cons_of_mem _ hp))
      (fun p hp => hb p (List.mem_cons_of_mem _ hp))
      (onePoint_step M head.1 head.2 s (hev head (List.mem_cons_self _ _)) h)
      (noSign_step M head.1 head.2 s (hev head (List.mem_cons_self _ _))
        (hb head (List.mem_cons_self _ _)) ⟨h.1, hs⟩)

theorem run_typedText (M : MathImpl) (script : List (Clock × Event)) (s : State)
    (hev : ∀ p ∈ script, p.2.isTyping = true) (h : TypedText s.currentNumber) :
    TypedText (run M script s).currentNumber := by
  induction script generalizing s with
  | nil => exact h
  | cons head rest ih =>
    exact ih _ (fun p hp => hev p (List.mem_cons_of_mem _ hp))
      (typedText_step M head.1 head.2 s (hev head (List.mem_cons_self _ _)) h)

/-- C10 (amended): in every state reached from the initial state (with any stored
history) by digit, point, operator, equals, clear, backspace, scientific, constant
and key events, history reuse apart, `currentNumber` is never the empty string and
has at most one point; when no backspace is among the events it is never the bare
sign "-"; and when the events are digit, point, operator, clear and backspace
buttons only it is a decimal string: an optional minus sign, at least one digit and
at most one point. -/
theorem currentNumber_text_invariant (M : MathImpl) (saved : List Entry)
    (script : List (Clock × Event))
    (hev : ∀ p ∈ script, p.2.isHistoryReuse = false) :
    (run M script (start saved)).currentNumber ≠ [] ∧
    (run M script (start saved)).currentNumber.count '.' ≤ 1 ∧
    ((∀ p ∈ script, p.2.isBackspace = false) →
      (run M script (start saved)).currentNumber ≠ "-".toList) ∧
    ((∀ p ∈ script, p.2.isTyping = true) →
      specDecimalString (run M script (start saved)).currentNumber = true) := by
  have hz : (start saved).currentNumber = "0".toList := rfl
  have h0 : (start saved).currentNumber ≠ [] ∧ (start saved).currentNumber.count '.' ≤ 1 := by
    rw [hz]
    exact ⟨by decide, by decide⟩
  have h1 := run_onePoint M script (start saved) hev h0
  refine ⟨h1.1, h1.2, fun hb => ?_, fun ht => ?_⟩
  · exact run_noSign M script (start saved) hev hb h0 (by rw [hz]; decide)
  · exact specDecimalString_of_typedText _
      (run_typedText M script (start saved) ht typedText_zero)

theorem currentNumber_text_invariant_witness :
    (run sampleMath [(clock0, Event.digit 5), (clock0, Event.scientific SciOp.negate),
        (clock0, Event.backspace)] (start [])).currentNumber.count '.' ≤ 1 ∧
    (run sampleMath [(clock0, Event.digit 5), (clock0, Event.scientific SciOp.negate)]
        (start [])).currentNumber ≠ "-".toList ∧
    specDecimalString (run sampleMath [(clock0, Event.digit 1), (clock0, Event.point),
        (clock0, Event.digit 5), (clock0, Event.backspace), (clock0, Event.backspace)]
        (start [])).currentNumber = true :=
  ⟨(currentNumber_text_invariant sampleMath [] [(clock0, Event.digit 5),
      (clock0, Event.scientific SciOp.negate), (clock0, Event.backspace)] (by decide)).2.1,
   (currentNumber_text_invariant sampleMath [] [(clock0, Event.digit 5),
      (clock0, Event.scientific SciOp.negate)] (by decide)).2.2.1 (by decide),
   (currentNumber_text_invariant sampleMath [] [(clock0, Event.digit 1), (clock0, Event.point),
      (clock0, Event.digit 5), (clock0, Event.backspace), (clock0, Event.backspace)]
      (by decide)).2.2.2 (by decide)⟩

/-- C10 as stated fails.  Digit 5, the sign-change button and backspace leave
`currentNumber` at the bare sign "-", which `parseFloat` does not read as a number;
and 1 `/` 10000000 `=` leaves "1e-7", which is not an optional minus sign, digits and
at most one point. -/
theorem currentNumber_not_always_decimal :
    (run sampleMath [(clock0, Event.digit 5), (clock0, Event.scientific SciOp.negate),
        (clock0, Event.backspace)] (start [])).currentNumber = "-".toList ∧
    specDecimalString "-".toList = false ∧
    parseFloat "-".toList = Num.nan ∧
    (run sampleMath [(clock0, Event.digit 1), (clock0, Event.operator Op.divide),
        (clock0, Event.digit 1), (clock0, Event.digit 0), (clock0, Event.digit 0),
        (clock0, Event.digit 0), (clock0, Event.digit 0), (clock0, Event.digit 0),
        (clock0, Event.digit 0), (clock0, Event.digit 0), (clock0, Event.equal)]
        (start [])).currentNumber = "1e-7".toList ∧
    specDecimalString "1e-7".toList = false := by
  decide!

/-! ## Rounding error of `roundQ` -/

theorem pow2_eq_zpow (e : Int) : pow2 e = (2 : ℚ) ^ e := by
  unfold pow2
  split_ifs with h
  · obtain ⟨k, rfl⟩ := Int.eq_ofNat_of_zero_le h
    simp
  · obtain ⟨k, hk⟩ : ∃ k : Nat, e = -(k : Int) := ⟨(-e).toNat, by omega⟩
    subst hk
    simp

theorem pow10_eq_zpow (e : Int) : pow10 e = (10 : ℚ) ^ e := by
  unfold pow10
  split_ifs with h
  · obtain ⟨k, rfl⟩ := Int.eq_ofNat_of_zero_le h
    simp
  · obtain ⟨k, hk⟩ : ∃ k : Nat, e = -(k : Int) := ⟨(-e).toNat, by omega⟩
    subst hk
    simp

theorem bitLen_bounds (n : Nat) (h : n ≠ 0) :
    ∃ b : Nat, bitLen n n = b + 1 ∧ 2 ^ b ≤ n ∧ n < 2 ^ (b + 1) := by
  have hlt := lt_two_pow_bitLen n n (le_refl n)
  have hle := two_pow_bitLen_le n n h (le_refl n)
  have hb : bitLen n n ≠ 0 := by
    intro hb
    rw [hb] at hlt
    simp only [pow_zero] at hlt
    omega
  obtain ⟨b, hb'⟩ : ∃ b, bitLen n n = b + 1 := ⟨_, (Nat.succ_pred_eq_of_ne_zero hb).symm⟩
  refine ⟨b, hb', ?_, ?_⟩
  · rw [hb', Nat.add_sub_cancel] at hle
    exact hle
  · rw [hb'] at hlt
    exact hlt

theorem ilog2_core (p q : Nat) (hp0 : p ≠ 0) (hq0 : q ≠ 0) (y : ℚ)
    (hyq : y = (p : ℚ) / (q : ℚ)) (l : Int)
    (hl : l = (let d : Int := (bitLen p p : Int) - (bitLen q q : Int)
      if 0 ≤ d then (if q * 2 ^ d.toNat ≤ p then d else d - 1)
      else (if q ≤ p * 2 ^ (-d).toNat then d else d - 1))) :
    (2 : ℚ) ^ l ≤ y ∧ y < (2 : ℚ) ^ (l + 1) := by
  obtain ⟨bp, hbp, hp1, hp2⟩ := bitLen_bounds p hp0
  obtain ⟨bq, hbq, hq1, hq2⟩ := bitLen_bounds q hq0
  have hqpos : (0 : ℚ) < (q : ℚ) := by exact_mod_cast Nat.pos_of_ne_zero hq0
  have hp1q : (2 : ℚ) ^ bp ≤ (p : ℚ) := by exact_mod_cast hp1
  have hp2q : (p : ℚ) < (2 : ℚ) ^ (bp + 1) := by exact_mod_cast hp2
  have hq1q : (2 : ℚ) ^ bq ≤ (q : ℚ) := by exact_mod_cast hq1
  have hq2q : (q : ℚ) < (2 : ℚ) ^ (bq + 1) := by exact_mod_cast hq2
  have h2 : (0 : ℚ) < 2 := by norm_num
  have hlow : (2 : ℚ) ^ ((bp : Int) - bq - 1) ≤ y := by
    rw [hyq, le_div_iff₀ hqpos]
    calc (2 : ℚ) ^ ((bp : Int) - bq - 1) * (q : ℚ)
        ≤ (2 : ℚ) ^ ((bp : Int) - bq - 1) * (2 : ℚ) ^ (bq + 1) :=
          mul_le_mul_of_nonneg_left hq2q.le (zpow_nonneg h2.le _)
      _ = (2 : ℚ) ^ bp := by
          rw [← zpow_natCast (2 : ℚ) (bq + 1), ← zpow_add₀ (by norm_num : (2 : ℚ) ≠ 0),
            ← zpow_natCast (2 : ℚ) bp]
          congr 1
          push_cast
          ring
      _ ≤ p := hp1q
  have hhigh : y < (2 : ℚ) ^ ((bp : Int) - bq + 1) := by
    rw [hyq, div_lt_iff₀ hqpos]
    calc (p : ℚ) < (2 : ℚ) ^ (bp + 1) := hp2q
      _ = (2 : ℚ) ^ ((bp : Int) - bq + 1) * (2 : ℚ) ^ bq := by
          rw [← zpow_natCast (2 : ℚ) bq, ← zpow_add₀ (by norm_num : (2 : ℚ) ≠ 0),
            ← zpow_natCast (2 : ℚ) (bp + 1)]
          congr 1
          push_cast
          ring
      _ ≤ (2 : ℚ) ^ ((bp : Int) - bq + 1) * (q : ℚ) :=
          mul_le_mul_of_nonneg_left hq1q (zpow_nonneg h2.le _)
  have hd : ((bitLen p p : Int) - (bitLen q q : Int)) = (bp : Int) - bq := by
    rw [hbp, hbq]
    push_cast
    ring
  simp only [hd] at hl
  by_cases hdn : (0 : Int) ≤ (bp : Int) - bq
  · obtain ⟨d, hdd⟩ := Int.eq_ofNat_of_zero_le hdn
    rw [if_pos hdn, hdd, Int.toNat_natCast] at hl
    have htest : (q * 2 ^ d ≤ p) ↔ (2 : ℚ) ^ (d : Int) ≤ y := by
      rw [hyq, le_div_iff₀ hqpos, zpow_natCast]
      constructor
      · intro h
        have : ((q * 2 ^ d : Nat) : ℚ) ≤ (p : ℚ) := by exact_mod_cast h
        push_cast at this
        linarith
      · intro h
        have : ((q * 2 ^ d : Nat) : ℚ) ≤ (p : ℚ) := by
          push_cast
          linarith
        exact_mod_cast this
    by_cases ht : q * 2 ^ d ≤ p
    · rw [if_pos ht] at hl
      rw [hl]
      refine ⟨htest.mp ht, ?_⟩
      rw [← hdd]
      exact hhigh
    · rw [if_neg ht] at hl
      rw [hl]
      refine ⟨?_, ?_⟩
      · rw [← hdd]
        exact hlow
      · have := fun h => ht (htest.mpr h)
        rw [Int.sub_add_cancel]
        exact not_le.mp this
  · rw [if_neg hdn] at hl
    obtain ⟨d, hdd⟩ : ∃ d : Nat, (bp : Int) - bq = -(d : Int) := ⟨((bq : Int) - bp).toNat, by omega⟩
    have hneg : (-((bp : Int) - bq)).toNat = d := by omega
    rw [hneg] at hl
    have htest : (q ≤ p * 2 ^ d) ↔ (2 : ℚ) ^ (-(d : Int)) ≤ y := by
      rw [hyq, le_div_iff₀ hqpos, zpow_neg, zpow_natCast, inv_mul_le_iff₀ (by positivity)]
      constructor
      · intro h
        have : ((q : Nat) : ℚ) ≤ ((p * 2 ^ d : Nat) : ℚ) := by exact_mod_cast h
        push_cast at this
        linarith
      · intro h
        have : ((q : Nat) : ℚ) ≤ ((p * 2 ^ d : Nat) : ℚ) := by
          push_cast
          linarith
        exact_mod_cast this
    by_cases ht : q ≤ p * 2 ^ d
    · rw [if_pos ht] at hl
      rw [hl]
      refine ⟨?_, hhigh⟩
      rw [hdd]
      exact htest.mp ht
    · rw [if_neg ht] at hl
      rw [hl]
      refine ⟨hlow, ?_⟩
      have := fun h => ht (htest.mpr h)
      rw [Int.sub_add_cancel, hdd]
      exact not_le.mp this

/-- `ilog2Q` is the binary exponent: `2 ^ l ≤ y < 2 ^ (l + 1)`. -/
theorem ilog2Q_spec (y : ℚ) (hy : 0 < y) :
    (2 : ℚ) ^ ilog2Q y ≤ y ∧ y < (2 : ℚ) ^ (ilog2Q y + 1) := by
  have hnum : 0 < y.num := Rat.num_pos.mpr hy
  have hp0 : y.num.natAbs ≠ 0 := by omega
  have hyq : y = ((y.num.natAbs : Nat) : ℚ) / ((y.den : Nat) : ℚ) := by
    have h1 := Rat.num_div_den y
    have h2 : ((y.num.natAbs : Nat) : ℚ) = (y.num : ℚ) := by
      rw [Nat.cast_natAbs, abs_of_pos hnum]
    rw [h2]
    exact h1.symm
  exact ilog2_core y.num.natAbs y.den hp0 y.den_nz y hyq (ilog2Q y) rfl

theorem roundHalfEven_error (z : ℚ) : |(roundHalfEven z : ℚ) - z| ≤ 1 / 2 := by
  have h1 := Int.floor_le z
  have h2 := Int.lt_floor_add_one z
  unfold roundHalfEven
  simp only
  split_ifs with ha hb hc
  · rw [abs_le]
    constructor <;> linarith
  · rw [abs_le]
    push_cast
    constructor <;> linarith
  · rw [abs_le]
    constructor <;> linarith
  · rw [abs_le]
    push_cast
    constructor <;> linarith

/-- Below `2 ^ 26` rounding to binary64 moves a value by at most `2 ^ (-28)`. -/
theorem roundQ_error (y : ℚ) (h0 : 0 ≤ y) (h : y < 2 ^ 26) :
    |roundQ y - y| ≤ (2 : ℚ) ^ (-28 : Int) := by
  rcases eq_or_lt_of_le h0 with h0 | hpos
  · rw [← h0, roundQ_zero]
    norm_num
  · obtain ⟨hl1, _⟩ := ilog2Q_spec y hpos
    have hl : ilog2Q y ≤ 25 := by
      by_contra hc
      have : (2 : ℚ) ^ (26 : Int) ≤ (2 : ℚ) ^ ilog2Q y :=
        zpow_le_zpow_right₀ (by norm_num) (by omega)
      have h26 : (2 : ℚ) ^ (26 : Int) = 2 ^ 26 := by norm_num
      linarith
    have hex : max (ilog2Q y - 52) (-1074) ≤ -27 := by omega
    have hpe : (0 : ℚ) < (2 : ℚ) ^ (max (ilog2Q y - 52) (-1074)) := by positivity
    have hpow : (2 : ℚ) ^ (max (ilog2Q y - 52) (-1074)) ≤ (2 : ℚ) ^ (-27 : Int) :=
      zpow_le_zpow_right₀ (by norm_num) hex
    have herr := roundHalfEven_error (y / (2 : ℚ) ^ (max (ilog2Q y - 52) (-1074)))
    unfold roundQ
    simp only [pow2_eq_zpow]
    have hrew : (roundHalfEven (y / (2 : ℚ) ^ (max (ilog2Q y - 52) (-1074))) : ℚ) *
        (2 : ℚ) ^ (max (ilog2Q y - 52) (-1074)) - y =
        ((roundHalfEven (y / (2 : ℚ) ^ (max (ilog2Q y - 52) (-1074))) : ℚ) -
          y / (2 : ℚ) ^ (max (ilog2Q y - 52) (-1074))) *
        (2 : ℚ) ^ (max (ilog2Q y - 52) (-1074)) := by
      field_simp
    rw [hrew, abs_mul, abs_of_pos hpe]
    calc _ ≤ (1 / 2 : ℚ) * (2 : ℚ) ^ (max (ilog2Q y - 52) (-1074)) :=
          mul_le_mul_of_nonneg_right herr hpe.le
      _ ≤ (1 / 2 : ℚ) * (2 : ℚ) ^ (-27 : Int) := by
          apply mul_le_mul_of_nonneg_left hpow (by norm_num)
      _ = (2 : ℚ) ^ (-28 : Int) := by norm_num

theorem two52_mul_zpow (l : Int) : ((2 ^ 52 : Int) : ℚ) * (2 : ℚ) ^ (l - 52) = (2 : ℚ) ^ l := by
  have h : ((2 ^ 52 : Int) : ℚ) = (2 : ℚ) ^ (52 : Int) := by norm_num
  rw [h, ← zpow_add₀ (by norm_num : (2 : ℚ) ≠ 0)]
  congr 1
  ring

/-- From `2 ^ 26` on values round to at least `2 ^ 26`. -/
theorem le_roundQ (y : ℚ) (h : 2 ^ 26 ≤ y) : (2 : ℚ) ^ 26 ≤ roundQ y := by
  have hpos : 0 < y := lt_of_lt_of_le (by norm_num) h
  obtain ⟨hl1, hl2⟩ := ilog2Q_spec y hpos
  have hl : 26 ≤ ilog2Q y := by
    by_contra hc
    have : (2 : ℚ) ^ (ilog2Q y + 1) ≤ (2 : ℚ) ^ (26 : Int) :=
      zpow_le_zpow_right₀ (by norm_num) (by omega)
    have h26 : (2 : ℚ) ^ (26 : Int) = 2 ^ 26 := by norm_num
    linarith
  have hex : max (ilog2Q y - 52) (-1074) = ilog2Q y - 52 := by omega
  have hpe : (0 : ℚ) < (2 : ℚ) ^ (ilog2Q y - 52) := by positivity
  have hz : ((2 ^ 52 : Int) : ℚ) ≤ y / (2 : ℚ) ^ (ilog2Q y - 52) := by
    rw [le_div_iff₀ hpe]
    calc ((2 ^ 52 : Int) : ℚ) * (2 : ℚ) ^ (ilog2Q y - 52) = (2 : ℚ) ^ ilog2Q y :=
          two52_mul_zpow _
      _ ≤ y := hl1
  have hfloor : (2 ^ 52 : Int) ≤ ⌊y / (2 : ℚ) ^ (ilog2Q y - 52)⌋ := Int.le_floor.mpr hz
  have hr := le_trans hfloor (floor_le_roundHalfEven _)
  have hrq : ((2 ^ 52 : Int) : ℚ) ≤ (roundHalfEven (y / (2 : ℚ) ^ (ilog2Q y - 52)) : ℚ) := by
    exact_mod_cast hr
  unfold roundQ
  simp only [pow2_eq_zpow, hex]
  calc (2 : ℚ) ^ 26 ≤ (2 : ℚ) ^ ilog2Q y := by
        have : (2 : ℚ) ^ (26 : Int) ≤ (2 : ℚ) ^ ilog2Q y :=
          zpow_le_zpow_right₀ (by norm_num) hl
        have h26 : (2 : ℚ) ^ (26 : Int) = 2 ^ 26 := by norm_num
        linarith
    _ = ((2 ^ 52 : Int) : ℚ) * (2 : ℚ) ^ (ilog2Q y - 52) := (two52_mul_zpow _).symm
    _ ≤ (roundHalfEven (y / (2 : ℚ) ^ (ilog2Q y - 52)) : ℚ) * (2 : ℚ) ^ (ilog2Q y - 52) :=
        mul_le_mul_of_nonneg_right hrq hpe.le

/-- Two values that are `10 ^ (-8)` or more apart, one of them below
`2 ^ 26 - 10 ^ (-8)`, do not round to the same binary64 value. -/
theorem roundQ_separated (v c : ℚ) (hv0 : 0 ≤ v) (hv : v ≤ 2 ^ 26 - 1 / 10 ^ 8) (hc0 : 0 ≤ c)
    (hsep : 1 / 10 ^ 8 ≤ |c - v|) : roundQ c ≠ roundQ v := by
  have hv26 : v < 2 ^ 26 := by
    have : (0 : ℚ) < 1 / 10 ^ 8 := by positivity
    linarith
  have ev := roundQ_error v hv0 hv26
  have h28 : (2 : ℚ) ^ (-28 : Int) = 1 / 2 ^ 28 := by norm_num
  rw [h28] at ev
  rw [abs_le] at ev
  intro heq
  by_cases hc : c < 2 ^ 26
  · have ec := roundQ_error c hc0 hc
    rw [h28, heq, abs_le] at ec
    have : |c - v| ≤ 2 * (1 / 2 ^ 28) := by
      rw [abs_le]
      constructor <;> linarith [ec.1, ec.2, ev.1, ev.2]
    have hlt : (2 : ℚ) * (1 / 2 ^ 28) < 1 / 10 ^ 8 := by norm_num
    linarith
  · have := le_roundQ c (not_lt.mp hc)
    rw [heq] at this
    have hlt : (1 : ℚ) / 2 ^ 28 < 1 / 10 ^ 8 := by norm_num
    linarith [ev.2]

/-! ## The decimal exponent and the digit search -/

theorem decExpUp_eq (x : ℚ) (n : Int) (h1 : (10 : ℚ) ^ (n - 1) ≤ x) (h2 : x < (10 : ℚ) ^ n) :
    ∀ (fuel : Nat) (m : Int), m ≤ n → n - m < fuel → decExpUp fuel x m = n := by
  intro fuel
  induction fuel with
  | zero => intro m _ hf; simp at hf; omega
  | succ fuel ih =>
    intro m hm hf
    unfold decExpUp
    rw [pow10_eq_zpow]
    by_cases hlt : x < (10 : ℚ) ^ m
    · rw [if_pos hlt]
      by_contra hne
      have : (10 : ℚ) ^ m ≤ (10 : ℚ) ^ (n - 1) :=
        zpow_le_zpow_right₀ (by norm_num) (by omega)
      linarith
    · rw [if_neg hlt]
      have hmn : m ≠ n := by
        rintro rfl
        exact hlt h2
      exact ih (m + 1) (by omega) (by push_cast at hf ⊢; omega)

theorem decExpDown_eq (x : ℚ) (n : Int) (h1 : (10 : ℚ) ^ (n - 1) ≤ x) (h2 : x < (10 : ℚ) ^ n) :
    ∀ (fuel : Nat) (m : Int), n ≤ m → m - n < fuel → decExpDown fuel x m = n := by
  intro fuel
  induction fuel with
  | zero => intro m _ hf; simp at hf; omega
  | succ fuel ih =>
    intro m hm hf
    unfold decExpDown
    rw [pow10_eq_zpow]
    by_cases hle : (10 : ℚ) ^ (m - 1) ≤ x
    · rw [if_pos hle]
      by_contra hne
      have : (10 : ℚ) ^ n ≤ (10 : ℚ) ^ (m - 1) :=
        zpow_le_zpow_right₀ (by norm_num) (by omega)
      linarith
    · rw [if_neg hle]
      have hmn : m ≠ n := by
        rintro rfl
        exact hle h1
      exact ih (m - 1) (by omega) (by push_cast at hf ⊢; omega)

/-- `decExp` finds the decade of `x`. -/
theorem decExp_eq (x : ℚ) (n : Int) (h1 : (10 : ℚ) ^ (n - 1) ≤ x) (h2 : x < (10 : ℚ) ^ n)
    (hn1 : -399 ≤ n) (hn2 : n ≤ 399) : decExp x = n := by
  unfold decExp
  by_cases hx : 1 ≤ x
  · rw [if_pos hx]
    have hn : 1 ≤ n := by
      by_contra hc
      have : (10 : ℚ) ^ n ≤ (10 : ℚ) ^ (0 : Int) :=
        zpow_le_zpow_right₀ (by norm_num) (by omega)
      simp only [zpow_zero] at this
      linarith
    exact decExpUp_eq x n h1 h2 400 1 hn (by push_cast; omega)
  · rw [if_neg hx]
    have hn : n ≤ 0 := by
      by_contra hc
      have : (10 : ℚ) ^ (0 : Int) ≤ (10 : ℚ) ^ (n - 1) :=
        zpow_le_zpow_right₀ (by norm_num) (by omega)
      simp only [zpow_zero] at this
      linarith
    exact decExpDown_eq x n h1 h2 400 0 hn (by push_cast; omega)

theorem candidate_none (x : ℚ) (n : Int) (k : Nat)
    (h : ∀ m : Nat, roundQ ((m : ℚ) * (10 : ℚ) ^ (n - (k : Int))) ≠ x) :
    candidate x n k = none := by
  unfold candidate
  simp only [pow10_eq_zpow]
  rw [if_neg (h _), if_neg (h _)]

theorem candidate_some (x : ℚ) (n : Int) (k s : Nat)
    (hs : roundQ ((s : ℚ) * (10 : ℚ) ^ (n - (k : Int))) = x)
    (h : ∀ m : Nat, m ≠ s → roundQ ((m : ℚ) * (10 : ℚ) ^ (n - (k : Int))) ≠ x)
    (hlo : ⌊x / (10 : ℚ) ^ (n - (k : Int))⌋.toNat = s ∨
      ⌊x / (10 : ℚ) ^ (n - (k : Int))⌋.toNat + 1 = s) :
    candidate x n k = some s := by
  unfold candidate
  simp only [pow10_eq_zpow]
  rcases hlo with hlo | hlo
  · rw [hlo, if_pos hs, if_neg (h (s + 1) (by omega))]
  · rw [if_neg (h _ (by omega)), hlo, if_pos hs]

theorem shortestAux_eq (x : ℚ) (n : Int) (s k : Nat)
    (hnone : ∀ j : Nat, j < k → candidate x n j = none)
    (hsome : candidate x n k = some s) :
    ∀ (fuel j : Nat), j ≤ k → k - j < fuel → shortestAux fuel x n j = (s, k) := by
  intro fuel
  induction fuel with
  | zero => intro j _ hf; omega
  | succ fuel ih =>
    intro j hj hf
    unfold shortestAux
    by_cases hjk : j = k
    · subst hjk
      rw [hsome]
    · rw [hnone j (by omega)]
      exact ih (j + 1) (by omega) (by omega)

/-- The digit search on the rounded decimal `s * 10 ^ (t - 8)`: for `s` with `k0 + 1`
digits, not divisible by 10 and not 1, it yields `s` itself. -/
theorem shortest_decimal (s k0 t : Nat) (hs10 : ¬ 10 ∣ s) (hs1 : s ≠ 1)
    (hd1 : 10 ^ k0 ≤ s) (hd2 : s < 10 ^ (k0 + 1))
    (hN : s * 10 ^ t < 2 ^ 26 * 10 ^ 8) :
    shortest (roundQ ((s : ℚ) * (10 : ℚ) ^ ((t : Int) - 8))) =
      (s, k0 + 1, (k0 : Int) + 1 + t - 8) := by
  have h10 : (10 : ℚ) ≠ 0 := by norm_num
  have h10' : (1 : ℚ) ≤ 10 := by norm_num
  have hspos : 0 < s := Nat.pos_of_ne_zero (fun h => hs10 (h ▸ dvd_zero 10))
  -- sizes
  have hN16 : s * 10 ^ t < 10 ^ 16 := lt_trans hN (by norm_num)
  have ht : t < 16 := by
    by_contra hc
    have h1 : 10 ^ 16 ≤ 10 ^ t := Nat.pow_le_pow_right (by omega) (by omega)
    have h2 : 10 ^ t ≤ s * 10 ^ t := Nat.le_mul_of_pos_left _ hspos
    omega
  have hk : k0 < 16 := by
    by_contra hc
    have h1 : 10 ^ 16 ≤ 10 ^ k0 := Nat.pow_le_pow_right (by omega) (by omega)
    have h2 : s ≤ s * 10 ^ t := Nat.le_mul_of_pos_right _ (Nat.pow_pos (by omega))
    omega
  have hs2 : 10 ^ k0 + 1 ≤ s := by
    rcases Nat.eq_zero_or_pos k0 with h0 | h0
    · subst h0
      simp only [pow_zero] at hd1 ⊢
      omega
    · have hne : s ≠ 10 ^ k0 := by
        intro h
        apply hs10
        rw [h]
        exact dvd_pow_self 10 (by omega)
      omega
  -- the grid
  obtain ⟨g, hg⟩ : ∃ g : ℚ, g = (10 : ℚ) ^ ((t : Int) - 8) := ⟨_, rfl⟩
  rw [← hg]
  have hgpos : 0 < g := by
    rw [hg]
    positivity
  have hg8 : (1 : ℚ) / 10 ^ 8 ≤ g := by
    have : (10 : ℚ) ^ (-8 : Int) ≤ (10 : ℚ) ^ ((t : Int) - 8) :=
      zpow_le_zpow_right₀ h10' (by omega)
    have h8 : (10 : ℚ) ^ (-8 : Int) = 1 / 10 ^ 8 := by norm_num
    rw [h8, ← hg] at this
    exact this
  have h28 : (1 : ℚ) / 2 ^ 28 < 1 / 10 ^ 8 := by norm_num
  have hgt : g = (10 : ℚ) ^ t / 10 ^ 8 := by
    rw [hg, zpow_sub₀ h10, zpow_natCast]
    norm_num
  obtain ⟨v, hv⟩ : ∃ v : ℚ, v = (s : ℚ) * g := ⟨_, rfl⟩
  rw [← hv]
  have hvpos : 0 < v := by
    rw [hv]
    positivity
  have hvN : v = ((s * 10 ^ t : Nat) : ℚ) / 10 ^ 8 := by
    rw [hv, hgt]
    push_cast
    ring
  have hvle : v ≤ 2 ^ 26 - 1 / 10 ^ 8 := by
    have h1 : ((s * 10 ^ t : Nat) : ℚ) ≤ ((2 ^ 26 * 10 ^ 8 - 1 : Nat) : ℚ) := by
      exact_mod_cast (by omega : s * 10 ^ t ≤ 2 ^ 26 * 10 ^ 8 - 1)
    rw [hvN, div_le_iff₀ (by positivity)]
    calc ((s * 10 ^ t : Nat) : ℚ) ≤ ((2 ^ 26 * 10 ^ 8 - 1 : Nat) : ℚ) := h1
      _ = (2 ^ 26 - 1 / 10 ^ 8) * 10 ^ 8 := by norm_num
  have hv26 : v < 2 ^ 26 := by
    have : (0 : ℚ) < 1 / 10 ^ 8 := by positivity
    linarith
  obtain ⟨x, hx⟩ : ∃ x : ℚ, x = roundQ v := ⟨_, rfl⟩
  rw [← hx]
  have ev : |x - v| ≤ 1 / 2 ^ 28 := by
    have h28' : (2 : ℚ) ^ (-28 : Int) = 1 / 2 ^ 28 := by norm_num
    rw [hx, ← h28']
    exact roundQ_error v hvpos.le hv26
  rw [abs_le] at ev
  -- the decade of x
  have hpn1 : (10 : ℚ) ^ ((k0 : Int) + 1 + t - 8 - 1) = (10 : ℚ) ^ k0 * g := by
    rw [hg, ← zpow_natCast (10 : ℚ) k0, ← zpow_add₀ h10]
    congr 1
    ring
  have hpn : (10 : ℚ) ^ ((k0 : Int) + 1 + t - 8) = (10 : ℚ) ^ (k0 + 1) * g := by
    rw [hg, ← zpow_natCast (10 : ℚ) (k0 + 1), ← zpow_add₀ h10]
    congr 1
    push_cast
    ring
  have hvlow : (10 : ℚ) ^ k0 * g + g ≤ v := by
    have : ((10 ^ k0 + 1 : Nat) : ℚ) ≤ (s : ℚ) := by exact_mod_cast hs2
    push_cast at this
    rw [hv]
    nlinarith
  have hvhigh : v ≤ (10 : ℚ) ^ (k0 + 1) * g - g := by
    have : ((s + 1 : Nat) : ℚ) ≤ ((10 ^ (k0 + 1) : Nat) : ℚ) := by exact_mod_cast hd2
    push_cast at this
    rw [hv]
    nlinarith
  have hdec : decExp x = (k0 : Int) + 1 + t - 8 := by
    apply decExp_eq
    · rw [hpn1]
      linarith [ev.1]
    · rw [hpn]
      linarith [ev.2]
    · omega
    · omega
  -- candidates with fewer digits
  have hnone : ∀ j : Nat, j < k0 + 1 → candidate x ((k0 : Int) + 1 + t - 8) j = none := by
    intro j hj
    apply candidate_none
    intro m
    obtain ⟨d, hd⟩ : ∃ d : Nat, k0 + 1 = j + (d + 1) := ⟨k0 - j, by omega⟩
    have hscale : (10 : ℚ) ^ ((k0 : Int) + 1 + t - 8 - (j : Int)) = (10 : ℚ) ^ (d + 1) * g := by
      rw [hg, ← zpow_natCast (10 : ℚ) (d + 1), ← zpow_add₀ h10]
      congr 1
      have : (k0 : Int) + 1 = j + (d + 1) := by exact_mod_cast hd
      push_cast
      omega
    rw [hscale]
    rw [hx]
    apply roundQ_separated v _ hvpos.le hvle (by positivity)
    have hM : ((m * 10 ^ (d + 1) : Nat) : Int) - (s : Int) ≠ 0 := by
      intro h
      apply hs10
      have : (s : Int) = ((m * 10 ^ (d + 1) : Nat) : Int) := by omega
      have hs' : s = m * 10 ^ (d + 1) := by exact_mod_cast this
      rw [hs', pow_succ, ← Nat.mul_assoc]
      exact Dvd.intro_left _ rfl
    have hM1 : (1 : ℚ) ≤ |((((m * 10 ^ (d + 1) : Nat) : Int) - (s : Int) : Int) : ℚ)| := by
      rw [← Int.cast_abs]
      exact_mod_cast Int.one_le_abs hM
    have hdiff : (m : ℚ) * ((10 : ℚ) ^ (d + 1) * g) - v =
        ((((m * 10 ^ (d + 1) : Nat) : Int) - (s : Int) : Int) : ℚ) * g := by
      rw [hv]
      push_cast
      ring
    rw [hdiff, abs_mul, abs_of_pos hgpos]
    calc (1 : ℚ) / 10 ^ 8 ≤ g := hg8
      _ = 1 * g := (one_mul g).symm
      _ ≤ _ := mul_le_mul_of_nonneg_right hM1 hgpos.le
  -- the candidate with all the digits
  have hscale : (10 : ℚ) ^ ((k0 : Int) + 1 + t - 8 - ((k0 + 1 : Nat) : Int)) = g := by
    rw [hg]
    congr 1
    push_cast
    ring
  have hsome : candidate x ((k0 : Int) + 1 + t - 8) (k0 + 1) = some s := by
    apply candidate_some
    · rw [hscale, hx, hv]
    · intro m hm
      rw [hscale, hx]
      apply roundQ_separated v _ hvpos.le hvle (by positivity)
      have hM : (m : Int) - (s : Int) ≠ 0 := by omega
      have hM1 : (1 : ℚ) ≤ |(((m : Int) - (s : Int) : Int) : ℚ)| := by
        rw [← Int.cast_abs]
        exact_mod_cast Int.one_le_abs hM
      have hdiff : (m : ℚ) * g - v = (((m : Int) - (s : Int) : Int) : ℚ) * g := by
        rw [hv]
        push_cast
        ring
      rw [hdiff, abs_mul, abs_of_pos hgpos]
      calc (1 : ℚ) / 10 ^ 8 ≤ g := hg8
        _ = 1 * g := (one_mul g).symm
        _ ≤ _ := mul_le_mul_of_nonneg_right hM1 hgpos.le
    · rw [hscale]
      have hxg1 : ((s : ℚ) - 1) < x / g := by
        rw [lt_div_iff₀ hgpos]
        have : ((s : ℚ) - 1) * g = v - g := by rw [hv]; ring
        linarith [ev.1]
      have hxg2 : x / g < (s : ℚ) + 1 := by
        rw [div_lt_iff₀ hgpos]
        have : ((s : ℚ) + 1) * g = v + g := by rw [hv]; ring
        linarith [ev.2]
      by_cases hge : (s : ℚ) ≤ x / g
      · left
        have : ⌊x / g⌋ = (s : Int) := by
          rw [Int.floor_eq_iff]
          exact ⟨by exact_mod_cast hge, by exact_mod_cast hxg2⟩
        rw [this]
        exact Int.toNat_natCast s
      · right
        have : ⌊x / g⌋ = (s : Int) - 1 := by
          rw [Int.floor_eq_iff]
          push_cast
          exact ⟨hxg1.le, by linarith [not_le.mp hge]⟩
        rw [this]
        omega
  have haux := shortestAux_eq x _ s (k0 + 1) hnone hsome 20 1 (by omega) (by omega)
  unfold shortest
  simp only [hdec, haux]
  rw [if_neg (by omega)]

/-! ## Digit strings with a fixed number of decimals -/


theorem lowDigits_length (j b : Nat) : (lowDigits j b).length = j := by
  induction j generalizing b with
  | zero => rfl
  | succ j ih => simp [lowDigits, ih]

theorem lowDigits_zero (j : Nat) : lowDigits j 0 = List.replicate j '0' := by
  induction j with
  | zero => rfl
  | succ j ih =>
    simp only [lowDigits, Nat.zero_div, Nat.zero_mod, ih]
    rw [List.replicate_succ']
    rfl

theorem lowDigits_all_isDigit (j b : Nat) : ∀ c ∈ lowDigits j b, isDigit c = true := by
  induction j generalizing b with
  | zero => intro c hc; exact absurd hc (List.not_mem_nil c)
  | succ j ih =>
    intro c hc
    simp only [lowDigits, List.mem_append, List.mem_singleton] at hc
    rcases hc with hc | hc
    · exact ih _ c hc
    · rw [hc]
      exact isDigit_digitChar _

theorem natToStr_split (j : Nat) : ∀ n : Nat, 10 ^ j ≤ n →
    natToStr n = natToStr (n / 10 ^ j) ++ lowDigits j n := by
  induction j with
  | zero => intro n _; simp [lowDigits]
  | succ j ih =>
    intro n hn
    have h10 : ¬ n < 10 := by
      have : 10 ^ 1 ≤ 10 ^ (j + 1) := Nat.pow_le_pow_right (by omega) (by omega)
      omega
    have hdiv : 10 ^ j ≤ n / 10 := by
      rw [Nat.le_div_iff_mul_le (by omega), ← pow_succ]
      exact hn
    rw [natToStr_eq n, if_neg h10, ih (n / 10) hdiv, Nat.div_div_eq_div_mul,
      show 10 * 10 ^ j = 10 ^ (j + 1) by rw [pow_succ, Nat.mul_comm]]
    simp [lowDigits]

theorem natToStr_length_bounds (n : Nat) :
    n < 10 ^ (natToStr n).length ∧ (n ≠ 0 → 10 ^ ((natToStr n).length - 1) ≤ n) := by
  induction n using Nat.strong_induction_on with
  | _ n ih =>
    rw [natToStr_eq n]
    split_ifs with h10
    · simp only [List.length_singleton, pow_one, Nat.sub_self, pow_zero]
      exact ⟨h10, fun h => by omega⟩
    · have hdiv : n / 10 < n := Nat.div_lt_self (by omega) (by omega)
      obtain ⟨h1, h2⟩ := ih (n / 10) hdiv
      have h3 := h2 (by omega)
      simp only [List.length_append, List.length_singleton, Nat.add_sub_cancel]
      constructor
      · rw [pow_succ]
        omega
      · intro _
        have hpos : 0 < (natToStr (n / 10)).length := List.length_pos.mpr (natToStr_ne_nil _)
        obtain ⟨l, hl⟩ : ∃ l, (natToStr (n / 10)).length = l + 1 := ⟨_, (Nat.succ_pred_eq_of_pos hpos).symm⟩
        rw [hl] at h3 ⊢
        rw [Nat.add_sub_cancel] at h3
        rw [pow_succ]
        omega

theorem lowDigits_small (j : Nat) : ∀ n : Nat, n < 10 ^ j → 0 < j →
    lowDigits j n = List.replicate (j - (natToStr n).length) '0' ++ natToStr n := by
  induction j with
  | zero => intro n _ h; omega
  | succ j ih =>
    intro n hn _
    by_cases h10 : n < 10
    · have hd : n / 10 = 0 := by omega
      have hm : n % 10 = n := by omega
      rw [natToStr_eq n, if_pos h10]
      simp only [lowDigits, hd, hm, lowDigits_zero, List.length_singleton, Nat.add_sub_cancel]
    · have hj : 0 < j := by
        rcases Nat.eq_zero_or_pos j with h | h
        · subst h
          simp only [zero_add, pow_one] at hn
          omega
        · exact h
      have hdiv : n / 10 < 10 ^ j := by
        rw [Nat.div_lt_iff_lt_mul (by omega), ← pow_succ]
        exact hn
      rw [natToStr_eq n, if_neg h10]
      simp only [lowDigits, ih (n / 10) hdiv hj, List.length_append, List.length_singleton,
        Nat.add_sub_add_right, List.append_assoc]

theorem digitsVal_append (s t : Str) :
    digitsVal (s ++ t) = digitsVal s * 10 ^ t.length + digitsVal t := by
  induction t using List.reverseRecOn with
  | nil => simp [digitsVal]
  | append_singleton t c ih =>
    rw [← List.append_assoc, digitsVal_append_singleton, ih, digitsVal_append_singleton,
      List.length_append, List.length_singleton, pow_succ]
    ring

theorem digitsVal_lowDigits (j b : Nat) : digitsVal (lowDigits j b) = b % 10 ^ j := by
  induction j generalizing b with
  | zero => simp [lowDigits, digitsVal, Nat.mod_one]
  | succ j ih =>
    simp only [lowDigits]
    rw [digitsVal_append_singleton, ih, digitVal_digitChar _ (Nat.mod_lt _ (by omega)), pow_succ,
      Nat.mul_comm (10 ^ j) 10, Nat.mod_mul]
    ring

theorem fixedBody_eq_specFixed8 (n : Nat) :
    (let m := natToStr n
     let z := if m.length ≤ 8 then List.replicate (8 + 1 - m.length) '0' ++ m else m
     z.take (z.length - 8) ++ '.' :: z.drop (z.length - 8)) = specFixed8 n := by
  obtain ⟨hb1, hb2⟩ := natToStr_length_bounds n
  have hpos : 0 < (natToStr n).length := List.length_pos.mpr (natToStr_ne_nil n)
  unfold specFixed8
  by_cases hn : n < 10 ^ 8
  · have hlen : (natToStr n).length ≤ 8 := by
      by_contra hc
      rcases Nat.eq_zero_or_pos n with h0 | h0
      · subst h0
        exact hc (by decide)
      · have := hb2 (by omega)
        have h8 : 10 ^ 8 ≤ 10 ^ ((natToStr n).length - 1) :=
          Nat.pow_le_pow_right (by omega) (by omega)
        omega
    have hz : List.replicate (8 + 1 - (natToStr n).length) '0' ++ natToStr n =
        '0' :: lowDigits 8 n := by
      rw [lowDigits_small 8 n hn (by omega),
        show 8 + 1 - (natToStr n).length = (8 - (natToStr n).length) + 1 by omega,
        List.replicate_succ]
      rfl
    have hdiv : n / 10 ^ 8 = 0 := Nat.div_eq_of_lt hn
    simp only [if_pos hlen, hz, hdiv, List.length_cons, lowDigits_length]
    rfl
  · have hlen : ¬ (natToStr n).length ≤ 8 := by
      intro hc
      have h8 : 10 ^ (natToStr n).length ≤ 10 ^ 8 := Nat.pow_le_pow_right (by omega) hc
      omega
    have hsplit := natToStr_split 8 n (by omega)
    have hl : (natToStr n).length - 8 = (natToStr (n / 10 ^ 8)).length := by
      rw [hsplit, List.length_append, lowDigits_length]
      omega
    simp only [if_neg hlen, hl]
    rw [hsplit, List.take_left' rfl, List.drop_left' rfl]

theorem dropTrailing_append_singleton (c d : Char) (s : Str) (h : d ≠ c) :
    dropTrailing c (s ++ [d]) = s ++ [d] := by
  unfold dropTrailing
  have hb : (d == c) = false := by simpa using h
  rw [List.reverse_append, List.reverse_singleton, List.singleton_append, List.dropWhile_cons, hb]
  simp

theorem dropTrailing_append_replicate (c : Char) (s : Str) (j : Nat) :
    dropTrailing c (s ++ List.replicate j c) = dropTrailing c s := by
  unfold dropTrailing
  rw [List.reverse_append, List.reverse_replicate]
  congr 1
  induction j with
  | zero => rfl
  | succ j ih =>
    rw [List.replicate_succ, List.cons_append, List.dropWhile_cons]
    simp only [beq_self_eq_true, if_true]
    exact ih

theorem natToStr_last (s : Nat) : ∃ b : Str, natToStr s = b ++ [digitChar (s % 10)] := by
  rw [natToStr_eq s]
  split_ifs with h
  · exact ⟨[], by rw [Nat.mod_eq_of_lt h]; rfl⟩
  · exact ⟨_, rfl⟩

theorem digitChar_ne (d : Nat) (h0 : d ≠ 0) (h : d < 10) :
    digitChar d ≠ '0' ∧ digitChar d ≠ '.' := by
  interval_cases d <;> first | exact absurd rfl h0 | decide

theorem digitChar_ne_point (d : Nat) : digitChar d ≠ '.' := by
  unfold digitChar
  split <;> decide

theorem exists_not_dvd_factor (n : Nat) (h : 0 < n) :
    ∃ s t : Nat, n = s * 10 ^ t ∧ ¬ 10 ∣ s := by
  induction n using Nat.strong_induction_on with
  | _ n ih =>
    by_cases hd : 10 ∣ n
    · obtain ⟨m, rfl⟩ := hd
      have hm : 0 < m := by omega
      obtain ⟨s, t, hst, hs⟩ := ih m (by omega) hm
      refine ⟨s, t + 1, ?_, hs⟩
      rw [hst, pow_succ]
      ring
    · exact ⟨n, 0, by simp, hd⟩

/-- The layout that `toString` gives to the digits of a decimal with up to 8
decimals is the 8-decimal text without trailing zeros and trailing point. -/
theorem formatDigits_eq_spec (s t : Nat) (hs10 : ¬ 10 ∣ s) (h100 : 100 ≤ s * 10 ^ t)
    (hN : s * 10 ^ t < 10 ^ 21) :
    formatDigits (natToStr s) (natToStr s).length (((natToStr s).length : Int) + t - 8) =
      dropTrailing '.' (dropTrailing '0' (specFixed8 (s * 10 ^ t))) := by
  have hspos : 0 < s := Nat.pos_of_ne_zero (fun h => hs10 (h ▸ dvd_zero 10))
  have hsmod : s % 10 ≠ 0 := fun h => hs10 (Nat.dvd_of_mod_eq_zero h)
  obtain ⟨b, hb⟩ := natToStr_last s
  obtain ⟨hc0, hcp⟩ := digitChar_ne (s % 10) hsmod (Nat.mod_lt _ (by omega))
  have hNstr : natToStr (s * 10 ^ t) = natToStr s ++ List.replicate t '0' :=
    natToStr_mul_pow_ten s hspos t
  obtain ⟨hlen1, hlen2⟩ := natToStr_length_bounds (s * 10 ^ t)
  have hlen2' := hlen2 (by omega)
  have hD : (natToStr (s * 10 ^ t)).length = (natToStr s).length + t := by
    rw [hNstr, List.length_append, List.length_replicate]
  rw [hD] at hlen1 hlen2'
  have hk : 0 < (natToStr s).length := List.length_pos.mpr (natToStr_ne_nil s)
  have hD3 : 3 ≤ (natToStr s).length + t := by
    by_contra hc
    have : 10 ^ ((natToStr s).length + t) ≤ 10 ^ 2 := Nat.pow_le_pow_right (by omega) (by omega)
    omega
  have hD21 : (natToStr s).length + t ≤ 21 := by
    by_contra hc
    have : 10 ^ 21 ≤ 10 ^ ((natToStr s).length + t - 1) :=
      Nat.pow_le_pow_right (by omega) (by omega)
    omega
  have hkb : (natToStr s).length = b.length + 1 := by
    rw [hb, List.length_append, List.length_singleton]
  unfold specFixed8 formatDigits
  by_cases hbig : 10 ^ 8 ≤ s * 10 ^ t
  · have hsplit := natToStr_split 8 (s * 10 ^ t) hbig
    have hD9 : 9 ≤ (natToStr s).length + t := by
      by_contra hc
      have : 10 ^ ((natToStr s).length + t) ≤ 10 ^ 8 := Nat.pow_le_pow_right (by omega) (by omega)
      omega
    have hIlen : (natToStr (s * 10 ^ t / 10 ^ 8)).length + 8 = (natToStr s).length + t := by
      have := congrArg List.length hsplit
      rw [hD, List.length_append, lowDigits_length] at this
      omega
    by_cases ht : 8 ≤ t
    · -- an integer
      obtain ⟨u, rfl⟩ : ∃ u, t = u + 8 := ⟨t - 8, by omega⟩
      have hre : natToStr s ++ List.replicate (u + 8) '0' =
          (natToStr s ++ List.replicate u '0') ++ List.replicate 8 '0' := by
        rw [List.append_assoc, ← List.replicate_add]
      have hinj := List.append_inj' (hsplit.symm.trans (hNstr.trans hre))
        (by rw [lowDigits_length, List.length_replicate])
      rw [hinj.1, hinj.2]
      rw [if_pos ⟨by omega, by omega⟩]
      have hn : (((natToStr s).length : Int) + ((u + 8 : Nat) : Int) - 8 -
          ((natToStr s).length : Int)).toNat = u := by
        push_cast
        omega
      rw [hn]
      have h1 : (natToStr s ++ List.replicate u '0') ++ '.' :: List.replicate 8 '0' =
          ((natToStr s ++ List.replicate u '0') ++ ['.']) ++ List.replicate 8 '0' := by
        simp
      rw [h1, dropTrailing_append_replicate,
        dropTrailing_append_singleton '0' '.' _ (by decide)]
      have h2 : (natToStr s ++ List.replicate u '0') ++ ['.'] =
          (natToStr s ++ List.replicate u '0') ++ List.replicate 1 '.' := rfl
      rw [h2, dropTrailing_append_replicate]
      rcases Nat.eq_zero_or_pos u with hu | hu
      · subst hu
        simp only [List.replicate_zero, List.append_nil]
        rw [hb, dropTrailing_append_singleton '.' _ _ hcp]
      · obtain ⟨w, rfl⟩ : ∃ w, u = w + 1 := ⟨u - 1, by omega⟩
        rw [List.replicate_succ', ← List.append_assoc,
          dropTrailing_append_singleton '.' '0' _ (by decide)]
    · -- digits on both sides of the point
      obtain ⟨n', hn'⟩ : ∃ n' : Nat, (natToStr s).length + t = n' + 8 :=
        ⟨(natToStr s).length + t - 8, by omega⟩
      have hI : natToStr (s * 10 ^ t / 10 ^ 8) = (natToStr s).take n' := by
        have h1 : (natToStr (s * 10 ^ t)).take n' = natToStr (s * 10 ^ t / 10 ^ 8) := by
          rw [hsplit]
          exact List.take_left' (by omega)
        rw [← h1, hNstr, List.take_append_of_le_length (by omega)]
      have hF : lowDigits 8 (s * 10 ^ t) = (natToStr s).drop n' ++ List.replicate t '0' := by
        have h1 : (natToStr (s * 10 ^ t)).drop n' = lowDigits 8 (s * 10 ^ t) := by
          rw [hsplit]
          exact List.drop_left' (by omega)
        rw [← h1, hNstr, List.drop_append_of_le_length (by omega)]
      have hdropA : (natToStr s).drop n' = b.drop n' ++ [digitChar (s % 10)] := by
        rw [hb, List.drop_append_of_le_length (by omega)]
      rw [hI, hF, if_neg (by omega), if_pos ⟨by omega, by omega⟩]
      have hn : (((natToStr s).length : Int) + (t : Int) - 8).toNat = n' := by omega
      rw [hn, hdropA]
      have h1 : List.take n' (natToStr s) ++ '.' :: ((b.drop n' ++ [digitChar (s % 10)]) ++
          List.replicate t '0') =
          ((List.take n' (natToStr s) ++ '.' :: b.drop n') ++ [digitChar (s % 10)]) ++
            List.replicate t '0' := by
        simp
      have h2 : List.take n' (natToStr s) ++ '.' :: (b.drop n' ++ [digitChar (s % 10)]) =
          (List.take n' (natToStr s) ++ '.' :: b.drop n') ++ [digitChar (s % 10)] := by
        simp
      rw [h1, dropTrailing_append_replicate, dropTrailing_append_singleton '0' _ _ hc0,
        dropTrailing_append_singleton '.' _ _ hcp, h2]
  · -- below one hundred million units: a leading zero
    have hsmall : s * 10 ^ t < 10 ^ 8 := not_le.mp hbig
    have hD8 : (natToStr s).length + t ≤ 8 := by
      by_contra hc
      have : 10 ^ 8 ≤ 10 ^ ((natToStr s).length + t - 1) :=
        Nat.pow_le_pow_right (by omega) (by omega)
      omega
    have hdiv : s * 10 ^ t / 10 ^ 8 = 0 := Nat.div_eq_of_lt hsmall
    have hF := lowDigits_small 8 (s * 10 ^ t) hsmall (by omega)
    rw [hD, hNstr] at hF
    rw [hdiv, hF, if_neg (by omega), if_neg (by omega), if_pos ⟨by omega, by omega⟩]
    have hn : (-(((natToStr s).length : Int) + (t : Int) - 8)).toNat =
        8 - ((natToStr s).length + t) := by omega
    rw [hn]
    have h0 : natToStr 0 = ['0'] := by decide
    rw [h0, hb]
    have h1 : ['0'] ++ '.' :: (List.replicate (8 - ((b ++ [digitChar (s % 10)]).length + t)) '0' ++
          ((b ++ [digitChar (s % 10)]) ++ List.replicate t '0')) =
        (('0' :: '.' :: (List.replicate (8 - ((b ++ [digitChar (s % 10)]).length + t)) '0' ++ b)) ++
          [digitChar (s % 10)]) ++ List.replicate t '0' := by
      simp
    have h2 : '0' :: '.' :: (List.replicate (8 - ((b ++ [digitChar (s % 10)]).length + t)) '0' ++
          (b ++ [digitChar (s % 10)])) =
        ('0' :: '.' :: (List.replicate (8 - ((b ++ [digitChar (s % 10)]).length + t)) '0' ++ b)) ++
          [digitChar (s % 10)] := by
      simp
    rw [h1, dropTrailing_append_replicate, dropTrailing_append_singleton '0' _ _ hc0,
      dropTrailing_append_singleton '.' _ _ hcp, h2]

theorem shortest_pow_ten (t : Nat) (h2 : 2 ≤ t) (h15 : t ≤ 15) :
    shortest (roundQ ((1 : ℚ) * (10 : ℚ) ^ ((t : Int) - 8))) = (1, 1, (0 : Int) + 1 + t - 8) := by
  rw [← pow10_eq_zpow]
  interval_cases t <;> decide!

theorem shortest_decimal_all (s k0 t : Nat) (hs10 : ¬ 10 ∣ s)
    (hd1 : 10 ^ k0 ≤ s) (hd2 : s < 10 ^ (k0 + 1))
    (h100 : 100 ≤ s * 10 ^ t) (hN : s * 10 ^ t < 2 ^ 26 * 10 ^ 8) :
    shortest (roundQ ((s : ℚ) * (10 : ℚ) ^ ((t : Int) - 8))) =
      (s, k0 + 1, (k0 : Int) + 1 + t - 8) := by
  by_cases hs1 : s = 1
  · subst hs1
    have hk0 : k0 = 0 := by
      by_contra hc
      have : 10 ^ 1 ≤ 10 ^ k0 := Nat.pow_le_pow_right (by omega) (by omega)
      omega
    subst hk0
    have ht2 : 2 ≤ t := by
      by_contra hc
      have : 10 ^ t ≤ 10 ^ 1 := Nat.pow_le_pow_right (by omega) (by omega)
      omega
    have ht15 : t ≤ 15 := by
      by_contra hc
      have : 10 ^ 16 ≤ 10 ^ t := Nat.pow_le_pow_right (by omega) (by omega)
      have h16 : 2 ^ 26 * 10 ^ 8 < 10 ^ 16 := by norm_num
      omega
    have := shortest_pow_ten t ht2 ht15
    simpa using this
  · exact shortest_decimal s k0 t hs10 hs1 hd1 hd2 hN

/-- `toString` of the binary64 value nearest to `n / 10 ^ 8`, for `n` from 100 to
below `2 ^ 26 * 10 ^ 8`, is the 8-decimal text of `n` without trailing zeros and
trailing point. -/
theorem posToString_round8 (n : Nat) (h100 : 100 ≤ n) (hN : n < 2 ^ 26 * 10 ^ 8) :
    posToString (roundQ ((n : ℚ) / 10 ^ 8)) =
      dropTrailing '.' (dropTrailing '0' (specFixed8 n)) := by
  obtain ⟨s, t, rfl, hs10⟩ := exists_not_dvd_factor n (by omega)
  have hspos : 0 < s := Nat.pos_of_ne_zero (fun h => hs10 (h ▸ dvd_zero 10))
  obtain ⟨hd2, hd1⟩ := natToStr_length_bounds s
  have hd1' := hd1 (by omega)
  have hk : 0 < (natToStr s).length := List.length_pos.mpr (natToStr_ne_nil s)
  obtain ⟨k0, hk0⟩ : ∃ k0, (natToStr s).length = k0 + 1 := ⟨_, (Nat.succ_pred_eq_of_pos hk).symm⟩
  rw [hk0] at hd2 hd1'
  rw [Nat.add_sub_cancel] at hd1'
  have hv : ((s * 10 ^ t : Nat) : ℚ) / 10 ^ 8 = (s : ℚ) * (10 : ℚ) ^ ((t : Int) - 8) := by
    rw [zpow_sub₀ (by norm_num : (10 : ℚ) ≠ 0), zpow_natCast]
    push_cast
    norm_num
    ring
  have hsh := shortest_decimal_all s k0 t hs10 hd1' hd2 h100 hN
  have hfmt := formatDigits_eq_spec s t hs10 h100 (lt_trans hN (by norm_num))
  rw [hk0] at hfmt
  unfold posToString
  rw [hv, hsh]
  simp only
  rw [← hfmt]
  push_cast
  rfl

/-! ## Resolving rounds to 8 decimals -/

theorem toFixed_eq_specFixed8 (neg : Bool) (mag : ℚ) (hbig : ¬ pow10 21 ≤ mag) :
    toFixed (Num.fin neg mag) 8 =
      (if neg = true ∧ mag ≠ 0 then '-' :: specFixed8 (specRound8 mag)
       else specFixed8 (specRound8 mag)) := by
  have hcast : ⌊mag * ((10 ^ 8 : Nat) : ℚ) + 1 / 2⌋.toNat = specRound8 mag := by
    unfold specRound8
    push_cast
    rfl
  have hbody := fixedBody_eq_specFixed8 (specRound8 mag)
  simp only at hbody
  simp only [toFixed, hbig, if_false, hcast, show ¬ (8 = 0) by decide, hbody]

theorem parseFloat_specFixed8 (sg : Bool) (n : Nat) :
    parseFloat ((if sg = true then '-' :: natToStr (n / 10 ^ 8) else natToStr (n / 10 ^ 8)) ++
      '.' :: lowDigits 8 n) = Num.roundMag sg ((n : ℚ) / 10 ^ 8) := by
  have hs := scanUnsigned_digits_point_digits (natToStr (n / 10 ^ 8)) (lowDigits 8 n)
    (natToStr_ne_nil _) (natToStr_all_isDigit _) (lowDigits_all_isDigit 8 n)
  have := parseFloat_signed_digits sg (natToStr (n / 10 ^ 8)) ('.' :: lowDigits 8 n) _
    (natToStr_ne_nil _) (natToStr_all_isDigit _) hs
  rw [this, digitsVal_append, digitsVal_natToStr, digitsVal_lowDigits, lowDigits_length,
    Nat.div_add_mod']
  simp only [litValue, pow10_neg_natCast]
  congr 1
  ring

theorem specRound8_lt (mag : ℚ) (b : Nat) (h : specRound8 mag < b) :
    mag * 10 ^ 8 + 1 / 2 < b := by
  unfold specRound8 at h
  by_contra hc
  have h1 : ((b : Int) : ℚ) ≤ mag * 10 ^ 8 + 1 / 2 := by
    push_cast
    exact not_lt.mp hc
  have h2 : (b : Int) ≤ ⌊mag * 10 ^ 8 + 1 / 2⌋ := Int.le_floor.mpr h1
  omega

theorem le_specRound8 (mag : ℚ) (a : Nat) (h : a ≤ specRound8 mag) (ha : 0 < a) :
    (a : ℚ) ≤ mag * 10 ^ 8 + 1 / 2 := by
  unfold specRound8 at h
  have h1 : (a : Int) ≤ ⌊mag * 10 ^ 8 + 1 / 2⌋ := by omega
  have := Int.le_floor.mp h1
  exact_mod_cast this

/-- The text that `calculate` produces from a finite result whose rounding to 8
decimals is zero, or at least `10 ^ (-6)` and below `2 ^ 26`: the rounded value, in
minimal decimal form. -/
theorem round8_text (neg : Bool) (mag : ℚ)
    (hrange : specRound8 mag = 0 ∨ (100 ≤ specRound8 mag ∧ specRound8 mag < 2 ^ 26 * 10 ^ 8)) :
    numToString (parseFloat (toFixed (Num.fin neg mag) 8)) =
      specMinimalDecimal neg (specRound8 mag) := by
  have hlt : specRound8 mag < 2 ^ 26 * 10 ^ 8 := by
    rcases hrange with h | h
    · rw [h]
      norm_num
    · exact h.2
  have hbound := specRound8_lt mag _ hlt
  have hbig : ¬ pow10 21 ≤ mag := by
    rw [show (21 : Int) = ((21 : Nat) : Int) from rfl, pow10_natCast, not_le]
    have : ((2 ^ 26 * 10 ^ 8 : Nat) : ℚ) = 2 ^ 26 * 10 ^ 8 := by norm_num
    rw [this] at hbound
    have h21 : (0 : ℚ) < 10 ^ 8 := by positivity
    nlinarith
  have hparse : parseFloat (toFixed (Num.fin neg mag) 8) =
      Num.roundMag (decide (neg = true ∧ mag ≠ 0)) ((specRound8 mag : ℚ) / 10 ^ 8) := by
    rw [toFixed_eq_specFixed8 neg mag hbig, ← parseFloat_specFixed8]
    unfold specFixed8
    by_cases hc : neg = true ∧ mag ≠ 0
    · simp only [hc, and_self, if_true, decide_True, ne_eq, not_false_eq_true, List.cons_append]
    · simp only [hc, if_false, decide_False]
      simp
  rw [hparse]
  rcases hrange with h0 | ⟨h100, hN⟩
  · rw [h0]
    have hr : Num.roundMag (decide (neg = true ∧ mag ≠ 0)) (((0 : Nat) : ℚ) / 10 ^ 8) =
        Num.fin (decide (neg = true ∧ mag ≠ 0)) 0 := by
      have := roundMag_natCast (decide (neg = true ∧ mag ≠ 0)) 0 (by norm_num)
      simpa using this
    have h1 : ∀ sg : Bool, numToString (Num.fin sg 0) = "0".toList := by
      intro sg
      simp [numToString]
    have h2 : specMinimalDecimal neg 0 = "0".toList := by
      cases neg <;> decide
    rw [hr, h1, h2]
  · have hmag : mag ≠ 0 := by
      intro h
      have := le_specRound8 mag 100 h100 (by norm_num)
      rw [h] at this
      norm_num at this
    have hsg : decide (neg = true ∧ mag ≠ 0) = neg := by
      cases neg <;> simp [hmag]
    rw [hsg]
    have hvpos : (0 : ℚ) < (specRound8 mag : ℚ) / 10 ^ 8 := by
      have : (0 : ℚ) < (specRound8 mag : ℚ) := by exact_mod_cast (by omega : 0 < specRound8 mag)
      positivity
    have hv100 : (100 : ℚ) / 10 ^ 8 ≤ (specRound8 mag : ℚ) / 10 ^ 8 := by
      apply div_le_div_of_nonneg_right _ (by positivity)
      exact_mod_cast h100
    have hv26 : (specRound8 mag : ℚ) / 10 ^ 8 < 2 ^ 26 := by
      rw [div_lt_iff₀ (by positivity)]
      exact_mod_cast hN
    have ev := roundQ_error _ hvpos.le hv26
    have h28 : (2 : ℚ) ^ (-28 : Int) = 1 / 2 ^ 28 := by norm_num
    rw [h28, abs_le] at ev
    have hxpos : 0 < roundQ ((specRound8 mag : ℚ) / 10 ^ 8) := by
      have : (1 : ℚ) / 2 ^ 28 < 100 / 10 ^ 8 := by norm_num
      linarith [ev.1]
    have hxsmall : ¬ pow2 1024 ≤ roundQ ((specRound8 mag : ℚ) / 10 ^ 8) := by
      rw [show (1024 : Int) = ((1024 : Nat) : Int) from rfl, pow2_of_nonneg, not_le]
      have : (2 : ℚ) ^ 26 + 1 / 2 ^ 28 < 2 ^ 1024 := by norm_num
      linarith [ev.2]
    have hround : Num.roundMag neg ((specRound8 mag : ℚ) / 10 ^ 8) =
        Num.fin neg (roundQ ((specRound8 mag : ℚ) / 10 ^ 8)) := by
      unfold Num.roundMag
      simp only [hxsmall, if_false]
    have hne : specRound8 mag ≠ 0 := by omega
    rw [hround]
    simp only [numToString, if_neg hxpos.ne', posToString_round8 _ h100 hN, specMinimalDecimal]
    cases neg <;> simp [hne]

/-- C11 (amended): a successful `calculate` (resolve) or `handleEqual`, with finite
result of sign `neg` and magnitude `mag` whose rounding to 8 decimal places is zero
or at least `10 ^ (-6)` and below `2 ^ 26`, sets `currentNumber` to that rounded value
written as the minimal decimal string (8 decimals, then no trailing zeros and no
trailing point), clears `previousNumber` and `operation` and records the same text
as result of the new history entry. -/
theorem resolve_rounds_to_8_decimals (clk : Clock) (s : State) (neg : Bool) (mag : ℚ)
    (hset : s.previousNumber ≠ [] ∧ s.currentNumber ≠ [] ∧ s.operation ≠ [])
    (hres : binaryResult s.operation (parseFloat s.previousNumber)
      (parseFloat s.currentNumber) = Outcome.value (Num.fin neg mag))
    (hrange : specRound8 mag = 0 ∨
      (100 ≤ specRound8 mag ∧ specRound8 mag < 2 ^ 26 * 10 ^ 8)) :
    handleEqual clk s = calculate clk s s ∧
    calculate clk s s =
      { s with
        currentNumber := specMinimalDecimal neg (specRound8 mag)
        previousNumber := []
        operation := []
        history :=
          { id := clk.now
            calculation := s.previousNumber ++ " ".toList ++ s.operation ++ " ".toList ++
              s.currentNumber
            result := specMinimalDecimal neg (specRound8 mag)
            timestamp := clk.stamp } :: s.history } := by
  have hskip : ¬(s.previousNumber = [] ∨ s.currentNumber = [] ∨ s.operation = []) := by
    simp [hset.1, hset.2.1, hset.2.2]
  constructor
  · unfold handleEqual
    rw [if_neg (by simp [hset.1, hset.2.2])]
  · rw [calculate_value clk s s _ hskip hres,
      if_pos (show (Num.fin neg mag).isFinite = true from rfl), round8_text neg mag hrange]

theorem resolve_rounds_to_8_decimals_witness :
    handleEqual clock0 (pending "0.1".toList "+".toList "0.2".toList) =
      { pending [] [] "0.3".toList with
        history := [{ id := clock0.now, calculation := "0.1 + 0.2".toList,
                      result := "0.3".toList, timestamp := clock0.stamp }] } ∧
    "0.3".toList ≠ "0.30000000000000004".toList := by
  have h := resolve_rounds_to_8_decimals clock0 (pending "0.1".toList "+".toList "0.2".toList)
    false (1351079888211149 / 4503599627370496) (by decide) (by decide!)
    (Or.inr ⟨by decide!, by decide!⟩)
  have e : specMinimalDecimal false (specRound8 (1351079888211149 / 4503599627370496)) =
      "0.3".toList := by decide!
  rw [e] at h
  refine ⟨?_, by decide⟩
  rw [h.1, h.2]
  rfl

/-- C11 as stated fails for small and for large results.  "1" `/` "10000000" has
the result 1e-7, whose 8-decimal text is "0.0000001", and gives "1e-7";
"67108864.1" `+` "0" has a result that rounds to 67108864.09999999 and gives
"67108864.1". -/
theorem resolve_text_outside_range :
    binaryResult "/".toList (parseFloat "1".toList) (parseFloat "10000000".toList) =
      Outcome.value (Num.fin false (944473296573929 / 2 ^ 73)) ∧
    specMinimalDecimal false (specRound8 (944473296573929 / 2 ^ 73)) = "0.0000001".toList ∧
    (calculate clock0 (pending "1".toList "/".toList "10000000".toList)
      (pending "1".toList "/".toList "10000000".toList)).currentNumber = "1e-7".toList ∧
    binaryResult "+".toList (parseFloat "67108864.1".toList) (parseFloat "0".toList) =
      Outcome.value (Num.fin false (2251799817040691 / 2 ^ 25)) ∧
    specMinimalDecimal false (specRound8 (2251799817040691 / 2 ^ 25)) =
      "67108864.09999999".toList ∧
    (calculate clock0 (pending "67108864.1".toList "+".toList "0".toList)
      (pending "67108864.1".toList "+".toList "0".toList)).currentNumber =
        "67108864.1".toList := by
  decide!

/-! ## Removing a history entry -/

theorem length_filter_id_ne (id : Nat) (log : List Entry)
    (hnodup : (log.map fun item => item.id).Nodup) (hmem : ∃ item ∈ log, item.id = id) :
    (log.filter fun item => item.id ≠ id).length + 1 = log.length := by
  induction log with
  | nil =>
    obtain ⟨item, hi, _⟩ := hmem
    exact absurd hi (List.not_mem_nil item)
  | cons a l ih =>
    rw [List.map_cons, List.nodup_cons] at hnodup
    by_cases ha : a.id = id
    · have hnone : ∀ item ∈ l, item.id ≠ id := by
        intro item hi hid
        exact hnodup.1 (List.mem_map.mpr ⟨item, hi, by rw [hid, ha]⟩)
      have hkeep : (l.filter fun item => item.id ≠ id) = l :=
        List.filter_eq_self.mpr (fun item hi => by simpa using hnone item hi)
      rw [List.filter_cons_of_neg (by simp [ha]), hkeep, List.length_cons]
    · have hmem2 : ∃ item ∈ l, item.id = id := by
        obtain ⟨item, hi, hid⟩ := hmem
        rcases List.mem_cons.mp hi with h | h
        · exact absurd (h ▸ hid) ha
        · exact ⟨item, h, hid⟩
      have := ih hnodup.2 hmem2
      rw [List.filter_cons_of_pos (by simp [ha]), List.length_cons, List.length_cons, this]

/-- C12: `deleteHistoryItem(id)` keeps, in their original order and number, exactly
the entries whose id differs from `id` and touches nothing else; when no entry has
that id the log is unchanged, and when the ids of the log are unique and one entry
has that id, exactly one entry is removed. -/
theorem deleteHistoryItem_spec (id : Nat) (s : State) :
    (deleteHistoryItem id s).history.Sublist s.history ∧
    (∀ item, item ∈ (deleteHistoryItem id s).history ↔ item ∈ s.history ∧ item.id ≠ id) ∧
    (∀ item, item.id ≠ id →
      (deleteHistoryItem id s).history.count item = s.history.count item) ∧
    ((∀ item ∈ s.history, item.id ≠ id) → (deleteHistoryItem id s).history = s.history) ∧
    ((s.history.map fun item => item.id).Nodup → (∃ item ∈ s.history, item.id = id) →
      (deleteHistoryItem id s).history.length + 1 = s.history.length) ∧
    deleteHistoryItem id s = { s with history := (deleteHistoryItem id s).history } := by
  refine ⟨?_, ?_, ?_, ?_, ?_, rfl⟩
  · exact List.filter_sublist _
  · intro item
    simp [deleteHistoryItem, List.mem_filter]
  · intro item hne
    simp only [deleteHistoryItem]
    rw [List.count_filter]
    simpa using hne
  · intro h
    exact List.filter_eq_self.mpr (fun item hi => by simpa using h item hi)
  · intro hnodup hmem
    exact length_filter_id_ne id s.history hnodup hmem

theorem deleteHistoryItem_spec_witness :
    (deleteHistoryItem 2 { init with history :=
      [⟨3, "1 + 2".toList, "3".toList, []⟩, ⟨2, "sqrt(4)".toList, "2".toList, []⟩,
       ⟨1, "5 + 3".toList, "8".toList, []⟩] }).history =
      [⟨3, "1 + 2".toList, "3".toList, []⟩, ⟨1, "5 + 3".toList, "8".toList, []⟩] ∧
    (deleteHistoryItem 7 { init with history :=
      [⟨3, "1 + 2".toList, "3".toList, []⟩, ⟨1, "5 + 3".toList, "8".toList, []⟩] }).history =
      [⟨3, "1 + 2".toList, "3".toList, []⟩, ⟨1, "5 + 3".toList, "8".toList, []⟩] ∧
    (deleteHistoryItem 2 { init with history :=
      [⟨3, "1 + 2".toList, "3".toList, []⟩, ⟨2, "sqrt(4)".toList, "2".toList, []⟩,
       ⟨1, "5 + 3".toList, "8".toList, []⟩] }).history.length + 1 = 3 :=
  ⟨by decide,
   (deleteHistoryItem_spec 7 { init with history :=
      [⟨3, "1 + 2".toList, "3".toList, []⟩, ⟨1, "5 + 3".toList, "8".toList, []⟩] }).2.2.2.1
      (by decide),
   (deleteHistoryItem_spec 2 { init with history :=
      [⟨3, "1 + 2".toList, "3".toList, []⟩, ⟨2, "sqrt(4)".toList, "2".toList, []⟩,
       ⟨1, "5 + 3".toList, "8".toList, []⟩] }).2.2.2.2.1 (by decide) (by decide)⟩

/-! ## The constant keys -/

/-- C13, the code at the failing input: in scientific mode the keys "p" and "e" reach
`handleScientificOperation` with "pi" and "e", which it does not handle, so the
state is unchanged, whereas the two constant buttons set `currentNumber` to
"3.141592653589793" and "2.718281828459045". -/
theorem constant_keys_do_nothing (M : MathImpl) (clk : Clock) (s : State) :
    handleKeyPress M clk "p".toList { s with isScientific := true } =
      { s with isScientific := true } ∧
    handleKeyPress M clk "e".toList { s with isScientific := true } =
      { s with isScientific := true } ∧
    (scientificButton M clk "pi".toList { s with isScientific := true }).currentNumber =
      "3.141592653589793".toList ∧
    (scientificButton M clk "e".toList { s with isScientific := true }).currentNumber =
      "2.718281828459045".toList ∧
    (handleKeyPress M clk "p".toList { init with isScientific := true }).currentNumber =
      "0".toList := by
  have hp : unaryResult M "pi".toList
      (parseFloat ({ s with isScientific := true } : State).currentNumber) =
      Outcome.returned := rfl
  have he : unaryResult M "e".toList
      (parseFloat ({ s with isScientific := true } : State).currentNumber) =
      Outcome.returned := rfl
  have hp0 : unaryResult M "pi".toList
      (parseFloat ({ init with isScientific := true } : State).currentNumber) =
      Outcome.returned := rfl
  have kp : ∀ t : State, t.isScientific = true →
      handleKeyPress M clk "p".toList t = handleScientificOperation M clk "pi".toList t := by
    intro t ht
    simp [handleKeyPress, toLowerCase, isNumberKey, isOperatorKey, isDigit, scientificKeyMap, ht]
  have ke : ∀ t : State, t.isScientific = true →
      handleKeyPress M clk "e".toList t = handleScientificOperation M clk "e".toList t := by
    intro t ht
    simp [handleKeyPress, toLowerCase, isNumberKey, isOperatorKey, isDigit, scientificKeyMap, ht]
  have e1 : numToString mathPI = "3.141592653589793".toList := by decide!
  have e2 : numToString mathE = "2.718281828459045".toList := by decide!
  refine ⟨?_, ?_, ?_, ?_, ?_⟩
  · rw [kp _ rfl, handleScientificOperation_returned M clk _ _ hp]
  · rw [ke _ rfl, handleScientificOperation_returned M clk _ _ he]
  · simp [scientificButton, e1]
  · simp [scientificButton, e2]
  · rw [kp _ rfl, handleScientificOperation_returned M clk _ _ hp0]
    rfl

end Calculator
